import Mathlib

/-!
# Regexp_to_DFA: a shallow embedding of the regular-expression pipeline

The development follows the C++ sources `graph.cpp`, `nfa.cpp` and `dfa.cpp`:

* `std::set<T>` is a list kept in strictly ascending order by `setInsert`
  (iteration order of a `std::set` is ascending, `*s.begin()` is the head);
* `std::map` / `std::unordered_map` are association lists read with `mapFind`
  and written with `mapSet` (these maps are never iterated in the sources);
* `int` is `Int` (state counters stay far below `2^31` for every pattern that
  fits in memory, so no wrap-around is modelled), `char` is `Char`;
* member functions that mutate a `Graph` return the new graph, the builders'
  counters are passed explicitly;
* `while` loops run on a fuel argument; each loop comes with the bound that
  is enough for it to reach its exit condition.
-/

namespace RegexpToDFA

/-! ## Containers -/

/-- Insertion into a `std::set`: the ascending list stays ascending, an element
already present is not inserted again. -/
def setInsert {α : Type} [LinearOrder α] (x : α) : List α → List α
  | [] => [x]
  | y :: ys => if x < y then x :: y :: ys else if x = y then y :: ys else y :: setInsert x ys

/-- Range insertion `s.insert(first, last)`. -/
def setInsertAll {α : Type} [LinearOrder α] (s : List α) (xs : List α) : List α :=
  xs.foldl (fun acc x => setInsert x acc) s

/-- Removal `s.erase(x)` from a `std::set`. -/
def setErase {α : Type} [DecidableEq α] (x : α) (s : List α) : List α :=
  s.filter (fun y => decide (y ≠ x))

/-- Lookup `m.find(k)` in a map. -/
def mapFind {κ β : Type} [DecidableEq κ] (k : κ) : List (κ × β) → Option β
  | [] => none
  | (k', b) :: m => if k' = k then some b else mapFind k m

/-- Assignment `m[k] = b` in a map. -/
def mapSet {κ β : Type} [DecidableEq κ] (k : κ) (b : β) : List (κ × β) → List (κ × β)
  | [] => [(k, b)]
  | (k', b') :: m => if k' = k then (k, b) :: m else (k', b') :: mapSet k b m

/-- Read access `m[k]` on a `std::map<int,int>`: a missing key reads as `0`
(the value-initialised entry `operator[]` creates). -/
def mapGet (m : List (Int × Int)) (k : Int) : Int :=
  (mapFind k m).getD 0

/-! ## graph.h / graph.cpp -/

/-- The `Edge` struct of `graph.h`. -/
structure Edge where
  u : Int
  v : Int
  w : Char
deriving DecidableEq

/-- The data members of class `Graph`. -/
structure Graph where
  states : List Int
  edges : List Edge
  alphabet : List Char
  initialState : Int
  acceptStates : List Int
  transitions : List (Int × List (Char × List Int))
deriving DecidableEq

namespace Graph

/-- The constructor `Graph::Graph()`: `initialState(-1)`, everything else empty. -/
def empty : Graph :=
  { states := [], edges := [], alphabet := [], initialState := -1,
    acceptStates := [], transitions := [] }

/-- `Graph::addState`. -/
def addState (g : Graph) (state : Int) : Graph :=
  { g with states := setInsert state g.states }

/-- `Graph::addEdge`: appends the edge, registers the symbol and inserts `v`
into `transitions[u][w]`. The alphabet is kept in ascending order of the
characters as `Char` values; `std::set<char>` iterates in the order of `char`,
which is the same for the bytes below `0x80` and puts the bytes from `0x80` on
first where `char` is signed. Only the order in which the loops over the
alphabet run depends on it. -/
def addEdge (g : Graph) (u v : Int) (w : Char) : Graph :=
  let inner := (mapFind u g.transitions).getD []
  let targets := (mapFind w inner).getD []
  { g with
    edges := g.edges ++ [⟨u, v, w⟩]
    alphabet := setInsert w g.alphabet
    transitions := mapSet u (mapSet w (setInsert v targets) inner) g.transitions }

/-- `Graph::setInitialState`. -/
def setInitialState (g : Graph) (state : Int) : Graph :=
  { g with initialState := state, states := setInsert state g.states }

/-- `Graph::addAcceptState`. -/
def addAcceptState (g : Graph) (state : Int) : Graph :=
  { g with acceptStates := setInsert state g.acceptStates, states := setInsert state g.states }

/-- `Graph::getNextStates(int s, char c)`. -/
def getNextStates (g : Graph) (s : Int) (c : Char) : List Int :=
  match mapFind s g.transitions with
  | none => []
  | some inner =>
    match mapFind c inner with
    | none => []
    | some targets => targets

/-- `Graph::getNextStates(const std::set<int> &S, char c)`. -/
def getNextStatesSet (g : Graph) (S : List Int) (c : Char) : List Int :=
  S.foldl (fun result s => setInsertAll result (g.getNextStates s c)) []

end Graph

/-! ## nfa.cpp -/

/-- The macro `EPSILON_CHAR`. -/
def EPSILON_CHAR : Char := '$'

/-- What a call can do: return a value, or run into undefined behaviour
(`top()` / `pop()` on an empty `std::stack`). The sources contain no `throw`. -/
inductive Outcome (α : Type) where
  | returned (a : α)
  | raised (what : String)
  | undefinedBehaviour
deriving DecidableEq

/-- `NFABuilder::isOperator`. -/
def isOperator (c : Char) : Bool :=
  c = '|' || c = '.' || c = '*' || c = '+' || c = '?'

/-- `NFABuilder::getPrecedence`. -/
def getPrecedence (op : Char) : Int :=
  if op = '*' ∨ op = '+' ∨ op = '?' then 3
  else if op = '.' then 2
  else if op = '|' then 1
  else 0

/-- The loop `while (!operators.empty() && operators.top() != '(' &&
getPrecedence(operators.top()) >= p) { postfix += top; pop; }`; the stack is a
list with its top at the head. -/
def popWhilePrec (p : Int) : List Char → List Char → List Char × List Char
  | out, [] => (out, [])
  | out, op :: ops =>
    if op ≠ '(' ∧ getPrecedence op ≥ p then popWhilePrec p (out ++ [op]) ops
    else (out, op :: ops)

/-- The loop `while (!operators.empty() && operators.top() != '(')` of the
closing-parenthesis branch. -/
def popUntilParen : List Char → List Char → List Char × List Char
  | out, [] => (out, [])
  | out, op :: ops =>
    if op ≠ '(' then popUntilParen (out ++ [op]) ops
    else (out, op :: ops)

/-- One iteration of the scan of `infixToPostfix` on a character that is not
consumed as an escape: returns the new `postfix`, `operators`, `lastWasOperand`. -/
def scanChar (c : Char) (out operators : List Char) (lastWasOperand : Bool) :
    List Char × List Char × Bool :=
  if !isOperator c && c ≠ '(' && c ≠ ')' then
    if lastWasOperand then
      let r := popWhilePrec (getPrecedence '.') out operators
      (r.1 ++ [c], '.' :: r.2, true)
    else (out ++ [c], operators, true)
  else if c = '(' then
    if lastWasOperand then (out, c :: '.' :: operators, false)
    else (out, c :: operators, false)
  else if c = ')' then
    let r := popUntilParen out operators
    (r.1, r.2.tail, true)
  else
    let r := popWhilePrec (getPrecedence c) out operators
    (r.1, c :: r.2, false)

/-- The `for` loop of `infixToPostfix` over the remaining input. -/
def scanLoop : List Char → List Char → List Char → Bool → List Char × List Char
  | [], out, operators, _ => (out, operators)
  | c :: rest, out, operators, lastWasOperand =>
    if c = '\\' then
      match rest with
      | d :: rest' => scanLoop rest' (out ++ [d]) operators true
      | [] =>
        let r := scanChar c out operators lastWasOperand
        (r.1, r.2.1)
    else
      let r := scanChar c out operators lastWasOperand
      scanLoop rest r.1 r.2.1 r.2.2

/-- `NFABuilder::infixToPostfix`: the scan, then the final flush of the
operator stack (top first). -/
def infixToPostfix (pattern : List Char) : List Char :=
  let r := scanLoop pattern [] [] false
  r.1 ++ r.2

/-- The largest value of the 32-bit `int` that holds `stateCounter`
(`nfa.h` line 35). -/
def INT_MAX : Int := 2147483647

/-- The smallest value of the 32-bit `int`. -/
def INT_MIN : Int := -2147483648

/-- A call that finds `stateCounter` at `before` and leaves it at `after` has
stayed inside the range of `int`: `before` is an `int` value and no
`stateCounter++` has gone past `INT_MAX`. The functions below compute with the
mathematical value of the counter, which only grows; under this condition it
is the value the `int` member holds. -/
def CounterInRange (before after : Int) : Prop :=
  INT_MIN ≤ before ∧ after ≤ INT_MAX

instance (before after : Int) : Decidable (CounterInRange before after) := by
  unfold CounterInRange
  infer_instance

/-- `NFABuilder::createBasicNFA`; the second component is the new `stateCounter`.
The counter is the mathematical value of the `int` member (see
`CounterInRange`). -/
def createBasicNFA (c : Char) (stateCounter : Int) : Graph × Int :=
  let start := stateCounter
  let end_ := stateCounter + 1
  let nfa := Graph.empty
  let nfa := nfa.addState start
  let nfa := nfa.addState end_
  let nfa := nfa.setInitialState start
  let nfa := nfa.addAcceptState end_
  let nfa := nfa.addEdge start end_ c
  (nfa, stateCounter + 2)

/-- `NFABuilder::mergeNFA`: returns the target after the merge, the state map
and the new `stateCounter`. Each `stateCounter++` adds one to the mathematical
value of the counter (see `CounterInRange`). -/
def mergeNFA (target source : Graph) (stateCounter : Int) :
    Graph × List (Int × Int) × Int :=
  let r := source.states.foldl
    (fun (acc : Graph × List (Int × Int) × Int) oldState =>
      let newState := acc.2.2
      (acc.1.addState newState, mapSet oldState newState acc.2.1, acc.2.2 + 1))
    (target, [], stateCounter)
  let stateMap := r.2.1
  let target := source.edges.foldl
    (fun t edge => t.addEdge (mapGet stateMap edge.u) (mapGet stateMap edge.v) edge.w) r.1
  let target := source.acceptStates.foldl
    (fun t oldAcceptState => t.addAcceptState (mapGet stateMap oldAcceptState)) target
  (target, stateMap, r.2.2)

/-- `NFABuilder::createUnionNFA`. -/
def createUnionNFA (nfa1 nfa2 : Graph) (stateCounter : Int) : Graph × Int :=
  let start := stateCounter
  let end_ := stateCounter + 1
  let result := Graph.empty
  let result := result.addState start
  let result := result.addState end_
  let result := result.setInitialState start
  let result := result.addAcceptState end_
  let m1 := mergeNFA result nfa1 (stateCounter + 2)
  let m2 := mergeNFA m1.1 nfa2 m1.2.2
  let map1 := m1.2.1
  let map2 := m2.2.1
  let result := m2.1
  let result := result.addEdge start (mapGet map1 nfa1.initialState) EPSILON_CHAR
  let result := result.addEdge start (mapGet map2 nfa2.initialState) EPSILON_CHAR
  let result := nfa1.acceptStates.foldl
    (fun r acceptState => r.addEdge (mapGet map1 acceptState) end_ EPSILON_CHAR) result
  let result := nfa2.acceptStates.foldl
    (fun r acceptState => r.addEdge (mapGet map2 acceptState) end_ EPSILON_CHAR) result
  (result, m2.2.2)

/-- `NFABuilder::createConcatNFA`. -/
def createConcatNFA (nfa1 nfa2 : Graph) (stateCounter : Int) : Graph × Int :=
  let result := Graph.empty
  let m1 := mergeNFA result nfa1 stateCounter
  let m2 := mergeNFA m1.1 nfa2 m1.2.2
  let map1 := m1.2.1
  let map2 := m2.2.1
  let result := m2.1
  let result := result.setInitialState (mapGet map1 nfa1.initialState)
  let result := nfa1.acceptStates.foldl
    (fun r acceptState =>
      r.addEdge (mapGet map1 acceptState) (mapGet map2 nfa2.initialState) EPSILON_CHAR) result
  let result := nfa2.acceptStates.foldl
    (fun r acceptState => r.addAcceptState (mapGet map2 acceptState)) result
  (result, m2.2.2)

/-- `NFABuilder::createStarNFA`. -/
def createStarNFA (nfa : Graph) (stateCounter : Int) : Graph × Int :=
  let start := stateCounter
  let end_ := stateCounter + 1
  let result := Graph.empty
  let result := result.addState start
  let result := result.addState end_
  let result := result.setInitialState start
  let result := result.addAcceptState end_
  let m := mergeNFA result nfa (stateCounter + 2)
  let map := m.2.1
  let result := m.1
  let result := result.addEdge start end_ EPSILON_CHAR
  let result := result.addEdge start (mapGet map nfa.initialState) EPSILON_CHAR
  let result := nfa.acceptStates.foldl
    (fun r acceptState =>
      let r := r.addEdge (mapGet map acceptState) end_ EPSILON_CHAR
      r.addEdge (mapGet map acceptState) (mapGet map nfa.initialState) EPSILON_CHAR) result
  (result, m.2.2)

/-- `NFABuilder::createPlusNFA`. -/
def createPlusNFA (nfa : Graph) (stateCounter : Int) : Graph × Int :=
  let start := stateCounter
  let end_ := stateCounter + 1
  let result := Graph.empty
  let result := result.addState start
  let result := result.addState end_
  let result := result.setInitialState start
  let result := result.addAcceptState end_
  let m := mergeNFA result nfa (stateCounter + 2)
  let map := m.2.1
  let result := m.1
  let result := result.addEdge start (mapGet map nfa.initialState) EPSILON_CHAR
  let result := nfa.acceptStates.foldl
    (fun r acceptState =>
      let r := r.addEdge (mapGet map acceptState) end_ EPSILON_CHAR
      r.addEdge (mapGet map acceptState) (mapGet map nfa.initialState) EPSILON_CHAR) result
  (result, m.2.2)

/-- `NFABuilder::createOptionalNFA`. -/
def createOptionalNFA (nfa : Graph) (stateCounter : Int) : Graph × Int :=
  let start := stateCounter
  let end_ := stateCounter + 1
  let result := Graph.empty
  let result := result.addState start
  let result := result.addState end_
  let result := result.setInitialState start
  let result := result.addAcceptState end_
  let m := mergeNFA result nfa (stateCounter + 2)
  let map := m.2.1
  let result := m.1
  let result := result.addEdge start end_ EPSILON_CHAR
  let result := result.addEdge start (mapGet map nfa.initialState) EPSILON_CHAR
  let result := nfa.acceptStates.foldl
    (fun r acceptState => r.addEdge (mapGet map acceptState) end_ EPSILON_CHAR) result
  (result, m.2.2)

/-- The body of the token loop of `buildNFA` (lines 23-71) on the fragment
stack (top at the head) and the counter. `nfaStack.top()` on an empty stack is
undefined behaviour. -/
def applyToken (c : Char) (nfaStack : List Graph) (stateCounter : Int) :
    Outcome (List Graph × Int) :=
  if !isOperator c then
    let r := createBasicNFA c stateCounter
    .returned (r.1 :: nfaStack, r.2)
  else if c = '|' then
    match nfaStack with
    | nfa2 :: nfa1 :: rest =>
      let r := createUnionNFA nfa1 nfa2 stateCounter
      .returned (r.1 :: rest, r.2)
    | _ => .undefinedBehaviour
  else if c = '.' then
    match nfaStack with
    | nfa2 :: nfa1 :: rest =>
      let r := createConcatNFA nfa1 nfa2 stateCounter
      .returned (r.1 :: rest, r.2)
    | _ => .undefinedBehaviour
  else if c = '*' then
    match nfaStack with
    | nfa :: rest =>
      let r := createStarNFA nfa stateCounter
      .returned (r.1 :: rest, r.2)
    | [] => .undefinedBehaviour
  else if c = '+' then
    match nfaStack with
    | nfa :: rest =>
      let r := createPlusNFA nfa stateCounter
      .returned (r.1 :: rest, r.2)
    | [] => .undefinedBehaviour
  else
    match nfaStack with
    | nfa :: rest =>
      let r := createOptionalNFA nfa stateCounter
      .returned (r.1 :: rest, r.2)
    | [] => .undefinedBehaviour

/-- The token loop `for (char c : postfix)` of `buildNFA`. -/
def tokenLoop : List Char → List Graph → Int → Outcome (List Graph × Int)
  | [], nfaStack, stateCounter => .returned (nfaStack, stateCounter)
  | c :: rest, nfaStack, stateCounter =>
    match applyToken c nfaStack stateCounter with
    | .returned r => tokenLoop rest r.1 r.2
    | .raised what => .raised what
    | .undefinedBehaviour => .undefinedBehaviour

/-- The final renumbering of `buildNFA` (lines 77-102). -/
def remapStates (result : Graph) : Graph :=
  let remappedNFA := Graph.empty
  let r := result.states.foldl
    (fun (acc : Graph × List (Int × Int) × Int) oldState =>
      let stateMap := mapSet oldState acc.2.2 acc.2.1
      (acc.1.addState (mapGet stateMap oldState), stateMap, acc.2.2 + 1))
    (remappedNFA, [], 0)
  let stateMap := r.2.1
  let remappedNFA := result.edges.foldl
    (fun g edge => g.addEdge (mapGet stateMap edge.u) (mapGet stateMap edge.v) edge.w) r.1
  let remappedNFA := remappedNFA.setInitialState (mapGet stateMap result.initialState)
  result.acceptStates.foldl
    (fun g acceptState => g.addAcceptState (mapGet stateMap acceptState)) remappedNFA

/-- The part of `buildNFA` after the call of `infixToPostfix`: the counter is
`0`, the tokens are combined on the stack, the top of the stack is renumbered. -/
def buildFromPostfix (tokens : List Char) : Outcome Graph :=
  match tokenLoop tokens [] 0 with
  | .returned r =>
    match r.1 with
    | result :: _ => .returned (remapStates result)
    | [] => .undefinedBehaviour
  | .raised what => .raised what
  | .undefinedBehaviour => .undefinedBehaviour

/-- `NFABuilder::buildNFA`. The counter is reset on entry, so the result does
not depend on the builder's previous counter. -/
def buildNFA (regex : List Char) : Outcome Graph :=
  buildFromPostfix (infixToPostfix regex)

/-! ## dfa.cpp -/

/-- The data members of class `DFABuilder`. -/
structure DFABuilder where
  stateSetToId : List (List Int × Int)
  stateCounter : Int
deriving DecidableEq

/-- Every target recorded in the transition table of a graph. -/
def transitionTargets (g : Graph) : List Int :=
  g.transitions.flatMap (fun p => p.2.flatMap (fun q => q.2))

/-- The `for (int next : nextStates)` loop inside `epsilonClosure`:
`closure.insert(next).second` holds exactly when `next` was not yet a member. -/
def closureVisit : List Int → List Int → List Int → List Int × List Int
  | closure, stack, [] => (closure, stack)
  | closure, stack, next :: rest =>
    if next ∈ closure then closureVisit closure stack rest
    else closureVisit (setInsert next closure) (next :: stack) rest

/-- The `while (!stack.empty())` loop of `epsilonClosure` on `(closure, stack)`;
the stack has its top at the head. -/
def closureLoop (nfa : Graph) : Nat → List Int × List Int → List Int × List Int
  | 0, st => st
  | _ + 1, (closure, []) => (closure, [])
  | fuel + 1, (closure, current :: stack) =>
    closureLoop nfa fuel (closureVisit closure stack (nfa.getNextStates current EPSILON_CHAR))

/-- `DFABuilder::epsilonClosure(nfa, int state)`. Every state pushed is a new
member of `closure` and a recorded transition target, so the loop body runs at
most `transitionTargets.length + 1` times. -/
def epsilonClosure (nfa : Graph) (state : Int) : List Int :=
  (closureLoop nfa ((transitionTargets nfa).length + 1) ([state], [state])).1

/-- `DFABuilder::epsilonClosure(nfa, const std::set<int> &states)`. -/
def epsilonClosureSet (nfa : Graph) (states : List Int) : List Int :=
  states.foldl (fun closure state => setInsertAll closure (epsilonClosure nfa state)) []

/-- `DFABuilder::move`. -/
def move (nfa : Graph) (states : List Int) (symbol : Char) : List Int :=
  states.foldl (fun result state => setInsertAll result (nfa.getNextStates state symbol)) []

/-- `DFABuilder::getStateId`: the identifier and the builder afterwards. -/
def getStateId (b : DFABuilder) (states : List Int) : Int × DFABuilder :=
  match mapFind states b.stateSetToId with
  | some id => (id, b)
  | none =>
    (b.stateCounter,
      { stateSetToId := mapSet states b.stateCounter b.stateSetToId,
        stateCounter := b.stateCounter + 1 })

/-- The local variables of `buildDFA` while its loop runs. The queue has its
front at the head; `processedStates` is only ever searched. -/
structure SubsetState where
  dfa : Graph
  unprocessedStates : List (List Int)
  processedStates : List (List Int)
  builder : DFABuilder
deriving DecidableEq

/-- The test `for (int state : S) if (nfa->getAcceptStates().count(state))`. -/
def containsAccept (nfa : Graph) (S : List Int) : Bool :=
  S.any (fun state => decide (state ∈ nfa.acceptStates))

/-- The body of `for (char symbol : fullAlphabet)` in `buildDFA` (lines 55-83). -/
def expandSymbol (nfa : Graph) (currentStates : List Int) (currentStateId : Int)
    (st : SubsetState) (symbol : Char) : SubsetState :=
  let nextStates := epsilonClosureSet nfa (move nfa currentStates symbol)
  if nextStates = [] then st
  else
    let r := getStateId st.builder nextStates
    let nextStateId := r.1
    let st := { st with builder := r.2 }
    let st :=
      if nextStates ∈ st.processedStates then st
      else
        let dfa := st.dfa.addState nextStateId
        let dfa := if containsAccept nfa nextStates then dfa.addAcceptState nextStateId else dfa
        { st with
          dfa := dfa
          unprocessedStates := st.unprocessedStates ++ [nextStates]
          processedStates := nextStates :: st.processedStates }
    { st with dfa := st.dfa.addEdge currentStateId nextStateId symbol }

/-- The alphabet `fullAlphabet` of `buildDFA`: the NFA's alphabet without `$`. -/
def fullAlphabet (nfa : Graph) : List Char :=
  setErase EPSILON_CHAR nfa.alphabet

/-- One iteration of `while (!unprocessedStates.empty())` for the set at the
front of the queue, which has already been popped. -/
def expandState (nfa : Graph) (currentStates : List Int) (st : SubsetState) : SubsetState :=
  let r := getStateId st.builder currentStates
  (fullAlphabet nfa).foldl (expandSymbol nfa currentStates r.1) { st with builder := r.2 }

/-- The loop `while (!unprocessedStates.empty())` of `buildDFA`. -/
def subsetLoop (nfa : Graph) : Nat → SubsetState → SubsetState
  | 0, st => st
  | fuel + 1, st =>
    match st.unprocessedStates with
    | [] => st
    | currentStates :: rest =>
      subsetLoop nfa fuel (expandState nfa currentStates { st with unprocessedStates := rest })

/-- The state of `buildDFA` when its loop is entered (lines 14-43). -/
def subsetInit (nfa : Graph) : SubsetState :=
  let b : DFABuilder := { stateSetToId := [], stateCounter := 0 }
  let initialState := epsilonClosure nfa nfa.initialState
  let r := getStateId b initialState
  let initialStateId := r.1
  let dfa := Graph.empty
  let dfa := dfa.addState initialStateId
  let dfa := dfa.setInitialState initialStateId
  let dfa := if containsAccept nfa initialState then dfa.addAcceptState initialStateId else dfa
  { dfa := dfa, unprocessedStates := [initialState], processedStates := [initialState],
    builder := r.2 }

/-- Number of loop iterations that is always enough for `buildDFA`: every set
that enters the queue is a distinct set of recorded targets and the initial state. -/
def subsetFuel (nfa : Graph) : Nat :=
  2 ^ ((transitionTargets nfa).length + 1)

/-- The state of `buildDFA` when its loop has ended. -/
def subsetFinal (nfa : Graph) : SubsetState :=
  subsetLoop nfa (subsetFuel nfa) (subsetInit nfa)

/-- `DFABuilder::buildDFA`. The counter and the identity map are reset on entry,
so the result does not depend on the builder's previous contents. -/
def buildDFA (nfa : Graph) : Graph :=
  (subsetFinal nfa).dfa

/-- `DFABuilder::computeInitialPartition`. -/
def computeInitialPartition (dfa : Graph) : List (List Int) :=
  let acceptStates := dfa.acceptStates
  let nonAcceptStates := dfa.states.foldl
    (fun acc state => if state ∈ acceptStates then acc else setInsert state acc) []
  let partition : List (List Int) := []
  let partition := if acceptStates ≠ [] then partition ++ [acceptStates] else partition
  if nonAcceptStates ≠ [] then partition ++ [nonAcceptStates] else partition

/-- The loop of `DFABuilder::canSplit` over the remaining states of the group,
with the two flags. -/
def canSplitLoop (dfa : Graph) (splitter : List Int) (symbol : Char) :
    List Int → Bool → Bool → Bool
  | [], _, _ => false
  | state :: rest, foundInSplitter, foundOutSplitter =>
    match dfa.getNextStates state symbol with
    | [] => canSplitLoop dfa splitter symbol rest foundInSplitter foundOutSplitter
    | nextState :: _ =>
      let foundIn := if nextState ∈ splitter then true else foundInSplitter
      let foundOut := if nextState ∈ splitter then foundOutSplitter else true
      if foundIn && foundOut then true
      else canSplitLoop dfa splitter symbol rest foundIn foundOut

/-- `DFABuilder::canSplit`. -/
def canSplit (dfa : Graph) (group splitter : List Int) (symbol : Char) : Bool :=
  canSplitLoop dfa splitter symbol group false false

/-- The flag `goesToSplitter` computed for one state in `refinePartition`. -/
def goesToSplitter (dfa : Graph) (splitter : List Int) (symbol : Char) (state : Int) : Bool :=
  match dfa.getNextStates state symbol with
  | [] => false
  | nextState :: _ => decide (nextState ∈ splitter)

/-- The two groups `group1`, `group2` built in `refinePartition` when a group
is split. -/
def splitGroup (dfa : Graph) (group splitter : List Int) (symbol : Char) :
    List Int × List Int :=
  group.foldl
    (fun (acc : List Int × List Int) state =>
      if goesToSplitter dfa splitter symbol state then (setInsert state acc.1, acc.2)
      else (acc.1, setInsert state acc.2))
    ([], [])

/-- The first symbol of the alphabet, in order, on which `splitter` splits `group`. -/
def findSymbol (dfa : Graph) (group splitter : List Int) : List Char → Option Char
  | [] => none
  | symbol :: rest =>
    if canSplit dfa group splitter symbol then some symbol
    else findSymbol dfa group splitter rest

/-- The nested search `for splitter ... for symbol ...` of `refinePartition`:
the first pair, in iteration order, for which `canSplit` holds. -/
def findSplit (dfa : Graph) (group : List Int) : List (List Int) → Option (List Int × Char)
  | [] => none
  | splitter :: rest =>
    match findSymbol dfa group splitter dfa.alphabet with
    | some symbol => some (splitter, symbol)
    | none => findSplit dfa group rest

/-- The `for (const auto &group : partition)` loop of one pass of
`refinePartition`: the groups still to visit, `newPartition` and `changed`. -/
def refineGroups (dfa : Graph) (partition : List (List Int)) :
    List (List Int) → List (List Int) → Bool → List (List Int) × Bool
  | [], newPartition, changed => (newPartition, changed)
  | group :: rest, newPartition, changed =>
    if group.length ≤ 1 then refineGroups dfa partition rest (newPartition ++ [group]) changed
    else
      match findSplit dfa group partition with
      | some (splitter, symbol) =>
        let gs := splitGroup dfa group splitter symbol
        refineGroups dfa partition rest (newPartition ++ [gs.1, gs.2]) true
      | none => refineGroups dfa partition rest (newPartition ++ [group]) changed

/-- One pass of the `do ... while (changed)` loop of `refinePartition`. -/
def refinePass (dfa : Graph) (partition : List (List Int)) : List (List Int) × Bool :=
  refineGroups dfa partition partition [] false

/-- The `do ... while (changed)` loop of `refinePartition`. -/
def refineLoop (dfa : Graph) : Nat → List (List Int) → List (List Int)
  | 0, partition => partition
  | fuel + 1, partition =>
    let r := refinePass dfa partition
    if r.2 then refineLoop dfa fuel r.1 else r.1

/-- `DFABuilder::refinePartition`. A pass that sets `changed` replaces a group
by two non-empty groups, so there are at most as many such passes as there are
states in the groups. -/
def refinePartition (dfa : Graph) (partition : List (List Int)) : List (List Int) :=
  refineLoop dfa ((partition.map List.length).sum + 1) partition

/-- The first loop over the groups in `minimizeDFA` (lines 104-133): the new
graph, `oldToNewState` and `newStateId`. -/
def assignGroups (dfa : Graph) :
    List (List Int) → Graph × List (Int × Int) × Int → Graph × List (Int × Int) × Int
  | [], acc => acc
  | group :: rest, (minDfa, oldToNewState, newStateId) =>
    let oldToNewState := group.foldl (fun m state => mapSet state newStateId m) oldToNewState
    let minDfa := minDfa.addState newStateId
    let minDfa :=
      if group.any (fun state => decide (state ∈ dfa.acceptStates))
      then minDfa.addAcceptState newStateId else minDfa
    let minDfa :=
      if group.any (fun state => decide (state = dfa.initialState))
      then minDfa.setInitialState newStateId else minDfa
    assignGroups dfa rest (minDfa, oldToNewState, newStateId + 1)

/-- The loop `for (char symbol : dfa->getAlphabet())` for one representative. -/
def addGroupEdges (dfa : Graph) (oldToNewState : List (Int × Int))
    (representativeState fromState : Int) : List Char → Graph → Graph
  | [], minDfa => minDfa
  | symbol :: rest, minDfa =>
    match dfa.getNextStates representativeState symbol with
    | [] => addGroupEdges dfa oldToNewState representativeState fromState rest minDfa
    | nextState :: _ =>
      addGroupEdges dfa oldToNewState representativeState fromState rest
        (minDfa.addEdge fromState (mapGet oldToNewState nextState) symbol)

/-- The second loop over the groups in `minimizeDFA` (lines 136-150).
`*group.begin()` is the head of the group; the groups of a partition are never
empty, so the default is not used. -/
def addEdges (dfa : Graph) (oldToNewState : List (Int × Int)) :
    List (List Int) → Graph → Graph
  | [], minDfa => minDfa
  | group :: rest, minDfa =>
    let representativeState := group.headD 0
    let fromState := mapGet oldToNewState representativeState
    addEdges dfa oldToNewState rest
      (addGroupEdges dfa oldToNewState representativeState fromState dfa.alphabet minDfa)

/-- `DFABuilder::minimizeDFA`. -/
def minimizeDFA (dfa : Graph) : Graph :=
  let partition := refinePartition dfa (computeInitialPartition dfa)
  let r := assignGroups dfa partition (Graph.empty, [], 0)
  addEdges dfa r.2.1 partition r.1

/-! ## Acceptance -/

/-- Runs from a state of an NFA: `Reaches g s w q` when `q` is reached from `s`
reading `w`, where `$`-labelled transitions read nothing. -/
inductive Reaches (g : Graph) : Int → List Char → Int → Prop where
  | done (s : Int) : Reaches g s [] s
  | eps {s t q : Int} {w : List Char} :
      t ∈ g.getNextStates s EPSILON_CHAR → Reaches g t w q → Reaches g s w q
  | step {s t q : Int} {c : Char} {w : List Char} :
      c ≠ EPSILON_CHAR → t ∈ g.getNextStates s c → Reaches g t w q → Reaches g s (c :: w) q

/-- Acceptance by an epsilon-NFA: some run from the initial state over `w`
ends in an accepting state. -/
def nfaAccepts (g : Graph) (w : List Char) : Prop :=
  ∃ q, q ∈ g.acceptStates ∧ Reaches g g.initialState w q

/-- The run of a DFA from state `s`: each character follows the unique
transition; the run stops when there is none, or more than one. -/
def dfaRun (g : Graph) : Int → List Char → Option Int
  | s, [] => some s
  | s, c :: w =>
    match g.getNextStates s c with
    | [t] => dfaRun g t w
    | _ => none

/-- Acceptance by a DFA: the run from the initial state ends in an accepting state. -/
def dfaAccepts (g : Graph) (w : List Char) : Bool :=
  match dfaRun g g.initialState w with
  | some q => decide (q ∈ g.acceptStates)
  | none => false

/-! ## Semantics and invariants used by the theorems -/

/-- Reachability along `$`-labelled transitions. -/
def EpsReach (n : Graph) : Int → Int → Prop :=
  Relation.ReflTransGen (fun a b => b ∈ n.getNextStates a EPSILON_CHAR)

/-- Number of recorded targets that are not yet in `closure`. -/
def remaining (n : Graph) (closure : List Int) : Nat :=
  ((transitionTargets n).toFinset.filter (fun x => x ∉ closure)).card

/-- The invariant of the loop of `epsilonClosure` started at `s`. -/
def ClosureInv (n : Graph) (s : Int) (closure stack : List Int) : Prop :=
  s ∈ closure ∧ (∀ x ∈ closure, EpsReach n s x) ∧ (∀ x ∈ stack, x ∈ closure) ∧
    (∀ x ∈ closure, x ∉ stack → ∀ y ∈ n.getNextStates x EPSILON_CHAR, y ∈ closure) ∧
    closure.Sorted (· < ·)

/-- The set reached from the set `S` on `c`: `epsilonClosure(move(S, c))`. -/
def stepSet (n : Graph) (S : List Int) (c : Char) : List Int :=
  epsilonClosureSet n (move n S c)

/-- The set reached from the set `S` on the word `w`. -/
def runSets (n : Graph) : List Int → List Char → List Int
  | S, [] => S
  | S, c :: w => runSets n (stepSet n S c) w

/-- A set of states closed under `$`-transitions. -/
def EpsClosed (n : Graph) (S : List Int) : Prop :=
  ∀ s ∈ S, ∀ t ∈ n.getNextStates s EPSILON_CHAR, t ∈ S

/-- The universe of the subset construction: the initial state and every
recorded target. -/
def stateUniverse (n : Graph) : List Int :=
  n.initialState :: transitionTargets n

/-- What holds of the local variables of `buildDFA` at every point of its loop. -/
structure SubsetCore (n : Graph) (st : SubsetState) : Prop where
  keys : ∀ S, S ∈ st.processedStates ↔ ∃ i, mapFind S st.builder.stateSetToId = some i
  inj : ∀ S T i, mapFind S st.builder.stateSetToId = some i →
    mapFind T st.builder.stateSetToId = some i → S = T
  bound : ∀ S i, mapFind S st.builder.stateSetToId = some i →
    0 ≤ i ∧ i < st.builder.stateCounter
  queue : ∀ S ∈ st.unprocessedStates, S ∈ st.processedStates
  edges : ∀ u c, st.dfa.getNextStates u c = [] ∨
    ∃ S j, mapFind S st.builder.stateSetToId = some u ∧ c ∈ fullAlphabet n ∧
      stepSet n S c ≠ [] ∧ mapFind (stepSet n S c) st.builder.stateSetToId = some j ∧
      st.dfa.getNextStates u c = [j]
  accept : ∀ S i, mapFind S st.builder.stateSetToId = some i →
    (i ∈ st.dfa.acceptStates ↔ containsAccept n S = true)
  acceptBound : ∀ a ∈ st.dfa.acceptStates, a < st.builder.stateCounter
  init : st.dfa.initialState = 0 ∧
    mapFind (epsilonClosure n n.initialState) st.builder.stateSetToId = some 0
  count : st.builder.stateCounter = st.processedStates.length
  states : ∀ i, i ∈ st.dfa.states ↔ 0 ≤ i ∧ i < st.builder.stateCounter
  statesSorted : st.dfa.states.Sorted (· < ·)
  nodup : st.processedStates.Nodup
  canon : ∀ S ∈ st.processedStates,
    S.Sorted (· < ·) ∧ S ≠ [] ∧ ∀ x ∈ S, x ∈ stateUniverse n

/-- The transition of the set `S` on `c` has been entered in the DFA. -/
def Complete (n : Graph) (st : SubsetState) (S : List Int) (c : Char) : Prop :=
  ∃ i, mapFind S st.builder.stateSetToId = some i ∧
    (stepSet n S c ≠ [] →
      ∃ j, mapFind (stepSet n S c) st.builder.stateSetToId = some j ∧
        st.dfa.getNextStates i c = [j])

/-- How a later state of the loop relates to an earlier one. -/
structure Extends (n : Graph) (st st' : SubsetState) : Prop where
  added : ∃ news, st'.unprocessedStates = st.unprocessedStates ++ news ∧
    st'.processedStates = news.reverse ++ st.processedStates
  mono : ∀ S i, mapFind S st.builder.stateSetToId = some i →
    mapFind S st'.builder.stateSetToId = some i
  complete : ∀ S c, Complete n st S c → Complete n st' S c

/-- The first half of the body of the symbol loop: `getStateId(nextStates)` and
the registration of a set that has not been seen. -/
def registerSet (n : Graph) (st : SubsetState) (nextStates : List Int) : SubsetState :=
  let r := getStateId st.builder nextStates
  if nextStates ∈ st.processedStates then { st with builder := r.2 }
  else
    let dfa := st.dfa.addState r.1
    let dfa := if containsAccept n nextStates then dfa.addAcceptState r.1 else dfa
    { dfa := dfa
      unprocessedStates := st.unprocessedStates ++ [nextStates]
      processedStates := nextStates :: st.processedStates
      builder := r.2 }

/-- The graph after `addState(k)` and the conditional `addAcceptState(k)`. -/
def withNewState (g : Graph) (k : Int) (acc : Bool) : Graph :=
  if acc then (g.addState k).addAcceptState k else g.addState k

/-- The invariant of `while (!unprocessedStates.empty())`: every set that has
left the queue has all its transitions in the DFA. -/
def SubsetInv (n : Graph) (st : SubsetState) : Prop :=
  SubsetCore n st ∧
    ∀ S ∈ st.processedStates, S ∉ st.unprocessedStates →
      ∀ c ∈ fullAlphabet n, Complete n st S c

/-- The class invariant of `Graph`: the edge list, the alphabet and the
transition table record the same transitions. Every graph produced through the
public interface satisfies it. -/
def Graph.Invariant (g : Graph) : Prop :=
  (∀ p ∈ g.transitions, ∀ q ∈ p.2, ∀ t ∈ q.2, (⟨p.1, t, q.1⟩ : Edge) ∈ g.edges) ∧
  (∀ e ∈ g.edges, e.w ∈ g.alphabet ∧ e.v ∈ g.getNextStates e.u e.w) ∧
  (∀ c ∈ g.alphabet, ∃ e ∈ g.edges, e.w = c)

instance (g : Graph) : Decidable g.Invariant := by
  unfold Graph.Invariant
  infer_instance

/-- The well-formedness condition of the data model: every state referenced by
an edge, by the initial-state field or by the accepting set is in the state set. -/
def Graph.WellFormed (g : Graph) : Prop :=
  (∀ e ∈ g.edges, e.u ∈ g.states ∧ e.v ∈ g.states) ∧ g.initialState ∈ g.states ∧
  (∀ a ∈ g.acceptStates, a ∈ g.states)

instance (g : Graph) : Decidable g.WellFormed := by
  unfold Graph.WellFormed
  infer_instance

/-- The graphs that the public interface of `Graph` can produce: the empty
graph of the constructor and the results of the four mutators. -/
inductive Graph.Built : Graph → Prop where
  | empty : Graph.Built Graph.empty
  | addState {g : Graph} (state : Int) : Graph.Built g → Graph.Built (g.addState state)
  | addEdge {g : Graph} (u v : Int) (w : Char) : Graph.Built g → Graph.Built (g.addEdge u v w)
  | setInitialState {g : Graph} (state : Int) :
      Graph.Built g → Graph.Built (g.setInitialState state)
  | addAcceptState {g : Graph} (state : Int) :
      Graph.Built g → Graph.Built (g.addAcceptState state)

/-- The sets taken from the front of the queue by the loop of `buildDFA`, in
the order in which they are expanded. -/
def expandedSets (n : Graph) : Nat → SubsetState → List (List Int)
  | 0, _ => []
  | fuel + 1, st =>
    match st.unprocessedStates with
    | [] => []
    | currentStates :: rest =>
      currentStates ::
        expandedSets n fuel (expandState n currentStates { st with unprocessedStates := rest })

/-- What one pass of `refinePartition` puts into `newPartition` for one group,
and whether it sets `changed`. -/
def refineGroup (dfa : Graph) (partition : List (List Int)) (group : List Int) :
    List (List Int) × Bool :=
  if group.length ≤ 1 then ([group], false)
  else
    match findSplit dfa group partition with
    | some (splitter, symbol) =>
      ([(splitGroup dfa group splitter symbol).1, (splitGroup dfa group splitter symbol).2], true)
    | none => ([group], false)

/-- The groups are non-empty, made of members of `U`, and pairwise disjoint. -/
def PartInv (U : List Int) (P : List (List Int)) : Prop :=
  (∀ G ∈ P, G ≠ [] ∧ ∀ x ∈ G, x ∈ U) ∧ P.Pairwise (fun G H => ∀ x ∈ G, x ∉ H)

/-- The potential of the refinement loop: the sum of `size - 1` over the groups. -/
def splitPotential (P : List (List Int)) : Nat :=
  (P.map (fun G => G.length - 1)).sum

/-- The graph after the three conditional insertions of the first loop of
`minimizeDFA` for one group. -/
def withGroupState (g : Graph) (k : Int) (acc ini : Bool) : Graph :=
  let g := g.addState k
  let g := if acc then g.addAcceptState k else g
  if ini then g.setInitialState k else g

/-- What holds of the transitions of the graph under construction during the
second loop of `minimizeDFA`: a target set is empty, or holds the image of
the first target of the representative of one group. -/
def MinEdgeInv (dfa : Graph) (m : List (Int × Int)) (P : List (List Int)) (g : Graph) : Prop :=
  ∀ s c, g.getNextStates s c = [] ∨
    ∃ G ∈ P, s = mapGet m (G.headD 0) ∧
      ∃ t ts, dfa.getNextStates (G.headD 0) c = t :: ts ∧ g.getNextStates s c = [mapGet m t]

/-! ## Regular expressions denoted by postfix sequences -/

/-- The regular expressions of the specification: literal, union,
concatenation, Kleene star, one-or-more, zero-or-one. -/
inductive Regex where
  | literal (c : Char)
  | union (r s : Regex)
  | concat (r s : Regex)
  | star (r : Regex)
  | plus (r : Regex)
  | optional (r : Regex)
deriving DecidableEq

/-- The language of a regular expression, as the specification words it. -/
def Regex.language : Regex → Language Char
  | .literal c => {[c]}
  | .union r s => r.language + s.language
  | .concat r s => r.language * s.language
  | .star r => KStar.kstar r.language
  | .plus r => r.language * KStar.kstar r.language
  | .optional r => 1 + r.language

/-- One token of a postfix sequence read as the specification words it: an
operand is pushed, an operator combines the operands on top of the stack. -/
def specPostfixStep (stack : List Regex) (c : Char) : Option (List Regex) :=
  if c = '|' then
    match stack with
    | s :: r :: rest => some (Regex.union r s :: rest)
    | _ => none
  else if c = '.' then
    match stack with
    | s :: r :: rest => some (Regex.concat r s :: rest)
    | _ => none
  else if c = '*' then
    match stack with
    | r :: rest => some (Regex.star r :: rest)
    | [] => none
  else if c = '+' then
    match stack with
    | r :: rest => some (Regex.plus r :: rest)
    | [] => none
  else if c = '?' then
    match stack with
    | r :: rest => some (Regex.optional r :: rest)
    | [] => none
  else some (Regex.literal c :: stack)

/-- The stack after a postfix sequence, when every operator finds its operands. -/
def specPostfixStack : List Char → List Regex → Option (List Regex)
  | [], stack => some stack
  | c :: rest, stack =>
    match specPostfixStep stack c with
    | some stack' => specPostfixStack rest stack'
    | none => none

/-- The regular expression a well-formed postfix sequence denotes: every
operator finds its operands and exactly one expression remains. -/
def specPostfixRegex (tokens : List Char) : Option Regex :=
  match specPostfixStack tokens [] with
  | some [r] => some r
  | _ => none

/-! ## Example graphs -/

/-- An NFA with a `$`-transition and a loop: `0 -$-> 1`, `1 -b-> 1`, `1 -a-> 2`. -/
def exampleNFA : Graph :=
  ((((((Graph.empty.addState 0).addState 1).addState 2).setInitialState 0).addAcceptState 2).addEdge
    0 1 '$').addEdge 1 1 'b' |>.addEdge 1 2 'a'

/-- The NFA that `buildNFA` returns for the pattern `ab`. -/
def nfaAB : Graph :=
  { states := [0, 1, 2, 3],
    edges := [⟨0, 1, 'a'⟩, ⟨2, 3, 'b'⟩, ⟨1, 2, '$'⟩],
    alphabet := ['$', 'a', 'b'],
    initialState := 0,
    acceptStates := [1, 3],
    transitions := [(0, [('a', [1])]), (2, [('b', [3])]), (1, [('$', [2])])] }

/-- The three-state chain `0 -a-> 1 -b-> 2` with `2` accepting. -/
def chainDFA : Graph :=
  (((((Graph.empty.addState 0).addState 1).addState 2).setInitialState 0).addAcceptState 2).addEdge
    0 1 'a' |>.addEdge 1 2 'b'

/-- A partial DFA over `a` with states `0..4`: `2 -a-> 0`, `4 -a-> 4`, state
`0` accepting, states `1` and `3` without transitions. -/
def gapDFA : Graph :=
  (((((((Graph.empty.addState 0).addState 1).addState 2).addState 3).addState 4).setInitialState
    2).addAcceptState 0).addEdge 2 0 'a' |>.addEdge 4 4 'a'

/-- The NFA that `buildNFA` returns for the pattern `(a|b)*abb`. -/
def nfaClassic : Graph :=
  { states := [0, 1, 2, 3, 4, 5, 6, 7],
    edges := [⟨2, 3, 'a'⟩, ⟨0, 1, '$'⟩, ⟨0, 2, '$'⟩, ⟨3, 1, '$'⟩, ⟨3, 2, '$'⟩, ⟨4, 5, 'b'⟩,
      ⟨1, 4, '$'⟩, ⟨3, 4, '$'⟩, ⟨6, 7, 'b'⟩, ⟨1, 6, '$'⟩, ⟨3, 6, '$'⟩, ⟨5, 6, '$'⟩],
    alphabet := ['$', 'a', 'b'],
    initialState := 0,
    acceptStates := [1, 3, 5, 7],
    transitions := [(2, [('a', [3])]), (0, [('$', [1, 2])]), (3, [('$', [1, 2, 4, 6])]),
      (4, [('b', [5])]), (1, [('$', [4, 6])]), (6, [('b', [7])]), (5, [('$', [6])])] }

/-- The NFA that `buildNFA` returns for the pattern `a*`. -/
def nfaStar : Graph :=
  { states := [0, 1, 2, 3],
    edges := [⟨2, 3, 'a'⟩, ⟨0, 1, '$'⟩, ⟨0, 2, '$'⟩, ⟨3, 1, '$'⟩, ⟨3, 2, '$'⟩],
    alphabet := ['$', 'a'],
    initialState := 0,
    acceptStates := [1, 3],
    transitions := [(2, [('a', [3])]), (0, [('$', [1, 2])]), (3, [('$', [1, 2])])] }

/-- The partition after `k` passes of the loop of `refinePartition`. -/
def refinePasses (dfa : Graph) : Nat → List (List Int) → List (List Int)
  | 0, partition => partition
  | k + 1, partition => (refinePass dfa (refinePasses dfa k partition)).1

/-- The state `(postfix, operators, lastWasOperand)` of the scan of
`infixToPostfix` after the characters of `p`, none of which is consumed as an
escape. -/
def scanFold (p : List Char) (st : List Char × List Char × Bool) :
    List Char × List Char × Bool :=
  p.foldl (fun st c => scanChar c st.1 st.2.1 st.2.2) st

/-! ## The builders as objects with a prior state -/

/-- The data member of class `NFABuilder`. -/
structure NFABuilder where
  stateCounter : Int
deriving DecidableEq

/-- The statements of `NFABuilder::buildNFA` after the reset of `stateCounter`
(lines 17-102), run from the builder as it is: the graph returned and the
builder afterwards. -/
def buildNFAFrom (b : NFABuilder) (regex : List Char) : Outcome (Graph × NFABuilder) :=
  match tokenLoop (infixToPostfix regex) [] b.stateCounter with
  | .returned r =>
    match r.1 with
    | result :: _ => .returned (remapStates result, { stateCounter := r.2 })
    | [] => .undefinedBehaviour
  | .raised what => .raised what
  | .undefinedBehaviour => .undefinedBehaviour

/-- `NFABuilder::buildNFA` called on a builder in any state: line 15 sets
`stateCounter = 0`, then the body runs. -/
def buildNFAOn (b : NFABuilder) (regex : List Char) : Outcome (Graph × NFABuilder) :=
  buildNFAFrom { b with stateCounter := 0 } regex

/-- The graph of an outcome that carries the builder along. -/
def outcomeGraph : Outcome (Graph × NFABuilder) → Outcome Graph
  | .returned r => .returned r.1
  | .raised what => .raised what
  | .undefinedBehaviour => .undefinedBehaviour

/-- The state of `buildDFA` when its loop is entered, from the builder as it
is after the two reset statements (lines 18-43). -/
def subsetInitFrom (b : DFABuilder) (nfa : Graph) : SubsetState :=
  let initialState := epsilonClosure nfa nfa.initialState
  let r := getStateId b initialState
  let initialStateId := r.1
  let dfa := Graph.empty
  let dfa := dfa.addState initialStateId
  let dfa := dfa.setInitialState initialStateId
  let dfa := if containsAccept nfa initialState then dfa.addAcceptState initialStateId else dfa
  { dfa := dfa, unprocessedStates := [initialState], processedStates := [initialState],
    builder := r.2 }

/-- The statements of `DFABuilder::buildDFA` after the two resets, run from the
builder as it is: the graph returned and the builder afterwards. -/
def buildDFAFrom (b : DFABuilder) (nfa : Graph) : Graph × DFABuilder :=
  ((subsetLoop nfa (subsetFuel nfa) (subsetInitFrom b nfa)).dfa,
    (subsetLoop nfa (subsetFuel nfa) (subsetInitFrom b nfa)).builder)

/-- `DFABuilder::buildDFA` called on a builder in any state: lines 15-16 set
`stateCounter = 0` and clear `stateSetToId`, then the body runs. -/
def buildDFAOn (b : DFABuilder) (nfa : Graph) : Graph × DFABuilder :=
  buildDFAFrom { b with stateCounter := 0, stateSetToId := [] } nfa

/-! ## Shapes of fragments -/

/-- The initial state is a member of the state set and no member is smaller. -/
def MinInit (g : Graph) : Prop :=
  g.initialState ∈ g.states ∧ ∀ x ∈ g.states, g.initialState ≤ x

instance (g : Graph) : Decidable (MinInit g) := by
  unfold MinInit
  infer_instance

/-- A graph produced through the public interface whose states are exactly the
identifiers from `lo` up to `hi - 1`. -/
def Seg (lo hi : Int) (g : Graph) : Prop :=
  g.Built ∧ ∀ i, i ∈ g.states ↔ lo ≤ i ∧ i < hi

/-- The first loop of `mergeNFA` on `(target, stateMap, stateCounter)`. -/
def mergeStates (L : List Int) (acc : Graph × List (Int × Int) × Int) :
    Graph × List (Int × Int) × Int :=
  L.foldl
    (fun (acc : Graph × List (Int × Int) × Int) oldState =>
      (acc.1.addState acc.2.2, mapSet oldState acc.2.2 acc.2.1, acc.2.2 + 1))
    acc

/-- Every fragment on the stack of `buildNFA` was produced through the public
interface of `Graph` and has its smallest state as initial state. -/
def StackInv (stack : List Graph) : Prop :=
  ∀ F ∈ stack, F.Built ∧ MinInit F

/-- Every fragment on the stack of `buildNFA` at the counter `k`: its states
are the identifiers of a segment `lo, ..., hi - 1` of the identifiers
`0, ..., k - 1` handed out so far, and `lo` is its initial state. -/
def StackSeg (k : Int) (stack : List Graph) : Prop :=
  ∀ F ∈ stack, ∃ lo hi, 0 ≤ lo ∧ lo < hi ∧ hi ≤ k ∧ Seg lo hi F ∧ F.initialState = lo

/-! ## Container lemmas -/

section Containers

variable {α : Type} [LinearOrder α]

theorem mem_setInsert (a x : α) (l : List α) : a ∈ setInsert x l ↔ a = x ∨ a ∈ l := by
  induction l with
  | nil => simp [setInsert]
  | cons y ys ih =>
    unfold setInsert
    split_ifs with h1 h2
    · simp
    · subst h2; simp
    · simp only [List.mem_cons, ih]; tauto

theorem setInsert_sorted (x : α) (l : List α) (h : l.Sorted (· < ·)) :
    (setInsert x l).Sorted (· < ·) := by
  induction l with
  | nil => simp [setInsert]
  | cons y ys ih =>
    have hy := List.sorted_cons.mp h
    unfold setInsert
    split_ifs with h1 h2
    · refine List.sorted_cons.mpr ⟨?_, h⟩
      intro b hb
      rcases List.mem_cons.mp hb with rfl | hb
      · exact h1
      · exact lt_trans h1 (hy.1 b hb)
    · exact h
    · refine List.sorted_cons.mpr ⟨?_, ih hy.2⟩
      intro b hb
      rcases (mem_setInsert b x ys).mp hb with rfl | hb
      · exact lt_of_le_of_ne (not_lt.mp h1) (Ne.symm h2)
      · exact hy.1 b hb

theorem setInsert_ne_nil (x : α) (l : List α) : setInsert x l ≠ [] := by
  intro h
  have : x ∈ setInsert x l := (mem_setInsert x x l).mpr (Or.inl rfl)
  rw [h] at this
  exact List.not_mem_nil _ this

theorem mem_setInsertAll (a : α) (s xs : List α) :
    a ∈ setInsertAll s xs ↔ a ∈ s ∨ a ∈ xs := by
  unfold setInsertAll
  induction xs generalizing s with
  | nil => simp
  | cons x xs ih =>
    simp only [List.foldl_cons, ih, mem_setInsert, List.mem_cons]
    tauto

theorem setInsertAll_sorted (s xs : List α) (h : s.Sorted (· < ·)) :
    (setInsertAll s xs).Sorted (· < ·) := by
  unfold setInsertAll
  induction xs generalizing s with
  | nil => simpa using h
  | cons x xs ih => exact ih _ (setInsert_sorted x s h)

/-- Membership in a union built by repeated range insertion. -/
theorem mem_foldl_setInsertAll {β : Type} (f : β → List α) (a : α) (S : List β)
    (init : List α) :
    a ∈ S.foldl (fun acc s => setInsertAll acc (f s)) init ↔
      a ∈ init ∨ ∃ s ∈ S, a ∈ f s := by
  induction S generalizing init with
  | nil => simp
  | cons s S ih =>
    simp only [List.foldl_cons, ih, mem_setInsertAll, List.mem_cons]
    constructor
    · rintro ((h | h) | ⟨t, ht, h⟩)
      · exact Or.inl h
      · exact Or.inr ⟨s, Or.inl rfl, h⟩
      · exact Or.inr ⟨t, Or.inr ht, h⟩
    · rintro (h | ⟨t, rfl | ht, h⟩)
      · exact Or.inl (Or.inl h)
      · exact Or.inl (Or.inr h)
      · exact Or.inr ⟨t, ht, h⟩

theorem foldl_setInsertAll_sorted {β : Type} (f : β → List α) (S : List β)
    (init : List α) (h : init.Sorted (· < ·)) :
    (S.foldl (fun acc s => setInsertAll acc (f s)) init).Sorted (· < ·) := by
  induction S generalizing init with
  | nil => simpa using h
  | cons s S ih => exact ih _ (setInsertAll_sorted _ _ h)

end Containers

section Maps

variable {κ β : Type} [DecidableEq κ]

theorem mapFind_mapSet (k k' : κ) (b : β) (m : List (κ × β)) :
    mapFind k' (mapSet k b m) = if k' = k then some b else mapFind k' m := by
  induction m with
  | nil =>
    by_cases h : k' = k
    · simp [mapSet, mapFind, h]
    · have h' : ¬ k = k' := fun e => h e.symm
      simp [mapSet, mapFind, h, h']
  | cons p m ih =>
    obtain ⟨k₀, b₀⟩ := p
    by_cases h0 : k₀ = k
    · by_cases h : k' = k
      · simp [mapSet, mapFind, h0, h]
      · have h' : ¬ k = k' := fun e => h e.symm
        simp [mapSet, mapFind, h0, h, h']
    · by_cases h : k' = k
      · subst h
        simp [mapSet, mapFind, h0, ih]
      · by_cases h1 : k₀ = k'
        · simp [mapSet, mapFind, h0, h, h1]
        · simp [mapSet, mapFind, h0, h, h1, ih]

end Maps

namespace Graph

theorem getNextStates_addEdge (g : Graph) (u v : Int) (w : Char) (s : Int) (c : Char) :
    (g.addEdge u v w).getNextStates s c =
      if s = u ∧ c = w then setInsert v (g.getNextStates s c) else g.getNextStates s c := by
  unfold getNextStates addEdge
  simp only [mapFind_mapSet]
  by_cases hs : s = u
  · subst hs
    by_cases hc : c = w
    · subst hc
      simp only [and_self, if_true, mapFind_mapSet]
      cases h1 : mapFind s g.transitions with
      | none => simp [mapFind]
      | some inner =>
        cases h2 : mapFind c inner with
        | none => simp [h2]
        | some t => simp [h2]
    · simp only [hc, and_false, if_false, if_true, mapFind_mapSet]
      cases h1 : mapFind s g.transitions with
      | none => simp [mapFind]
      | some inner => simp
  · simp [hs]

@[simp] theorem getNextStates_addState (g : Graph) (x s : Int) (c : Char) :
    (g.addState x).getNextStates s c = g.getNextStates s c := rfl

@[simp] theorem getNextStates_addAcceptState (g : Graph) (x s : Int) (c : Char) :
    (g.addAcceptState x).getNextStates s c = g.getNextStates s c := rfl

@[simp] theorem getNextStates_setInitialState (g : Graph) (x s : Int) (c : Char) :
    (g.setInitialState x).getNextStates s c = g.getNextStates s c := rfl

/-- Every member of a target set is a recorded target. -/
theorem mem_transitionTargets (g : Graph) (s : Int) (c : Char) (t : Int)
    (h : t ∈ g.getNextStates s c) : t ∈ transitionTargets g := by
  have key : ∀ {κ β : Type} [DecidableEq κ] (k : κ) (m : List (κ × β)) (b : β),
      mapFind k m = some b → (k, b) ∈ m := by
    intro κ β _ k m b
    induction m with
    | nil => simp [mapFind]
    | cons p m ih =>
      obtain ⟨k₀, b₀⟩ := p
      unfold mapFind
      split_ifs with h0
      · intro e; cases e; subst h0; simp
      · intro e; exact List.mem_cons_of_mem _ (ih e)
  unfold getNextStates at h
  cases h1 : mapFind s g.transitions with
  | none => simp [h1] at h
  | some inner =>
    cases h2 : mapFind c inner with
    | none => simp [h1, h2] at h
    | some tg =>
      simp only [h1, h2] at h
      unfold transitionTargets
      simp only [List.mem_flatMap]
      exact ⟨(s, inner), key _ _ _ h1, (c, tg), key _ _ _ h2, h⟩

end Graph

/-! ## Epsilon closure -/

theorem remaining_le (n : Graph) (closure : List Int) :
    remaining n closure ≤ (transitionTargets n).length :=
  le_trans (Finset.card_filter_le _ _) (List.toFinset_card_le _)

theorem remaining_setInsert (n : Graph) (closure : List Int) (x : Int)
    (hx : x ∈ transitionTargets n) (hc : x ∉ closure) :
    remaining n (setInsert x closure) + 1 ≤ remaining n closure := by
  unfold remaining
  apply Nat.succ_le_of_lt
  apply Finset.card_lt_card
  refine Finset.ssubset_iff_of_subset ?_ |>.mpr ⟨x, ?_, ?_⟩
  · intro y hy
    simp only [Finset.mem_filter, List.mem_toFinset, mem_setInsert, not_or] at hy ⊢
    exact ⟨hy.1, hy.2.2⟩
  · simp only [Finset.mem_filter, List.mem_toFinset]
    exact ⟨hx, hc⟩
  · intro h
    have h2 := (Finset.mem_filter.mp h).2
    exact h2 ((mem_setInsert x x closure).mpr (Or.inl rfl))

theorem closureVisit_mem (closure stack nexts : List Int) (x : Int) :
    x ∈ (closureVisit closure stack nexts).1 ↔ x ∈ closure ∨ x ∈ nexts := by
  induction nexts generalizing closure stack with
  | nil => simp [closureVisit]
  | cons y ys ih =>
    unfold closureVisit
    split_ifs with h
    · rw [ih]
      simp only [List.mem_cons]
      constructor
      · rintro (h1 | h1)
        · exact Or.inl h1
        · exact Or.inr (Or.inr h1)
      · rintro (h1 | rfl | h1)
        · exact Or.inl h1
        · exact Or.inl h
        · exact Or.inr h1
    · rw [ih]
      simp only [List.mem_cons, mem_setInsert]
      tauto

theorem closureVisit_stack (closure stack nexts : List Int) (x : Int) :
    x ∈ (closureVisit closure stack nexts).2 ↔ x ∈ stack ∨ (x ∈ nexts ∧ x ∉ closure) := by
  induction nexts generalizing closure stack with
  | nil => simp [closureVisit]
  | cons y ys ih =>
    unfold closureVisit
    split_ifs with h
    · rw [ih]
      simp only [List.mem_cons]
      constructor
      · rintro (h1 | ⟨h1, h2⟩)
        · exact Or.inl h1
        · exact Or.inr ⟨Or.inr h1, h2⟩
      · rintro (h1 | ⟨rfl | h1, h2⟩)
        · exact Or.inl h1
        · exact absurd h h2
        · exact Or.inr ⟨h1, h2⟩
    · rw [ih]
      simp only [List.mem_cons, mem_setInsert, not_or]
      constructor
      · rintro ((rfl | h1) | ⟨h1, h2, h3⟩)
        · exact Or.inr ⟨Or.inl rfl, h⟩
        · exact Or.inl h1
        · exact Or.inr ⟨Or.inr h1, h3⟩
      · rintro (h1 | ⟨rfl | h1, h2⟩)
        · exact Or.inl (Or.inr h1)
        · exact Or.inl (Or.inl rfl)
        · by_cases hxy : x = y
          · exact Or.inl (Or.inl hxy)
          · exact Or.inr ⟨h1, hxy, h2⟩

theorem closureVisit_sorted (closure stack nexts : List Int) (h : closure.Sorted (· < ·)) :
    (closureVisit closure stack nexts).1.Sorted (· < ·) := by
  induction nexts generalizing closure stack with
  | nil => simpa [closureVisit] using h
  | cons y ys ih =>
    unfold closureVisit
    split_ifs with hy
    · exact ih _ _ h
    · exact ih _ _ (setInsert_sorted y closure h)

theorem closureVisit_measure (n : Graph) (closure stack nexts : List Int)
    (h : ∀ x ∈ nexts, x ∈ transitionTargets n) :
    (closureVisit closure stack nexts).2.length + remaining n (closureVisit closure stack nexts).1
      ≤ stack.length + remaining n closure := by
  induction nexts generalizing closure stack with
  | nil => simp [closureVisit]
  | cons y ys ih =>
    have hys : ∀ x ∈ ys, x ∈ transitionTargets n := fun x hx => h x (List.mem_cons_of_mem _ hx)
    unfold closureVisit
    split_ifs with hy
    · exact ih _ _ hys
    · have h1 := ih (setInsert y closure) (y :: stack) hys
      have h2 := remaining_setInsert n closure y (h y (List.mem_cons_self _ _)) hy
      simp only [List.length_cons] at h1
      omega

theorem closureInv_visit (n : Graph) (s current : Int) (closure stack : List Int)
    (h : ClosureInv n s closure (current :: stack)) :
    ClosureInv n s (closureVisit closure stack (n.getNextStates current EPSILON_CHAR)).1
      (closureVisit closure stack (n.getNextStates current EPSILON_CHAR)).2 := by
  obtain ⟨h1, h2, h3, h4, h5⟩ := h
  have hcur : current ∈ closure := h3 current (List.mem_cons_self _ _)
  refine ⟨?_, ?_, ?_, ?_, closureVisit_sorted _ _ _ h5⟩
  · exact (closureVisit_mem _ _ _ _).mpr (Or.inl h1)
  · intro x hx
    rcases (closureVisit_mem _ _ _ _).mp hx with hx | hx
    · exact h2 x hx
    · exact Relation.ReflTransGen.tail (h2 current hcur) hx
  · intro x hx
    rcases (closureVisit_stack _ _ _ _).mp hx with hx | ⟨hx, _⟩
    · exact (closureVisit_mem _ _ _ _).mpr (Or.inl (h3 x (List.mem_cons_of_mem _ hx)))
    · exact (closureVisit_mem _ _ _ _).mpr (Or.inr hx)
  · intro x hx hxs y hy
    have hxs' : ¬ (x ∈ stack ∨ (x ∈ n.getNextStates current EPSILON_CHAR ∧ x ∉ closure)) :=
      fun e => hxs ((closureVisit_stack _ _ _ _).mpr e)
    have hxc : x ∈ closure := by
      rcases (closureVisit_mem _ _ _ _).mp hx with hx | hx
      · exact hx
      · by_contra hc
        exact hxs' (Or.inr ⟨hx, hc⟩)
    by_cases hxcur : x = current
    · subst hxcur
      exact (closureVisit_mem _ _ _ _).mpr (Or.inr hy)
    · have : x ∉ current :: stack := by
        intro e
        rcases List.mem_cons.mp e with e | e
        · exact hxcur e
        · exact hxs' (Or.inl e)
      exact (closureVisit_mem _ _ _ _).mpr (Or.inl (h4 x hxc this y hy))

/-- With enough fuel the loop of `epsilonClosure` ends on an empty stack and
keeps its invariant. -/
theorem closureLoop_spec (n : Graph) (s : Int) :
    ∀ (fuel : Nat) (closure stack : List Int), ClosureInv n s closure stack →
      stack.length + remaining n closure ≤ fuel →
      (closureLoop n fuel (closure, stack)).2 = [] ∧
        ClosureInv n s (closureLoop n fuel (closure, stack)).1 [] := by
  intro fuel
  induction fuel with
  | zero =>
    intro closure stack h hm
    have : stack = [] := List.length_eq_zero.mp (by omega)
    subst this
    exact ⟨rfl, h⟩
  | succ fuel ih =>
    intro closure stack h hm
    cases stack with
    | nil => exact ⟨rfl, h⟩
    | cons current stack =>
      have hv := closureInv_visit n s current closure stack h
      have hmeas := closureVisit_measure n closure stack (n.getNextStates current EPSILON_CHAR)
        (fun x hx => Graph.mem_transitionTargets n _ _ x hx)
      simp only [List.length_cons] at hm
      exact ih _ _ hv (by omega)

theorem closureInv_init (n : Graph) (s : Int) : ClosureInv n s [s] [s] := by
  refine ⟨List.mem_singleton_self s, ?_, fun x hx => hx, ?_, List.sorted_singleton s⟩
  · intro x hx
    rw [List.mem_singleton.mp hx]
    exact Relation.ReflTransGen.refl
  · intro x hx hxs
    exact absurd hx hxs

theorem epsilonClosure_inv (n : Graph) (s : Int) :
    (closureLoop n ((transitionTargets n).length + 1) ([s], [s])).2 = [] ∧
      ClosureInv n s (epsilonClosure n s) [] := by
  have hm : [s].length + remaining n [s] ≤ (transitionTargets n).length + 1 := by
    have := remaining_le n [s]
    simp only [List.length_singleton]
    omega
  exact closureLoop_spec n s _ [s] [s] (closureInv_init n s) hm

/-- The closure of a state is the set of states reachable by `$`-transitions. -/
theorem mem_epsilonClosure (n : Graph) (s t : Int) :
    t ∈ epsilonClosure n s ↔ EpsReach n s t := by
  obtain ⟨_, h1, h2, _, h4, _⟩ := epsilonClosure_inv n s
  constructor
  · exact h2 t
  · intro h
    induction h with
    | refl => exact h1
    | tail _ hbc ih => exact h4 _ ih (List.not_mem_nil _) _ hbc

theorem epsilonClosure_sorted (n : Graph) (s : Int) :
    (epsilonClosure n s).Sorted (· < ·) :=
  (epsilonClosure_inv n s).2.2.2.2.2

theorem mem_epsilonClosureSet (n : Graph) (S : List Int) (t : Int) :
    t ∈ epsilonClosureSet n S ↔ ∃ s ∈ S, EpsReach n s t := by
  unfold epsilonClosureSet
  rw [mem_foldl_setInsertAll (fun s => epsilonClosure n s)]
  simp [mem_epsilonClosure]

theorem epsilonClosureSet_sorted (n : Graph) (S : List Int) :
    (epsilonClosureSet n S).Sorted (· < ·) :=
  foldl_setInsertAll_sorted (fun s => epsilonClosure n s) S [] List.sorted_nil

theorem mem_move (n : Graph) (S : List Int) (c : Char) (t : Int) :
    t ∈ move n S c ↔ ∃ s ∈ S, t ∈ n.getNextStates s c := by
  unfold move
  rw [mem_foldl_setInsertAll (fun s => n.getNextStates s c)]
  simp

/-! ## The subset automaton of an NFA -/

theorem epsClosed_reach {n : Graph} {S : List Int} (h : EpsClosed n S) {s t : Int}
    (hs : s ∈ S) (hr : EpsReach n s t) : t ∈ S := by
  induction hr with
  | refl => exact hs
  | tail _ hbc ih => exact h _ ih _ hbc

theorem epsilonClosure_closed (n : Graph) (s : Int) : EpsClosed n (epsilonClosure n s) := by
  intro x hx t ht
  rw [mem_epsilonClosure] at hx ⊢
  exact Relation.ReflTransGen.tail hx ht

theorem epsilonClosureSet_closed (n : Graph) (S : List Int) :
    EpsClosed n (epsilonClosureSet n S) := by
  intro x hx t ht
  rw [mem_epsilonClosureSet] at hx ⊢
  obtain ⟨s, hs, hr⟩ := hx
  exact ⟨s, hs, Relation.ReflTransGen.tail hr ht⟩

theorem reaches_of_epsReach {n : Graph} {s t q : Int} {w : List Char}
    (h : EpsReach n s t) (hr : Reaches n t w q) : Reaches n s w q := by
  induction h with
  | refl => exact hr
  | tail _ hbc ih => exact ih (Reaches.eps hbc hr)

theorem epsReach_of_reaches_nil {n : Graph} {s q : Int} {w : List Char}
    (h : Reaches n s w q) (hw : w = []) : EpsReach n s q := by
  induction h with
  | done s => exact Relation.ReflTransGen.refl
  | eps ht _ ih => exact Relation.ReflTransGen.head ht (ih hw)
  | step _ _ _ _ => cases hw

/-- A run over `c :: w` from a closed set passes through the set reached on `c`. -/
theorem reaches_cons_stepSet {n : Graph} {S : List Int} (hS : EpsClosed n S)
    {s q : Int} {c : Char} {w w' : List Char} (h : Reaches n s w' q) (hw : w' = c :: w)
    (hs : s ∈ S) : ∃ t ∈ stepSet n S c, Reaches n t w q := by
  induction h with
  | done s => cases hw
  | eps ht _ ih => exact ih hw (hS _ hs _ ht)
  | step _ ht hr _ =>
    cases hw
    refine ⟨_, ?_, hr⟩
    unfold stepSet
    rw [mem_epsilonClosureSet]
    exact ⟨_, (mem_move n S _ _).mpr ⟨_, hs, ht⟩, Relation.ReflTransGen.refl⟩

/-- The set reached on `w` from a closed set holds exactly the ends of the runs
over `w` from its members. -/
theorem mem_runSets (n : Graph) (w : List Char) (hw : EPSILON_CHAR ∉ w) :
    ∀ (S : List Int), EpsClosed n S → ∀ q, (q ∈ runSets n S w ↔ ∃ s ∈ S, Reaches n s w q) := by
  induction w with
  | nil =>
    intro S hS q
    constructor
    · intro h
      exact ⟨q, h, Reaches.done q⟩
    · rintro ⟨s, hs, hr⟩
      exact epsClosed_reach hS hs (epsReach_of_reaches_nil hr rfl)
  | cons c w ih =>
    intro S hS q
    have hc : c ≠ EPSILON_CHAR := fun e => hw (by rw [e]; exact List.mem_cons_self _ _)
    have hw' : EPSILON_CHAR ∉ w := fun e => hw (List.mem_cons_of_mem _ e)
    show q ∈ runSets n (stepSet n S c) w ↔ _
    rw [ih hw' (stepSet n S c) (epsilonClosureSet_closed n _)]
    constructor
    · rintro ⟨t, ht, hr⟩
      unfold stepSet at ht
      rw [mem_epsilonClosureSet] at ht
      obtain ⟨t0, ht0, he⟩ := ht
      obtain ⟨s, hs, hst⟩ := (mem_move n S c t0).mp ht0
      exact ⟨s, hs, Reaches.step hc hst (reaches_of_epsReach he hr)⟩
    · rintro ⟨s, hs, hr⟩
      exact reaches_cons_stepSet hS hr rfl hs

theorem stepSet_nil (n : Graph) (c : Char) : stepSet n [] c = [] := rfl

theorem runSets_nil (n : Graph) (w : List Char) : runSets n [] w = [] := by
  induction w with
  | nil => rfl
  | cons c w ih => simpa [runSets, stepSet_nil] using ih

theorem stepSet_sorted (n : Graph) (S : List Int) (c : Char) :
    (stepSet n S c).Sorted (· < ·) :=
  epsilonClosureSet_sorted n _

theorem epsReach_universe (n : Graph) {s t : Int} (h : EpsReach n s t)
    (hs : s ∈ stateUniverse n) : t ∈ stateUniverse n := by
  induction h with
  | refl => exact hs
  | tail _ hbc _ => exact List.mem_cons_of_mem _ (Graph.mem_transitionTargets n _ _ _ hbc)

theorem stepSet_universe (n : Graph) (S : List Int) (c : Char) :
    ∀ t ∈ stepSet n S c, t ∈ stateUniverse n := by
  intro t ht
  unfold stepSet at ht
  rw [mem_epsilonClosureSet] at ht
  obtain ⟨t0, ht0, he⟩ := ht
  obtain ⟨s, _, hst⟩ := (mem_move n S c t0).mp ht0
  exact epsReach_universe n he (List.mem_cons_of_mem _ (Graph.mem_transitionTargets n _ _ _ hst))

theorem epsilonClosure_universe (n : Graph) :
    ∀ t ∈ epsilonClosure n n.initialState, t ∈ stateUniverse n := by
  intro t ht
  rw [mem_epsilonClosure] at ht
  exact epsReach_universe n ht (List.mem_cons_self _ _)

/-! ## The invariant of the loop of `buildDFA` -/

theorem Extends.refl (n : Graph) (st : SubsetState) : Extends n st st :=
  ⟨⟨[], by simp, by simp⟩, fun _ _ h => h, fun _ _ h => h⟩

theorem Extends.trans {n : Graph} {a b c : SubsetState} (h1 : Extends n a b)
    (h2 : Extends n b c) : Extends n a c := by
  obtain ⟨l1, hq1, hp1⟩ := h1.added
  obtain ⟨l2, hq2, hp2⟩ := h2.added
  refine ⟨⟨l1 ++ l2, ?_, ?_⟩, fun S i h => h2.mono S i (h1.mono S i h),
    fun S ch h => h2.complete S ch (h1.complete S ch h)⟩
  · rw [hq2, hq1, List.append_assoc]
  · rw [hp2, hp1, List.reverse_append, List.append_assoc]

theorem expandSymbol_eq (n : Graph) (cur : List Int) (i : Int) (st : SubsetState) (c : Char) :
    expandSymbol n cur i st c =
      if stepSet n cur c = [] then st
      else
        { registerSet n st (stepSet n cur c) with
          dfa := (registerSet n st (stepSet n cur c)).dfa.addEdge i
            (getStateId st.builder (stepSet n cur c)).1 c } := by
  unfold expandSymbol registerSet stepSet
  by_cases h : epsilonClosureSet n (move n cur c) = []
  · simp [h]
  · by_cases h2 : epsilonClosureSet n (move n cur c) ∈ st.processedStates <;> simp [h, h2]

theorem registerSet_known (n : Graph) (st : SubsetState) (S : List Int) (j : Int)
    (hc : SubsetCore n st) (h : mapFind S st.builder.stateSetToId = some j) :
    registerSet n st S = st ∧ (getStateId st.builder S).1 = j := by
  have hmem : S ∈ st.processedStates := (hc.keys S).mpr ⟨j, h⟩
  unfold registerSet getStateId
  simp [h, hmem]

theorem registerSet_fresh (n : Graph) (st : SubsetState) (S : List Int)
    (hc : SubsetCore n st) (h : mapFind S st.builder.stateSetToId = none) :
    registerSet n st S =
      { dfa := if containsAccept n S
          then (st.dfa.addState st.builder.stateCounter).addAcceptState st.builder.stateCounter
          else st.dfa.addState st.builder.stateCounter
        unprocessedStates := st.unprocessedStates ++ [S]
        processedStates := S :: st.processedStates
        builder := { stateSetToId := mapSet S st.builder.stateCounter st.builder.stateSetToId
                     stateCounter := st.builder.stateCounter + 1 } } ∧
      (getStateId st.builder S).1 = st.builder.stateCounter := by
  have hmem : S ∉ st.processedStates := by
    intro hm
    obtain ⟨i, hi⟩ := (hc.keys S).mp hm
    rw [h] at hi
    cases hi
  unfold registerSet getStateId
  simp [h, hmem]

theorem withNewState_next (g : Graph) (k : Int) (acc : Bool) (u : Int) (c : Char) :
    (withNewState g k acc).getNextStates u c = g.getNextStates u c := by
  cases acc <;> rfl

theorem withNewState_initial (g : Graph) (k : Int) (acc : Bool) :
    (withNewState g k acc).initialState = g.initialState := by
  cases acc <;> rfl

theorem withNewState_states (g : Graph) (k : Int) (acc : Bool) (i : Int) :
    i ∈ (withNewState g k acc).states ↔ i = k ∨ i ∈ g.states := by
  cases acc
  · simp [withNewState, Graph.addState, mem_setInsert]
  · simp [withNewState, Graph.addState, Graph.addAcceptState, mem_setInsert]

theorem withNewState_sorted (g : Graph) (k : Int) (acc : Bool) (h : g.states.Sorted (· < ·)) :
    (withNewState g k acc).states.Sorted (· < ·) := by
  cases acc
  · exact setInsert_sorted _ _ h
  · exact setInsert_sorted _ _ (setInsert_sorted _ _ h)

theorem withNewState_accept (g : Graph) (k : Int) (acc : Bool) (i : Int) :
    i ∈ (withNewState g k acc).acceptStates ↔ (i = k ∧ acc = true) ∨ i ∈ g.acceptStates := by
  cases acc
  · simp [withNewState, Graph.addState]
  · simp [withNewState, Graph.addState, Graph.addAcceptState, mem_setInsert]

theorem registerSet_core (n : Graph) (st : SubsetState) (S : List Int)
    (hc : SubsetCore n st) (hne : S ≠ []) (hs : S.Sorted (· < ·))
    (hu : ∀ x ∈ S, x ∈ stateUniverse n) :
    SubsetCore n (registerSet n st S) ∧ Extends n st (registerSet n st S) ∧
      mapFind S (registerSet n st S).builder.stateSetToId = some (getStateId st.builder S).1 := by
  cases h : mapFind S st.builder.stateSetToId with
  | some j =>
    obtain ⟨e1, e2⟩ := registerSet_known n st S j hc h
    rw [e1, e2]
    exact ⟨hc, Extends.refl n st, h⟩
  | none =>
    obtain ⟨e1, e2⟩ := registerSet_fresh n st S hc h
    rw [e1, e2]
    have hdfa : (if containsAccept n S
          then (st.dfa.addState st.builder.stateCounter).addAcceptState st.builder.stateCounter
          else st.dfa.addState st.builder.stateCounter) =
        withNewState st.dfa st.builder.stateCounter (containsAccept n S) := rfl
    rw [hdfa]
    have hfind : ∀ T, mapFind T (mapSet S st.builder.stateCounter st.builder.stateSetToId) =
        if T = S then some st.builder.stateCounter else mapFind T st.builder.stateSetToId :=
      fun T => mapFind_mapSet S T _ _
    have hmono : ∀ T i, mapFind T st.builder.stateSetToId = some i →
        mapFind T (mapSet S st.builder.stateCounter st.builder.stateSetToId) = some i := by
      intro T i hT
      have hne' : T ≠ S := by
        rintro rfl
        rw [h] at hT
        cases hT
      rw [hfind, if_neg hne']
      exact hT
    have hcomp : ∀ T c, Complete n st T c →
        Complete n
          { dfa := withNewState st.dfa st.builder.stateCounter (containsAccept n S)
            unprocessedStates := st.unprocessedStates ++ [S]
            processedStates := S :: st.processedStates
            builder := { stateSetToId := mapSet S st.builder.stateCounter st.builder.stateSetToId
                         stateCounter := st.builder.stateCounter + 1 } } T c := by
      rintro T c ⟨i, hi, hstep⟩
      refine ⟨i, hmono T i hi, fun hne2 => ?_⟩
      obtain ⟨j, hj, hnx⟩ := hstep hne2
      exact ⟨j, hmono _ j hj, by rw [withNewState_next]; exact hnx⟩
    refine ⟨?_, ⟨⟨[S], rfl, rfl⟩, hmono, hcomp⟩, ?_⟩
    · constructor
      · intro T
        show T ∈ S :: st.processedStates ↔ ∃ i, mapFind T (mapSet S _ _) = some i
        rw [hfind, List.mem_cons, hc.keys T]
        by_cases hT : T = S
        · simp [hT]
        · simp [hT]
      · intro T T' i hT hT'
        change mapFind T (mapSet S _ _) = some i at hT
        change mapFind T' (mapSet S _ _) = some i at hT'
        rw [hfind] at hT hT'
        by_cases e1 : T = S <;> by_cases e2 : T' = S
        · rw [e1, e2]
        · rw [if_pos e1] at hT
          rw [if_neg e2] at hT'
          cases hT
          exact absurd (hc.bound T' _ hT').2 (lt_irrefl _)
        · rw [if_neg e1] at hT
          rw [if_pos e2] at hT'
          cases hT'
          exact absurd (hc.bound T _ hT).2 (lt_irrefl _)
        · rw [if_neg e1] at hT
          rw [if_neg e2] at hT'
          exact hc.inj T T' i hT hT'
      · intro T i hT
        change mapFind T (mapSet S _ _) = some i at hT
        show 0 ≤ i ∧ i < st.builder.stateCounter + 1
        rw [hfind] at hT
        by_cases e1 : T = S
        · rw [if_pos e1] at hT
          cases hT
          have := hc.count
          omega
        · rw [if_neg e1] at hT
          have := hc.bound T i hT
          omega
      · intro T hT
        show T ∈ S :: st.processedStates
        rcases List.mem_append.mp hT with hT | hT
        · exact List.mem_cons_of_mem _ (hc.queue T hT)
        · rw [List.mem_singleton.mp hT]
          exact List.mem_cons_self _ _
      · intro u c
        show (withNewState _ _ _).getNextStates u c = [] ∨ _
        rw [withNewState_next]
        rcases hc.edges u c with h0 | ⟨T, j, h1, h2, h3, h4, h5⟩
        · exact Or.inl h0
        · exact Or.inr ⟨T, j, hmono T u h1, h2, h3, hmono _ j h4, h5⟩
      · intro T i hT
        change mapFind T (mapSet S _ _) = some i at hT
        show i ∈ (withNewState _ _ _).acceptStates ↔ _
        rw [withNewState_accept]
        rw [hfind] at hT
        by_cases e1 : T = S
        · rw [if_pos e1] at hT
          cases hT
          subst e1
          constructor
          · rintro (⟨_, h2⟩ | h2)
            · exact h2
            · exact absurd (hc.acceptBound _ h2) (lt_irrefl _)
          · intro h2
            exact Or.inl ⟨rfl, h2⟩
        · rw [if_neg e1] at hT
          rw [← hc.accept T i hT]
          constructor
          · rintro (⟨h1, _⟩ | h2)
            · exact absurd (h1 ▸ (hc.bound T i hT).2) (lt_irrefl _)
            · exact h2
          · exact Or.inr
      · intro a ha
        show a < st.builder.stateCounter + 1
        rcases (withNewState_accept _ _ _ _).mp ha with ⟨h1, _⟩ | h2
        · omega
        · have := hc.acceptBound a h2
          omega
      · refine ⟨?_, hmono _ _ hc.init.2⟩
        show (withNewState _ _ _).initialState = 0
        rw [withNewState_initial]
        exact hc.init.1
      · show st.builder.stateCounter + 1 = ((S :: st.processedStates).length : Int)
        rw [hc.count]
        simp
      · intro i
        show i ∈ (withNewState _ _ _).states ↔ 0 ≤ i ∧ i < st.builder.stateCounter + 1
        rw [withNewState_states, hc.states]
        have := hc.count
        omega
      · exact withNewState_sorted _ _ _ hc.statesSorted
      · show (S :: st.processedStates).Nodup
        refine List.nodup_cons.mpr ⟨?_, hc.nodup⟩
        intro hm
        obtain ⟨i, hi⟩ := (hc.keys S).mp hm
        rw [h] at hi
        cases hi
      · intro T hT
        rcases List.mem_cons.mp hT with rfl | hT
        · exact ⟨hs, hne, hu⟩
        · exact hc.canon T hT
    · show mapFind S (mapSet S _ _) = some _
      rw [hfind, if_pos rfl]

theorem setInsert_self_singleton (j : Int) : setInsert j [j] = [j] := by
  simp [setInsert]

theorem addEdge_core (n : Graph) (st : SubsetState) (cur : List Int) (c : Char) (i j : Int)
    (hc : SubsetCore n st) (hcA : c ∈ fullAlphabet n)
    (hi : mapFind cur st.builder.stateSetToId = some i) (hne : stepSet n cur c ≠ [])
    (hj : mapFind (stepSet n cur c) st.builder.stateSetToId = some j) :
    SubsetCore n { st with dfa := st.dfa.addEdge i j c } ∧
      Extends n st { st with dfa := st.dfa.addEdge i j c } ∧
      Complete n { st with dfa := st.dfa.addEdge i j c } cur c := by
  have hkey : (st.dfa.addEdge i j c).getNextStates i c = [j] := by
    rw [Graph.getNextStates_addEdge, if_pos ⟨rfl, rfl⟩]
    rcases hc.edges i c with h0 | ⟨T, j0, h1, _, _, h4, h5⟩
    · rw [h0]; rfl
    · have hT : T = cur := hc.inj T cur i h1 hi
      subst hT
      rw [hj] at h4
      cases h4
      rw [h5]
      exact setInsert_self_singleton j
  have hother : ∀ u c', ¬ (u = i ∧ c' = c) →
      (st.dfa.addEdge i j c).getNextStates u c' = st.dfa.getNextStates u c' := by
    intro u c' hn
    rw [Graph.getNextStates_addEdge, if_neg hn]
  refine ⟨?_, ⟨⟨[], by simp, by simp⟩, fun _ _ h => h, ?_⟩, ⟨i, hi, fun _ => ⟨j, hj, hkey⟩⟩⟩
  · constructor
    · exact hc.keys
    · exact hc.inj
    · exact hc.bound
    · exact hc.queue
    · intro u c'
      by_cases hu : u = i ∧ c' = c
      · obtain ⟨rfl, rfl⟩ := hu
        exact Or.inr ⟨cur, j, hi, hcA, hne, hj, hkey⟩
      · show (st.dfa.addEdge i j c).getNextStates u c' = [] ∨ _
        rw [hother u c' hu]
        rcases hc.edges u c' with h0 | ⟨T, j0, h1, h2, h3, h4, h5⟩
        · exact Or.inl h0
        · exact Or.inr ⟨T, j0, h1, h2, h3, h4, h5⟩
    · exact hc.accept
    · exact hc.acceptBound
    · exact hc.init
    · exact hc.count
    · exact hc.states
    · exact hc.statesSorted
    · exact hc.nodup
    · exact hc.canon
  · rintro T c' ⟨i', hi', hstep⟩
    refine ⟨i', hi', fun hne2 => ?_⟩
    obtain ⟨j', hj', hnx⟩ := hstep hne2
    refine ⟨j', hj', ?_⟩
    by_cases hu : i' = i ∧ c' = c
    · obtain ⟨rfl, rfl⟩ := hu
      have hT : T = cur := hc.inj T cur _ hi' hi
      subst hT
      change mapFind (stepSet n T c') st.builder.stateSetToId = some j' at hj'
      rw [hj] at hj'
      cases hj'
      exact hkey
    · exact (hother i' c' hu).trans hnx

/-- One symbol of the symbol loop keeps the invariant and completes the
transition of the current set on that symbol. -/
theorem expandSymbol_core (n : Graph) (st : SubsetState) (cur : List Int) (c : Char) (i : Int)
    (hc : SubsetCore n st) (hcA : c ∈ fullAlphabet n)
    (hi : mapFind cur st.builder.stateSetToId = some i) :
    SubsetCore n (expandSymbol n cur i st c) ∧ Extends n st (expandSymbol n cur i st c) ∧
      Complete n (expandSymbol n cur i st c) cur c := by
  rw [expandSymbol_eq]
  by_cases hne : stepSet n cur c = []
  · rw [if_pos hne]
    exact ⟨hc, Extends.refl n st, ⟨i, hi, fun h => absurd hne h⟩⟩
  · rw [if_neg hne]
    obtain ⟨h1, h2, h3⟩ := registerSet_core n st (stepSet n cur c) hc hne
      (stepSet_sorted n cur c) (stepSet_universe n cur c)
    obtain ⟨h4, h5, h6⟩ := addEdge_core n (registerSet n st (stepSet n cur c)) cur c i
      (getStateId st.builder (stepSet n cur c)).1 h1 hcA (h2.mono cur i hi) hne h3
    exact ⟨h4, h2.trans h5, h6⟩

theorem expandSymbols_core (n : Graph) (cur : List Int) (i : Int) :
    ∀ (cs : List Char) (st : SubsetState), (∀ c ∈ cs, c ∈ fullAlphabet n) →
      SubsetCore n st → mapFind cur st.builder.stateSetToId = some i →
      SubsetCore n (cs.foldl (expandSymbol n cur i) st) ∧
        Extends n st (cs.foldl (expandSymbol n cur i) st) ∧
        ∀ c ∈ cs, Complete n (cs.foldl (expandSymbol n cur i) st) cur c := by
  intro cs
  induction cs with
  | nil =>
    intro st _ hc _
    exact ⟨hc, Extends.refl n st, fun c hc' => absurd hc' (List.not_mem_nil c)⟩
  | cons c cs ih =>
    intro st hA hc hi
    obtain ⟨h1, h2, h3⟩ := expandSymbol_core n st cur c i hc (hA c (List.mem_cons_self _ _)) hi
    obtain ⟨h4, h5, h6⟩ := ih (expandSymbol n cur i st c)
      (fun c' hc' => hA c' (List.mem_cons_of_mem _ hc')) h1 (h2.mono cur i hi)
    refine ⟨h4, h2.trans h5, ?_⟩
    intro c' hc'
    rcases List.mem_cons.mp hc' with rfl | hc'
    · exact h5.complete cur c' h3
    · exact h6 c' hc'

/-- One iteration of the queue loop, for a set that has an identifier. -/
theorem expandState_core (n : Graph) (st : SubsetState) (cur : List Int)
    (hc : SubsetCore n st) (hcur : cur ∈ st.processedStates) :
    SubsetCore n (expandState n cur st) ∧ Extends n st (expandState n cur st) ∧
      ∀ c ∈ fullAlphabet n, Complete n (expandState n cur st) cur c := by
  obtain ⟨i, hi⟩ := (hc.keys cur).mp hcur
  have e : getStateId st.builder cur = (i, st.builder) := by
    unfold getStateId
    rw [hi]
  unfold expandState
  rw [e]
  exact expandSymbols_core n cur i (fullAlphabet n) st (fun c h => h) hc hi

/-- There are at most `2 ^ |U|` distinct ascending lists over `U`. -/
theorem card_sorted_subsets (U : List Int) (L : List (List Int)) (hnd : L.Nodup)
    (h : ∀ S ∈ L, S.Sorted (· < ·) ∧ ∀ x ∈ S, x ∈ U) : L.length ≤ 2 ^ U.length := by
  have hinj : ∀ S ∈ L, ∀ T ∈ L, S.toFinset = T.toFinset → S = T := by
    intro S hS T hT e
    have hp : S.Perm T :=
      List.perm_of_nodup_nodup_toFinset_eq (h S hS).1.nodup (h T hT).1.nodup e
    exact List.eq_of_perm_of_sorted hp (h S hS).1 (h T hT).1
  have hnd' : (L.map List.toFinset).Nodup := List.Nodup.map_on hinj hnd
  have hsub : (L.map List.toFinset).toFinset ⊆ U.toFinset.powerset := by
    intro F hF
    rw [List.mem_toFinset, List.mem_map] at hF
    obtain ⟨S, hS, rfl⟩ := hF
    rw [Finset.mem_powerset]
    intro x hx
    rw [List.mem_toFinset] at hx ⊢
    exact (h S hS).2 x hx
  calc L.length = (L.map List.toFinset).length := by simp
    _ = (L.map List.toFinset).toFinset.card := (List.toFinset_card_of_nodup hnd').symm
    _ ≤ U.toFinset.powerset.card := Finset.card_le_card hsub
    _ = 2 ^ U.toFinset.card := Finset.card_powerset _
    _ ≤ 2 ^ U.length := Nat.pow_le_pow_right (by norm_num) (List.toFinset_card_le U)

theorem subsetCore_processed_le (n : Graph) (st : SubsetState) (hc : SubsetCore n st) :
    st.processedStates.length ≤ subsetFuel n := by
  have := card_sorted_subsets (stateUniverse n) st.processedStates hc.nodup
    (fun S hS => ⟨(hc.canon S hS).1, (hc.canon S hS).2.2⟩)
  simpa [stateUniverse, subsetFuel] using this

theorem subsetCore_pop (n : Graph) (st : SubsetState) (cur : List Int) (rest : List (List Int))
    (hc : SubsetCore n st) (hq : st.unprocessedStates = cur :: rest) :
    SubsetCore n { st with unprocessedStates := rest } :=
  { keys := hc.keys, inj := hc.inj, bound := hc.bound,
    queue := fun S hS => hc.queue S (by rw [hq]; exact List.mem_cons_of_mem _ hS),
    edges := hc.edges, accept := hc.accept, acceptBound := hc.acceptBound, init := hc.init,
    count := hc.count, states := hc.states, statesSorted := hc.statesSorted,
    nodup := hc.nodup, canon := hc.canon }

/-- One iteration of the queue loop keeps the invariant; the queue and the
set of seen sets grow by the same sets. -/
theorem subsetInv_step (n : Graph) (st : SubsetState) (cur : List Int)
    (rest : List (List Int)) (h : SubsetInv n st) (hq : st.unprocessedStates = cur :: rest) :
    SubsetInv n (expandState n cur { st with unprocessedStates := rest }) ∧
      Extends n { st with unprocessedStates := rest }
        (expandState n cur { st with unprocessedStates := rest }) := by
  have hc0 := subsetCore_pop n st cur rest h.1 hq
  have hcur : cur ∈ st.processedStates := h.1.queue cur (by rw [hq]; exact List.mem_cons_self _ _)
  obtain ⟨h1, h2, h3⟩ := expandState_core n { st with unprocessedStates := rest } cur hc0 hcur
  refine ⟨⟨h1, ?_⟩, h2⟩
  intro S hS hSq c hcA
  obtain ⟨news, e1, e2⟩ := h2.added
  rw [e1] at hSq
  rw [e2] at hS
  have hS1 : S ∉ rest := fun e => hSq (List.mem_append_left _ e)
  have hS2 : S ∉ news := fun e => hSq (List.mem_append_right _ e)
  have hS3 : S ∈ st.processedStates := by
    rcases List.mem_append.mp hS with e | e
    · exact absurd (List.mem_reverse.mp e) hS2
    · exact e
  by_cases hSc : S = cur
  · rw [hSc]
    exact h3 c hcA
  · have hSq' : S ∉ st.unprocessedStates := by
      rw [hq]
      intro e
      rcases List.mem_cons.mp e with e | e
      · exact hSc e
      · exact hS1 e
    exact h2.complete S c (h.2 S hS3 hSq' c hcA)

/-- With enough fuel the queue loop of `buildDFA` ends on an empty queue. -/
theorem subsetLoop_spec (n : Graph) :
    ∀ (fuel : Nat) (st : SubsetState), SubsetInv n st →
      st.unprocessedStates.length + (subsetFuel n - st.processedStates.length) ≤ fuel →
      (subsetLoop n fuel st).unprocessedStates = [] ∧ SubsetInv n (subsetLoop n fuel st) := by
  intro fuel
  induction fuel with
  | zero =>
    intro st h hm
    have : st.unprocessedStates = [] := List.length_eq_zero.mp (by omega)
    exact ⟨this, h⟩
  | succ fuel ih =>
    intro st h hm
    cases hq : st.unprocessedStates with
    | nil =>
      have e : subsetLoop n (fuel + 1) st = st := by
        simp only [subsetLoop, hq]
      rw [e]
      exact ⟨hq, h⟩
    | cons cur rest =>
      have e : subsetLoop n (fuel + 1) st =
          subsetLoop n fuel (expandState n cur { st with unprocessedStates := rest }) := by
        simp only [subsetLoop, hq]
      rw [e]
      obtain ⟨h1, h2⟩ := subsetInv_step n st cur rest h hq
      obtain ⟨news, e1, e2⟩ := h2.added
      have hle := subsetCore_processed_le n _ h1.1
      apply ih _ h1
      rw [e1, e2] at *
      rw [hq] at hm
      simp only [List.length_append, List.length_reverse, List.length_cons] at hm hle ⊢
      omega

theorem subsetInit_eq (n : Graph) :
    subsetInit n =
      { dfa := if containsAccept n (epsilonClosure n n.initialState)
          then ((Graph.empty.addState 0).setInitialState 0).addAcceptState 0
          else (Graph.empty.addState 0).setInitialState 0
        unprocessedStates := [epsilonClosure n n.initialState]
        processedStates := [epsilonClosure n n.initialState]
        builder := { stateSetToId := [(epsilonClosure n n.initialState, 0)], stateCounter := 1 } }
    := by
  unfold subsetInit getStateId
  simp [mapFind, mapSet]

theorem subsetInv_init (n : Graph) : SubsetInv n (subsetInit n) := by
  rw [subsetInit_eq]
  have hfind : ∀ T i, mapFind T [(epsilonClosure n n.initialState, (0 : Int))] = some i ↔
      T = epsilonClosure n n.initialState ∧ i = 0 := by
    intro T i
    unfold mapFind
    by_cases e : epsilonClosure n n.initialState = T
    · rw [if_pos e]
      constructor
      · intro h; cases h; exact ⟨e.symm, rfl⟩
      · rintro ⟨_, rfl⟩; rfl
    · rw [if_neg e]
      simp only [mapFind]
      constructor
      · intro h; cases h
      · rintro ⟨h, _⟩; exact absurd h.symm e
  have hnext : ∀ u c, (if containsAccept n (epsilonClosure n n.initialState)
          then ((Graph.empty.addState 0).setInitialState 0).addAcceptState 0
          else (Graph.empty.addState 0).setInitialState 0).getNextStates u c = [] := by
    intro u c
    split_ifs <;> rfl
  refine ⟨?_, ?_⟩
  · constructor
    · intro T
      simp only [List.mem_singleton, hfind]
      constructor
      · intro h; exact ⟨0, h, rfl⟩
      · rintro ⟨_, h, _⟩; exact h
    · intro T T' i hT hT'
      rw [((hfind T i).mp hT).1, ((hfind T' i).mp hT').1]
    · intro T i hT
      rw [((hfind T i).mp hT).2]
      exact ⟨le_refl 0, by norm_num⟩
    · intro T hT
      exact hT
    · intro u c
      exact Or.inl (hnext u c)
    · intro T i hT
      obtain ⟨rfl, rfl⟩ := (hfind T i).mp hT
      dsimp only
      cases hacc : containsAccept n (epsilonClosure n n.initialState)
      · simp [Graph.empty, Graph.addState, Graph.setInitialState]
      · simp [Graph.empty, Graph.addState, Graph.setInitialState, Graph.addAcceptState,
          mem_setInsert]
    · intro a ha
      dsimp only at ha ⊢
      cases hacc : containsAccept n (epsilonClosure n n.initialState)
      · rw [hacc] at ha
        simp [Graph.empty, Graph.addState, Graph.setInitialState] at ha
      · rw [hacc] at ha
        simp [Graph.empty, Graph.addState, Graph.setInitialState, Graph.addAcceptState,
          mem_setInsert] at ha
        omega
    · refine ⟨?_, (hfind _ _).mpr ⟨rfl, rfl⟩⟩
      dsimp only
      split_ifs <;> rfl
    · rfl
    · intro i
      dsimp only
      cases hacc : containsAccept n (epsilonClosure n n.initialState)
      · simp [Graph.empty, Graph.addState, Graph.setInitialState, mem_setInsert]
        omega
      · simp [Graph.empty, Graph.addState, Graph.setInitialState, Graph.addAcceptState,
          mem_setInsert]
        omega
    · dsimp only
      split_ifs
      · exact setInsert_sorted _ _ (setInsert_sorted _ _ (setInsert_sorted _ _ List.sorted_nil))
      · exact setInsert_sorted _ _ (setInsert_sorted _ _ List.sorted_nil)
    · exact List.nodup_singleton _
    · intro T hT
      rw [List.mem_singleton.mp hT]
      refine ⟨epsilonClosure_sorted n _, ?_, epsilonClosure_universe n⟩
      intro e
      have : n.initialState ∈ epsilonClosure n n.initialState :=
        (mem_epsilonClosure n _ _).mpr Relation.ReflTransGen.refl
      rw [e] at this
      exact List.not_mem_nil _ this
  · intro S hS hSq
    exact absurd hS hSq

/-- The loop of `buildDFA` ends: with the fuel of `subsetFinal` the queue is
empty and the invariant holds. -/
theorem subsetFinal_spec (n : Graph) :
    (subsetFinal n).unprocessedStates = [] ∧ SubsetInv n (subsetFinal n) := by
  apply subsetLoop_spec n _ _ (subsetInv_init n)
  rw [subsetInit_eq]
  have : 1 ≤ subsetFuel n := Nat.one_le_two_pow
  simp only [List.length_singleton]
  omega

/-! ## Consequences of the class invariant of `Graph` -/

theorem mapFind_mem {κ β : Type} [DecidableEq κ] (k : κ) (m : List (κ × β)) (b : β)
    (h : mapFind k m = some b) : (k, b) ∈ m := by
  induction m with
  | nil => simp [mapFind] at h
  | cons p m ih =>
    obtain ⟨k₀, b₀⟩ := p
    unfold mapFind at h
    split_ifs at h with h0
    · cases h; subst h0; simp
    · exact List.mem_cons_of_mem _ (ih h)

/-- Under the class invariant a member of a target set is an edge. -/
theorem Graph.edge_of_mem_getNextStates (g : Graph) (hg : g.Invariant) (s t : Int) (c : Char)
    (h : t ∈ g.getNextStates s c) : (⟨s, t, c⟩ : Edge) ∈ g.edges := by
  unfold Graph.getNextStates at h
  cases h1 : mapFind s g.transitions with
  | none => simp [h1] at h
  | some inner =>
    cases h2 : mapFind c inner with
    | none => simp [h1, h2] at h
    | some tg =>
      simp only [h1, h2] at h
      exact hg.1 (s, inner) (mapFind_mem _ _ _ h1) (c, tg) (mapFind_mem _ _ _ h2) t h

theorem mem_fullAlphabet (n : Graph) (c : Char) :
    c ∈ fullAlphabet n ↔ c ∈ n.alphabet ∧ c ≠ EPSILON_CHAR := by
  unfold fullAlphabet setErase
  simp

theorem stepSet_ne_nil_alphabet (n : Graph) (hn : n.Invariant) (S : List Int) (c : Char)
    (h : stepSet n S c ≠ []) : c ∈ n.alphabet := by
  obtain ⟨t, ht⟩ := List.exists_mem_of_ne_nil _ h
  unfold stepSet at ht
  rw [mem_epsilonClosureSet] at ht
  obtain ⟨t0, ht0, _⟩ := ht
  obtain ⟨s, _, hst⟩ := (mem_move n S c t0).mp ht0
  exact (hn.2.1 _ (Graph.edge_of_mem_getNextStates n hn s t0 c hst)).1

theorem mem_mapSet {κ β : Type} [DecidableEq κ] (k : κ) (b : β) (m : List (κ × β))
    (p : κ × β) (h : p ∈ mapSet k b m) : p = (k, b) ∨ p ∈ m := by
  induction m with
  | nil =>
    simp only [mapSet, List.mem_singleton] at h
    exact Or.inl h
  | cons q m ih =>
    obtain ⟨k₀, b₀⟩ := q
    unfold mapSet at h
    split_ifs at h with h0
    · rcases List.mem_cons.mp h with h | h
      · exact Or.inl h
      · exact Or.inr (List.mem_cons_of_mem _ h)
    · rcases List.mem_cons.mp h with h | h
      · exact Or.inr (by rw [h]; exact List.mem_cons_self _ _)
      · exact (ih h).imp id (List.mem_cons_of_mem _)

theorem mem_of_mapFind_getD {κ β : Type} [DecidableEq κ] (k : κ) (m : List (κ × List β))
    (x : β) (h : x ∈ (mapFind k m).getD []) : (k, (mapFind k m).getD []) ∈ m := by
  cases hf : mapFind k m with
  | none => rw [hf] at h; exact absurd h (List.not_mem_nil x)
  | some b => exact mapFind_mem k m b hf

/-- `addEdge` keeps the class invariant. -/
theorem Graph.invariant_addEdge (g : Graph) (u v : Int) (w : Char) (hg : g.Invariant) :
    (g.addEdge u v w).Invariant := by
  refine ⟨?_, ?_, ?_⟩
  · intro p hp q hq t ht
    show (⟨p.1, t, q.1⟩ : Edge) ∈ g.edges ++ [⟨u, v, w⟩]
    rcases mem_mapSet _ _ _ p hp with rfl | hp
    · rcases mem_mapSet _ _ _ q hq with rfl | hq
      · rcases (mem_setInsert t v _).mp ht with rfl | ht
        · exact List.mem_append_right _ (List.mem_singleton_self _)
        · have h1 := mem_of_mapFind_getD w _ t ht
          have h2 : (u, (mapFind u g.transitions).getD []) ∈ g.transitions := by
            cases hf : mapFind u g.transitions with
            | none => rw [hf] at h1; exact absurd h1 (List.not_mem_nil _)
            | some b => exact mapFind_mem u _ b hf
          exact List.mem_append_left _ (hg.1 _ h2 _ h1 t ht)
      · have h2 := mem_of_mapFind_getD u g.transitions q hq
        exact List.mem_append_left _ (hg.1 _ h2 q hq t ht)
    · exact List.mem_append_left _ (hg.1 p hp q hq t ht)
  · intro e he
    show e.w ∈ setInsert w g.alphabet ∧ e.v ∈ (g.addEdge u v w).getNextStates e.u e.w
    rw [Graph.getNextStates_addEdge]
    rcases List.mem_append.mp he with he | he
    · obtain ⟨h1, h2⟩ := hg.2.1 e he
      refine ⟨(mem_setInsert _ _ _).mpr (Or.inr h1), ?_⟩
      split_ifs
      · exact (mem_setInsert _ _ _).mpr (Or.inr h2)
      · exact h2
    · rw [List.mem_singleton.mp he]
      refine ⟨(mem_setInsert _ _ _).mpr (Or.inl rfl), ?_⟩
      rw [if_pos ⟨rfl, rfl⟩]
      exact (mem_setInsert _ _ _).mpr (Or.inl rfl)
  · intro c hc
    show ∃ e ∈ g.edges ++ [⟨u, v, w⟩], e.w = c
    rcases (mem_setInsert c w g.alphabet).mp hc with rfl | hc
    · exact ⟨⟨u, v, c⟩, List.mem_append_right _ (List.mem_singleton_self _), rfl⟩
    · obtain ⟨e, he, hw⟩ := hg.2.2 c hc
      exact ⟨e, List.mem_append_left _ he, hw⟩

/-- Every graph produced through the public interface satisfies the class
invariant. -/
theorem Graph.Built.invariant {g : Graph} (h : g.Built) : g.Invariant := by
  induction h with
  | empty => exact ⟨by simp [Graph.empty], by simp [Graph.empty], by simp [Graph.empty]⟩
  | addState state _ ih => exact ih
  | addEdge u v w _ ih => exact Graph.invariant_addEdge _ u v w ih
  | setInitialState state _ ih => exact ih
  | addAcceptState state _ ih => exact ih

/-! ## The DFA of `buildDFA` runs the subset automaton -/

/-- In the DFA left by the loop, the run from the identifier of a set `S` over
`w` ends in the identifier of the set reached from `S` on `w`, and stops
without a result exactly when that set is empty. -/
theorem dfaRun_subset (n : Graph) (hn : n.Invariant) (st : SubsetState)
    (hst : SubsetInv n st) (hq : st.unprocessedStates = []) :
    ∀ (w : List Char), EPSILON_CHAR ∉ w → ∀ (S : List Int) (i : Int),
      mapFind S st.builder.stateSetToId = some i →
      (runSets n S w = [] ∧ dfaRun st.dfa i w = none) ∨
        ∃ j, mapFind (runSets n S w) st.builder.stateSetToId = some j ∧
          dfaRun st.dfa i w = some j := by
  intro w
  induction w with
  | nil =>
    intro _ S i hi
    exact Or.inr ⟨i, hi, rfl⟩
  | cons c w ih =>
    intro hw S i hi
    have hc : c ≠ EPSILON_CHAR := fun e => hw (by rw [e]; exact List.mem_cons_self _ _)
    have hw' : EPSILON_CHAR ∉ w := fun e => hw (List.mem_cons_of_mem _ e)
    by_cases hne : stepSet n S c = []
    · left
      refine ⟨?_, ?_⟩
      · show runSets n (stepSet n S c) w = []
        rw [hne]
        exact runSets_nil n w
      · have h0 : st.dfa.getNextStates i c = [] := by
          rcases hst.1.edges i c with h0 | ⟨T, j, h1, _, h3, _, _⟩
          · exact h0
          · have hT : T = S := hst.1.inj T S i h1 hi
            rw [hT] at h3
            exact absurd hne h3
        simp [dfaRun, h0]
    · have hcA : c ∈ fullAlphabet n :=
        (mem_fullAlphabet n c).mpr ⟨stepSet_ne_nil_alphabet n hn S c hne, hc⟩
      have hS : S ∈ st.processedStates := (hst.1.keys S).mpr ⟨i, hi⟩
      have hSq : S ∉ st.unprocessedStates := by
        rw [hq]
        exact List.not_mem_nil S
      obtain ⟨i', hi', hstep⟩ := hst.2 S hS hSq c hcA
      rw [hi] at hi'
      cases hi'
      obtain ⟨j, hj, hnx⟩ := hstep hne
      have e : dfaRun st.dfa i (c :: w) = dfaRun st.dfa j w := by
        simp [dfaRun, hnx]
      rw [e]
      exact ih hw' (stepSet n S c) j hj

theorem containsAccept_iff (n : Graph) (S : List Int) :
    containsAccept n S = true ↔ ∃ q, q ∈ n.acceptStates ∧ q ∈ S := by
  unfold containsAccept
  simp only [List.any_eq_true, decide_eq_true_eq]
  constructor
  · rintro ⟨q, h1, h2⟩; exact ⟨q, h2, h1⟩
  · rintro ⟨q, h1, h2⟩; exact ⟨q, h2, h1⟩

/-- Acceptance by the NFA, through the set reached from the closure of the
initial state. -/
theorem nfaAccepts_iff_runSets (n : Graph) (w : List Char) (hw : EPSILON_CHAR ∉ w) :
    nfaAccepts n w ↔
      ∃ q, q ∈ n.acceptStates ∧ q ∈ runSets n (epsilonClosure n n.initialState) w := by
  have hmem := mem_runSets n w hw _ (epsilonClosure_closed n n.initialState)
  constructor
  · rintro ⟨q, hq, hr⟩
    exact ⟨q, hq, (hmem q).mpr
      ⟨n.initialState, (mem_epsilonClosure n _ _).mpr Relation.ReflTransGen.refl, hr⟩⟩
  · rintro ⟨q, hq, hr⟩
    obtain ⟨s, hs, hreach⟩ := (hmem q).mp hr
    exact ⟨q, hq, reaches_of_epsReach ((mem_epsilonClosure n _ _).mp hs) hreach⟩

/-- The language of `buildDFA n` on words without `$`, for every graph that
satisfies the class invariant. -/
theorem buildDFA_language (n : Graph) (hn : n.Invariant) (w : List Char)
    (hw : EPSILON_CHAR ∉ w) : dfaAccepts (buildDFA n) w = true ↔ nfaAccepts n w := by
  obtain ⟨hq, hinv⟩ := subsetFinal_spec n
  rw [nfaAccepts_iff_runSets n w hw]
  unfold dfaAccepts buildDFA
  rw [hinv.1.init.1]
  rcases dfaRun_subset n hn (subsetFinal n) hinv hq w hw _ 0 hinv.1.init.2 with
    ⟨hr, hd⟩ | ⟨j, hj, hd⟩
  · rw [hd, hr]
    simp
  · rw [hd]
    simp only [decide_eq_true_eq]
    rw [hinv.1.accept _ j hj, containsAccept_iff]

/-! ## Termination and size of `buildDFA` -/

/-- An ascending list whose members are exactly `0, ..., k-1` has `k` elements. -/
theorem length_of_sorted_range (l : List Int) (k : Int) (hk : 0 ≤ k)
    (hs : l.Sorted (· < ·)) (hm : ∀ i, i ∈ l ↔ 0 ≤ i ∧ i < k) : (l.length : Int) = k := by
  have e : l.toFinset = Finset.Ico 0 k := by
    ext i
    rw [List.mem_toFinset, Finset.mem_Ico]
    exact hm i
  have h1 : l.toFinset.card = l.length := List.toFinset_card_of_nodup hs.nodup
  rw [e, Int.card_Ico] at h1
  rw [← h1]
  simp [hk]

/-- More fuel does not change the result of a loop that has ended. -/
theorem subsetLoop_stable (n : Graph) :
    ∀ (fuel : Nat) (st : SubsetState), (subsetLoop n fuel st).unprocessedStates = [] →
      ∀ k, subsetLoop n (fuel + k) st = subsetLoop n fuel st := by
  intro fuel
  induction fuel with
  | zero =>
    intro st h k
    have hq : st.unprocessedStates = [] := h
    cases k with
    | zero => rfl
    | succ k =>
      show subsetLoop n (0 + (k + 1)) st = st
      rw [Nat.zero_add]
      simp only [subsetLoop, hq]
  | succ fuel ih =>
    intro st h k
    rw [Nat.add_right_comm]
    cases hq : st.unprocessedStates with
    | nil => simp only [subsetLoop, hq]
    | cons cur rest =>
      simp only [subsetLoop, hq] at h ⊢
      exact ih _ h k

/-- The sets expanded by the loop are the sets entered in `processedStates`,
in the order in which they were entered. -/
theorem expandedSets_spec (n : Graph) :
    ∀ (fuel : Nat) (st : SubsetState) (D : List (List Int)), SubsetInv n st →
      st.unprocessedStates.length + (subsetFuel n - st.processedStates.length) ≤ fuel →
      st.processedStates.reverse = D ++ st.unprocessedStates →
      (subsetLoop n fuel st).processedStates.reverse = D ++ expandedSets n fuel st := by
  intro fuel
  induction fuel with
  | zero =>
    intro st D h hm hD
    have hq : st.unprocessedStates = [] := List.length_eq_zero.mp (by omega)
    rw [hq] at hD
    simpa [subsetLoop, expandedSets] using hD
  | succ fuel ih =>
    intro st D h hm hD
    cases hq : st.unprocessedStates with
    | nil =>
      rw [hq] at hD
      simp only [subsetLoop, expandedSets, hq]
      exact hD
    | cons cur rest =>
      simp only [subsetLoop, expandedSets, hq]
      obtain ⟨h1, h2⟩ := subsetInv_step n st cur rest h hq
      obtain ⟨news, e1, e2⟩ := h2.added
      have hle := subsetCore_processed_le n _ h1.1
      have hm' : (expandState n cur { st with unprocessedStates := rest }).unprocessedStates.length
          + (subsetFuel n
            - (expandState n cur { st with unprocessedStates := rest }).processedStates.length)
          ≤ fuel := by
        rw [e1, e2] at *
        rw [hq] at hm
        simp only [List.length_append, List.length_reverse, List.length_cons] at hm hle ⊢
        omega
      have hD' : (expandState n cur { st with unprocessedStates := rest }).processedStates.reverse
          = (D ++ [cur]) ++
            (expandState n cur { st with unprocessedStates := rest }).unprocessedStates := by
        rw [e1, e2]
        simp only [List.reverse_append, List.reverse_reverse]
        rw [hD, hq]
        simp
      rw [ih _ (D ++ [cur]) h1 hm' hD']
      simp

theorem stateUniverse_subset_states (n : Graph) (hn : n.Invariant) (hwf : n.WellFormed) :
    ∀ x ∈ stateUniverse n, x ∈ n.states := by
  intro x hx
  rcases List.mem_cons.mp hx with rfl | hx
  · exact hwf.2.1
  · unfold transitionTargets at hx
    simp only [List.mem_flatMap] at hx
    obtain ⟨p, hp, q, hq, ht⟩ := hx
    exact (hwf.1 _ (hn.1 p hp q hq x ht)).2

/-- The number of states of the DFA is the number of sets seen. -/
theorem subsetCore_states_length (n : Graph) (st : SubsetState) (hc : SubsetCore n st) :
    st.dfa.states.length = st.processedStates.length := by
  have h := length_of_sorted_range st.dfa.states st.builder.stateCounter
    (by rw [hc.count]; exact Int.natCast_nonneg _) hc.statesSorted hc.states
  rw [hc.count] at h
  exact_mod_cast h

/-! ## Partition refinement -/

theorem refineGroups_eq (dfa : Graph) (partition : List (List Int)) :
    ∀ (groups : List (List Int)) (acc : List (List Int)) (changed : Bool),
      refineGroups dfa partition groups acc changed =
        (acc ++ groups.flatMap (fun g => (refineGroup dfa partition g).1),
          changed || groups.any (fun g => (refineGroup dfa partition g).2)) := by
  intro groups
  induction groups with
  | nil => intro acc changed; simp [refineGroups]
  | cons g gs ih =>
    intro acc changed
    unfold refineGroups
    by_cases h1 : g.length ≤ 1
    · rw [if_pos h1, ih]
      simp [refineGroup, h1]
    · rw [if_neg h1]
      cases h2 : findSplit dfa g partition with
      | none =>
        simp only [ih]
        simp [refineGroup, h1, h2]
      | some r =>
        obtain ⟨splitter, symbol⟩ := r
        simp only [ih]
        simp [refineGroup, h1, h2]

theorem refinePass_eq (dfa : Graph) (partition : List (List Int)) :
    refinePass dfa partition =
      (partition.flatMap (fun g => (refineGroup dfa partition g).1),
        partition.any (fun g => (refineGroup dfa partition g).2)) := by
  unfold refinePass
  rw [refineGroups_eq]
  simp

theorem setInsert_length_le {α : Type} [LinearOrder α] (x : α) (l : List α) :
    (setInsert x l).length ≤ l.length + 1 := by
  induction l with
  | nil => simp [setInsert]
  | cons y ys ih =>
    unfold setInsert
    split_ifs
    · simp
    · simp
    · simp only [List.length_cons]
      omega

theorem splitGroup_foldl (dfa : Graph) (splitter : List Int) (symbol : Char) :
    ∀ (group : List Int) (acc : List Int × List Int),
      let r := group.foldl
        (fun (acc : List Int × List Int) state =>
          if goesToSplitter dfa splitter symbol state then (setInsert state acc.1, acc.2)
          else (acc.1, setInsert state acc.2)) acc
      (∀ x, x ∈ r.1 ↔ x ∈ acc.1 ∨ (x ∈ group ∧ goesToSplitter dfa splitter symbol x = true)) ∧
      (∀ x, x ∈ r.2 ↔ x ∈ acc.2 ∨ (x ∈ group ∧ goesToSplitter dfa splitter symbol x = false)) ∧
      r.1.length + r.2.length ≤ acc.1.length + acc.2.length + group.length ∧
      (acc.1.Sorted (· < ·) → r.1.Sorted (· < ·)) ∧
      (acc.2.Sorted (· < ·) → r.2.Sorted (· < ·)) := by
  intro group
  induction group with
  | nil => intro acc; simp
  | cons s group ih =>
    intro acc
    simp only [List.foldl_cons]
    by_cases hg : goesToSplitter dfa splitter symbol s = true
    · rw [if_pos hg]
      obtain ⟨h1, h2, h3, h4, h5⟩ := ih (setInsert s acc.1, acc.2)
      refine ⟨?_, ?_, ?_, fun hs => h4 (setInsert_sorted _ _ hs), h5⟩
      · intro x
        rw [h1 x]
        simp only [mem_setInsert, List.mem_cons]
        constructor
        · rintro ((rfl | h) | ⟨h, h'⟩)
          · exact Or.inr ⟨Or.inl rfl, hg⟩
          · exact Or.inl h
          · exact Or.inr ⟨Or.inr h, h'⟩
        · rintro (h | ⟨rfl | h, h'⟩)
          · exact Or.inl (Or.inr h)
          · exact Or.inl (Or.inl rfl)
          · exact Or.inr ⟨h, h'⟩
      · intro x
        rw [h2 x]
        simp only [List.mem_cons]
        constructor
        · rintro (h | ⟨h, h'⟩)
          · exact Or.inl h
          · exact Or.inr ⟨Or.inr h, h'⟩
        · rintro (h | ⟨rfl | h, h'⟩)
          · exact Or.inl h
          · rw [hg] at h'; cases h'
          · exact Or.inr ⟨h, h'⟩
      · have := setInsert_length_le s acc.1
        simp only [List.length_cons] at h3 ⊢
        omega
    · rw [if_neg hg]
      have hg' : goesToSplitter dfa splitter symbol s = false := by
        cases h : goesToSplitter dfa splitter symbol s
        · rfl
        · exact absurd h hg
      obtain ⟨h1, h2, h3, h4, h5⟩ := ih (acc.1, setInsert s acc.2)
      refine ⟨?_, ?_, ?_, h4, fun hs => h5 (setInsert_sorted _ _ hs)⟩
      · intro x
        rw [h1 x]
        simp only [List.mem_cons]
        constructor
        · rintro (h | ⟨h, h'⟩)
          · exact Or.inl h
          · exact Or.inr ⟨Or.inr h, h'⟩
        · rintro (h | ⟨rfl | h, h'⟩)
          · exact Or.inl h
          · rw [hg'] at h'; cases h'
          · exact Or.inr ⟨h, h'⟩
      · intro x
        rw [h2 x]
        simp only [mem_setInsert, List.mem_cons]
        constructor
        · rintro ((rfl | h) | ⟨h, h'⟩)
          · exact Or.inr ⟨Or.inl rfl, hg'⟩
          · exact Or.inl h
          · exact Or.inr ⟨Or.inr h, h'⟩
        · rintro (h | ⟨rfl | h, h'⟩)
          · exact Or.inl (Or.inr h)
          · exact Or.inl (Or.inl rfl)
          · exact Or.inr ⟨h, h'⟩
      · have := setInsert_length_le s acc.2
        simp only [List.length_cons] at h3 ⊢
        omega

theorem mem_splitGroup_fst (dfa : Graph) (group splitter : List Int) (symbol : Char) (x : Int) :
    x ∈ (splitGroup dfa group splitter symbol).1 ↔
      x ∈ group ∧ goesToSplitter dfa splitter symbol x = true := by
  have h := (splitGroup_foldl dfa splitter symbol group ([], [])).1 x
  simpa [splitGroup] using h

theorem mem_splitGroup_snd (dfa : Graph) (group splitter : List Int) (symbol : Char) (x : Int) :
    x ∈ (splitGroup dfa group splitter symbol).2 ↔
      x ∈ group ∧ goesToSplitter dfa splitter symbol x = false := by
  have h := (splitGroup_foldl dfa splitter symbol group ([], [])).2.1 x
  simpa [splitGroup] using h

theorem splitGroup_length (dfa : Graph) (group splitter : List Int) (symbol : Char) :
    (splitGroup dfa group splitter symbol).1.length +
      (splitGroup dfa group splitter symbol).2.length ≤ group.length := by
  have h := (splitGroup_foldl dfa splitter symbol group ([], [])).2.2.1
  simpa [splitGroup] using h

theorem canSplitLoop_true (dfa : Graph) (splitter : List Int) (symbol : Char) :
    ∀ (rest : List Int) (fin fout : Bool),
      canSplitLoop dfa splitter symbol rest fin fout = true →
      (fin = true ∨ ∃ x ∈ rest, goesToSplitter dfa splitter symbol x = true) ∧
        (fout = true ∨ ∃ y ∈ rest, goesToSplitter dfa splitter symbol y = false) := by
  intro rest
  induction rest with
  | nil => intro fin fout h; simp [canSplitLoop] at h
  | cons s rest ih =>
    intro fin fout h
    unfold canSplitLoop at h
    cases hn : dfa.getNextStates s symbol with
    | nil =>
      rw [hn] at h
      obtain ⟨h1, h2⟩ := ih fin fout h
      refine ⟨h1.imp id ?_, h2.imp id ?_⟩
      · rintro ⟨x, hx, hg⟩; exact ⟨x, List.mem_cons_of_mem _ hx, hg⟩
      · rintro ⟨x, hx, hg⟩; exact ⟨x, List.mem_cons_of_mem _ hx, hg⟩
    | cons t ts =>
      rw [hn] at h
      by_cases ht : t ∈ splitter
      · have hgs : goesToSplitter dfa splitter symbol s = true := by
          simp [goesToSplitter, hn, ht]
        simp only [ht, if_true] at h
        refine ⟨Or.inr ⟨s, List.mem_cons_self _ _, hgs⟩, ?_⟩
        cases hfo : fout
        · rw [hfo] at h
          simp only [Bool.and_false, Bool.false_eq_true, if_false] at h
          obtain ⟨_, h2⟩ := ih true false h
          rcases h2 with h2 | ⟨y, hy, hg⟩
          · cases h2
          · exact Or.inr ⟨y, List.mem_cons_of_mem _ hy, hg⟩
        · exact Or.inl rfl
      · have hgs : goesToSplitter dfa splitter symbol s = false := by
          simp [goesToSplitter, hn, ht]
        simp only [ht, if_false] at h
        refine ⟨?_, Or.inr ⟨s, List.mem_cons_self _ _, hgs⟩⟩
        cases hfi : fin
        · rw [hfi] at h
          simp only [Bool.false_and, Bool.false_eq_true, if_false] at h
          obtain ⟨h1, _⟩ := ih false true h
          rcases h1 with h1 | ⟨y, hy, hg⟩
          · cases h1
          · exact Or.inr ⟨y, List.mem_cons_of_mem _ hy, hg⟩
        · exact Or.inl rfl

/-- When `canSplit` holds, some state of the group goes to the splitter and
some state does not. -/
theorem canSplit_true (dfa : Graph) (group splitter : List Int) (symbol : Char)
    (h : canSplit dfa group splitter symbol = true) :
    (∃ x ∈ group, goesToSplitter dfa splitter symbol x = true) ∧
      (∃ y ∈ group, goesToSplitter dfa splitter symbol y = false) := by
  obtain ⟨h1, h2⟩ := canSplitLoop_true dfa splitter symbol group false false h
  refine ⟨?_, ?_⟩
  · rcases h1 with h1 | h1
    · cases h1
    · exact h1
  · rcases h2 with h2 | h2
    · cases h2
    · exact h2

theorem findSymbol_some (dfa : Graph) (group splitter : List Int) :
    ∀ (alphabet : List Char) (symbol : Char),
      findSymbol dfa group splitter alphabet = some symbol →
      symbol ∈ alphabet ∧ canSplit dfa group splitter symbol = true := by
  intro alphabet
  induction alphabet with
  | nil => intro symbol h; simp [findSymbol] at h
  | cons c cs ih =>
    intro symbol h
    unfold findSymbol at h
    split_ifs at h with hc
    · cases h
      exact ⟨List.mem_cons_self _ _, hc⟩
    · obtain ⟨h1, h2⟩ := ih symbol h
      exact ⟨List.mem_cons_of_mem _ h1, h2⟩

theorem findSplit_some (dfa : Graph) (group : List Int) :
    ∀ (splitters : List (List Int)) (splitter : List Int) (symbol : Char),
      findSplit dfa group splitters = some (splitter, symbol) →
      splitter ∈ splitters ∧ symbol ∈ dfa.alphabet ∧
        canSplit dfa group splitter symbol = true := by
  intro splitters
  induction splitters with
  | nil => intro splitter symbol h; simp [findSplit] at h
  | cons sp sps ih =>
    intro splitter symbol h
    unfold findSplit at h
    cases hs : findSymbol dfa group sp dfa.alphabet with
    | none =>
      rw [hs] at h
      obtain ⟨h1, h2⟩ := ih splitter symbol h
      exact ⟨List.mem_cons_of_mem _ h1, h2⟩
    | some c =>
      rw [hs] at h
      cases h
      obtain ⟨h1, h2⟩ := findSymbol_some _ _ _ _ _ hs
      exact ⟨List.mem_cons_self _ _, h1, h2⟩

/-- What replaces a group in a pass: non-empty disjoint parts of the group. -/
theorem refineGroup_local (dfa : Graph) (partition : List (List Int)) (G : List Int)
    (hG : G ≠ []) :
    (∀ H ∈ (refineGroup dfa partition G).1, H ≠ [] ∧ ∀ x ∈ H, x ∈ G) ∧
      (refineGroup dfa partition G).1.Pairwise (fun A B => ∀ x ∈ A, x ∉ B) := by
  unfold refineGroup
  by_cases h1 : G.length ≤ 1
  · rw [if_pos h1]
    simp [hG]
  · rw [if_neg h1]
    cases h2 : findSplit dfa G partition with
    | none => simp [hG]
    | some r =>
      obtain ⟨splitter, symbol⟩ := r
      obtain ⟨_, _, hcs⟩ := findSplit_some dfa G partition splitter symbol h2
      obtain ⟨⟨x, hx, hgx⟩, ⟨y, hy, hgy⟩⟩ := canSplit_true dfa G splitter symbol hcs
      have hx1 : x ∈ (splitGroup dfa G splitter symbol).1 :=
        (mem_splitGroup_fst _ _ _ _ _).mpr ⟨hx, hgx⟩
      have hy2 : y ∈ (splitGroup dfa G splitter symbol).2 :=
        (mem_splitGroup_snd _ _ _ _ _).mpr ⟨hy, hgy⟩
      refine ⟨?_, ?_⟩
      · intro H hH
        simp only [List.mem_cons, List.mem_singleton, List.not_mem_nil, or_false] at hH
        rcases hH with rfl | rfl
        · exact ⟨List.ne_nil_of_mem hx1, fun z hz => ((mem_splitGroup_fst _ _ _ _ _).mp hz).1⟩
        · exact ⟨List.ne_nil_of_mem hy2, fun z hz => ((mem_splitGroup_snd _ _ _ _ _).mp hz).1⟩
      · simp only [List.pairwise_cons, List.mem_singleton, forall_eq, List.not_mem_nil,
          false_imp_iff, implies_true, List.Pairwise.nil, and_true]
        intro z hz hz'
        have a := ((mem_splitGroup_fst _ _ _ _ _).mp hz).2
        have b := ((mem_splitGroup_snd _ _ _ _ _).mp hz').2
        rw [a] at b
        cases b

/-- A pass of `refinePartition` keeps the groups non-empty and disjoint. -/
theorem partInv_refinePass (dfa : Graph) (U : List Int) (P : List (List Int))
    (h : PartInv U P) : PartInv U (refinePass dfa P).1 := by
  rw [refinePass_eq]
  refine ⟨?_, ?_⟩
  · intro H hH
    simp only [List.mem_flatMap] at hH
    obtain ⟨G, hG, hHG⟩ := hH
    obtain ⟨h1, h2⟩ := (refineGroup_local dfa P G (h.1 G hG).1).1 H hHG
    exact ⟨h1, fun x hx => (h.1 G hG).2 x (h2 x hx)⟩
  · rw [List.pairwise_flatMap]
    refine ⟨fun G hG => (refineGroup_local dfa P G (h.1 G hG).1).2, ?_⟩
    refine List.Pairwise.imp_of_mem ?_ h.2
    intro G1 G2 hG1 hG2 hdis A hA B hB x hxA hxB
    exact hdis x (((refineGroup_local dfa P G1 (h.1 G1 hG1).1).1 A hA).2 x hxA)
      (((refineGroup_local dfa P G2 (h.1 G2 hG2).1).1 B hB).2 x hxB)

theorem splitPotential_append (P Q : List (List Int)) :
    splitPotential (P ++ Q) = splitPotential P + splitPotential Q := by
  simp [splitPotential]

theorem refineGroup_potential (dfa : Graph) (partition : List (List Int)) (G : List Int) :
    splitPotential (refineGroup dfa partition G).1 ≤ G.length - 1 ∧
      ((refineGroup dfa partition G).2 = true →
        splitPotential (refineGroup dfa partition G).1 + 1 ≤ G.length - 1) ∧
      ((refineGroup dfa partition G).2 = false → (refineGroup dfa partition G).1 = [G]) := by
  unfold refineGroup
  by_cases h1 : G.length ≤ 1
  · rw [if_pos h1]
    simp [splitPotential]
  · rw [if_neg h1]
    cases h2 : findSplit dfa G partition with
    | none => simp [splitPotential]
    | some r =>
      obtain ⟨splitter, symbol⟩ := r
      obtain ⟨_, _, hcs⟩ := findSplit_some dfa G partition splitter symbol h2
      obtain ⟨⟨x, hx, hgx⟩, ⟨y, hy, hgy⟩⟩ := canSplit_true dfa G splitter symbol hcs
      have hx1 : x ∈ (splitGroup dfa G splitter symbol).1 :=
        (mem_splitGroup_fst _ _ _ _ _).mpr ⟨hx, hgx⟩
      have hy2 : y ∈ (splitGroup dfa G splitter symbol).2 :=
        (mem_splitGroup_snd _ _ _ _ _).mpr ⟨hy, hgy⟩
      have l1 : 0 < (splitGroup dfa G splitter symbol).1.length := List.length_pos_of_mem hx1
      have l2 : 0 < (splitGroup dfa G splitter symbol).2.length := List.length_pos_of_mem hy2
      have l3 := splitGroup_length dfa G splitter symbol
      simp only [splitPotential, List.map_cons, List.map_nil, List.sum_cons, List.sum_nil]
      refine ⟨by omega, fun _ => by omega, fun h => by cases h⟩

theorem refinePass_potential (dfa : Graph) (partition : List (List Int)) :
    ∀ (P : List (List Int)),
      splitPotential (P.flatMap (fun g => (refineGroup dfa partition g).1)) ≤ splitPotential P ∧
      (P.any (fun g => (refineGroup dfa partition g).2) = true →
        splitPotential (P.flatMap (fun g => (refineGroup dfa partition g).1)) + 1
          ≤ splitPotential P) ∧
      (P.any (fun g => (refineGroup dfa partition g).2) = false →
        P.flatMap (fun g => (refineGroup dfa partition g).1) = P) := by
  intro P
  induction P with
  | nil => simp [splitPotential]
  | cons G P ih =>
    obtain ⟨a1, a2, a3⟩ := refineGroup_potential dfa partition G
    obtain ⟨b1, b2, b3⟩ := ih
    have e : splitPotential (G :: P) = (G.length - 1) + splitPotential P := by
      simp [splitPotential]
    simp only [List.flatMap_cons, splitPotential_append, List.any_cons, Bool.or_eq_true,
      Bool.or_eq_false_iff, e]
    refine ⟨by omega, ?_, ?_⟩
    · rintro (h | h)
      · have := a2 h
        omega
      · have := b2 h
        omega
    · rintro ⟨h, h'⟩
      rw [a3 h, b3 h']
      rfl

/-- A pass that does not set `changed` returns the partition it was given. -/
theorem refinePass_unchanged (dfa : Graph) (P : List (List Int))
    (h : (refinePass dfa P).2 = false) : (refinePass dfa P).1 = P := by
  rw [refinePass_eq] at h ⊢
  exact (refinePass_potential dfa P P).2.2 h

/-- A pass that sets `changed` lowers the potential. -/
theorem refinePass_changed (dfa : Graph) (P : List (List Int))
    (h : (refinePass dfa P).2 = true) :
    splitPotential (refinePass dfa P).1 + 1 ≤ splitPotential P := by
  rw [refinePass_eq] at h ⊢
  exact (refinePass_potential dfa P P).2.1 h

theorem refineLoop_succ (dfa : Graph) (fuel : Nat) (P : List (List Int)) :
    refineLoop dfa (fuel + 1) P =
      if (refinePass dfa P).2 = true then refineLoop dfa fuel (refinePass dfa P).1
      else (refinePass dfa P).1 := rfl

/-- With enough fuel the loop of `refinePartition` ends with a pass that does
not set `changed`: its result is a fixed point of the pass. -/
theorem refineLoop_fixed (dfa : Graph) :
    ∀ (fuel : Nat) (P : List (List Int)), splitPotential P < fuel →
      refinePass dfa (refineLoop dfa fuel P) = (refineLoop dfa fuel P, false) := by
  intro fuel
  induction fuel with
  | zero => intro P h; omega
  | succ fuel ih =>
    intro P h
    rw [refineLoop_succ]
    by_cases hch : (refinePass dfa P).2 = true
    · rw [if_pos hch]
      have := refinePass_changed dfa P hch
      exact ih _ (by omega)
    · rw [if_neg hch]
      have hch' : (refinePass dfa P).2 = false := by
        cases h' : (refinePass dfa P).2
        · rfl
        · exact absurd h' hch
      have e := refinePass_unchanged dfa P hch'
      rw [e]
      exact Prod.ext e hch'

/-- Whatever every pass keeps, the loop keeps. -/
theorem refineLoop_induction (dfa : Graph) (I : List (List Int) → Prop)
    (hstep : ∀ P, I P → I (refinePass dfa P).1) :
    ∀ (fuel : Nat) (P : List (List Int)), I P → I (refineLoop dfa fuel P) := by
  intro fuel
  induction fuel with
  | zero => intro P h; exact h
  | succ fuel ih =>
    intro P h
    rw [refineLoop_succ]
    by_cases hch : (refinePass dfa P).2 = true
    · rw [if_pos hch]
      exact ih _ (hstep P h)
    · rw [if_neg hch]
      exact hstep P h

theorem splitPotential_le (P : List (List Int)) :
    splitPotential P ≤ (P.map List.length).sum := by
  induction P with
  | nil => simp [splitPotential]
  | cons G P ih =>
    simp only [splitPotential, List.map_cons, List.sum_cons] at ih ⊢
    omega

/-- The partition left by `refinePartition` is a fixed point of the pass. -/
theorem refinePartition_fixed (dfa : Graph) (P : List (List Int)) :
    refinePass dfa (refinePartition dfa P) = (refinePartition dfa P, false) := by
  unfold refinePartition
  apply refineLoop_fixed
  have := splitPotential_le P
  omega

theorem partInv_refinePartition (dfa : Graph) (U : List Int) (P : List (List Int))
    (h : PartInv U P) : PartInv U (refinePartition dfa P) :=
  refineLoop_induction dfa (PartInv U) (fun Q hQ => partInv_refinePass dfa U Q hQ) _ P h

theorem mem_nonAccept (acc : List Int) :
    ∀ (states init : List Int) (x : Int),
      x ∈ states.foldl (fun a state => if state ∈ acc then a else setInsert state a) init ↔
        x ∈ init ∨ (x ∈ states ∧ x ∉ acc) := by
  intro states
  induction states with
  | nil => intro init x; simp
  | cons s states ih =>
    intro init x
    simp only [List.foldl_cons]
    rw [ih]
    by_cases hs : s ∈ acc
    · rw [if_pos hs]
      simp only [List.mem_cons]
      constructor
      · rintro (h | ⟨h, h'⟩)
        · exact Or.inl h
        · exact Or.inr ⟨Or.inr h, h'⟩
      · rintro (h | ⟨rfl | h, h'⟩)
        · exact Or.inl h
        · exact absurd hs h'
        · exact Or.inr ⟨h, h'⟩
    · rw [if_neg hs]
      simp only [List.mem_cons, mem_setInsert]
      constructor
      · rintro ((rfl | h) | ⟨h, h'⟩)
        · exact Or.inr ⟨Or.inl rfl, hs⟩
        · exact Or.inl h
        · exact Or.inr ⟨Or.inr h, h'⟩
      · rintro (h | ⟨rfl | h, h'⟩)
        · exact Or.inl (Or.inr h)
        · exact Or.inl (Or.inl rfl)
        · exact Or.inr ⟨h, h'⟩

theorem partInv_two (U A N : List Int) (hA : ∀ x ∈ A, x ∈ U) (hN : ∀ x ∈ N, x ∈ U)
    (hd : ∀ x ∈ A, x ∉ N) :
    PartInv U (if N ≠ [] then (if A ≠ [] then [] ++ [A] else []) ++ [N]
      else (if A ≠ [] then [] ++ [A] else [])) := by
  by_cases h1 : A = [] <;> by_cases h2 : N = []
  · simp [h1, h2, PartInv]
  · subst h1
    simp [h2, PartInv]
    exact hN
  · subst h2
    simp [h1, PartInv]
    exact hA
  · have e : (if N ≠ [] then (if A ≠ [] then [] ++ [A] else []) ++ [N]
        else (if A ≠ [] then [] ++ [A] else [])) = [A, N] := by
      simp [h1, h2]
    rw [e]
    refine ⟨?_, ?_⟩
    · intro G hG
      simp only [List.mem_cons, List.mem_singleton, List.not_mem_nil, or_false] at hG
      rcases hG with rfl | rfl
      · exact ⟨h1, hA⟩
      · exact ⟨h2, hN⟩
    · refine List.pairwise_cons.mpr ⟨?_, List.pairwise_singleton _ _⟩
      intro H hH
      rw [List.mem_singleton.mp hH]
      exact hd

/-- The initial partition has non-empty disjoint groups made of accepting
states and of states. -/
theorem partInv_initial (dfa : Graph) (U : List Int) (hacc : ∀ a ∈ dfa.acceptStates, a ∈ U)
    (hst : ∀ a ∈ dfa.states, a ∈ U) : PartInv U (computeInitialPartition dfa) := by
  have hmem := fun x => mem_nonAccept dfa.acceptStates dfa.states [] x
  exact partInv_two U dfa.acceptStates _ hacc
    (fun x hx => hst x (((hmem x).mp hx).resolve_left (List.not_mem_nil x)).1)
    (fun x hx hx' => (((hmem x).mp hx').resolve_left (List.not_mem_nil x)).2 hx)

/-- Non-empty pairwise disjoint groups over `U` are at most `|U|` many. -/
theorem partInv_length_le (U : List Int) (P : List (List Int)) (h : PartInv U P) :
    P.length ≤ U.length := by
  have hnd : (P.map (fun G => G.headD 0)).Nodup := by
    show List.Pairwise (fun a b => a ≠ b) (P.map (fun G => G.headD 0))
    rw [List.pairwise_map]
    refine List.Pairwise.imp_of_mem ?_ h.2
    intro G H hG hH hdis e
    have hGh : G.headD 0 ∈ G := by
      cases G with
      | nil => exact absurd rfl (h.1 _ hG).1
      | cons a as => simp
    have hHh : H.headD 0 ∈ H := by
      cases H with
      | nil => exact absurd rfl (h.1 _ hH).1
      | cons a as => simp
    rw [e] at hGh
    exact hdis _ hGh hHh
  have hsub : (P.map (fun G => G.headD 0)) ⊆ U := by
    intro x hx
    rw [List.mem_map] at hx
    obtain ⟨G, hG, rfl⟩ := hx
    cases G with
    | nil => exact absurd rfl (h.1 _ hG).1
    | cons a as => exact (h.1 _ hG).2 a (by simp)
  have := (hnd.subperm hsub).length_le
  simpa using this

/-! ## The graph built by `minimizeDFA` -/

theorem mapFind_foldl_mapSet (k : Int) :
    ∀ (group : List Int) (m : List (Int × Int)) (x : Int),
      mapFind x (group.foldl (fun m state => mapSet state k m) m) =
        if x ∈ group then some k else mapFind x m := by
  intro group
  induction group with
  | nil => intro m x; simp
  | cons s group ih =>
    intro m x
    simp only [List.foldl_cons]
    rw [ih, mapFind_mapSet]
    by_cases h1 : x ∈ group
    · simp [h1]
    · by_cases h2 : x = s
      · simp [h2]
      · simp [h1, h2]

theorem withGroupState_states (g : Graph) (k : Int) (acc ini : Bool) (i : Int) :
    i ∈ (withGroupState g k acc ini).states ↔ i = k ∨ i ∈ g.states := by
  cases acc <;> cases ini <;>
    simp [withGroupState, Graph.addState, Graph.addAcceptState, Graph.setInitialState,
      mem_setInsert]

theorem withGroupState_sorted (g : Graph) (k : Int) (acc ini : Bool)
    (h : g.states.Sorted (· < ·)) : (withGroupState g k acc ini).states.Sorted (· < ·) := by
  cases acc <;> cases ini
  · exact setInsert_sorted _ _ h
  · exact setInsert_sorted _ _ (setInsert_sorted _ _ h)
  · exact setInsert_sorted _ _ (setInsert_sorted _ _ h)
  · exact setInsert_sorted _ _ (setInsert_sorted _ _ (setInsert_sorted _ _ h))

theorem withGroupState_transitions (g : Graph) (k : Int) (acc ini : Bool) :
    (withGroupState g k acc ini).transitions = g.transitions := by
  cases acc <;> cases ini <;> rfl

theorem assignGroups_cons (dfa : Graph) (group : List Int) (rest : List (List Int))
    (g : Graph) (m : List (Int × Int)) (k : Int) :
    assignGroups dfa (group :: rest) (g, m, k) =
      assignGroups dfa rest
        (withGroupState g k (group.any (fun state => decide (state ∈ dfa.acceptStates)))
            (group.any (fun state => decide (state = dfa.initialState))),
          group.foldl (fun m state => mapSet state k m) m, k + 1) := rfl

/-- The first loop of `minimizeDFA`: one new state per group, numbered from
`k`, no transition, and every member of the `j`-th group mapped to `k + j`. -/
theorem assignGroups_spec (dfa : Graph) :
    ∀ (groups : List (List Int)) (g : Graph) (m : List (Int × Int)) (k : Int),
      (assignGroups dfa groups (g, m, k)).2.2 = k + groups.length ∧
      (∀ i, i ∈ (assignGroups dfa groups (g, m, k)).1.states ↔
        i ∈ g.states ∨ (k ≤ i ∧ i < k + groups.length)) ∧
      (g.states.Sorted (· < ·) → (assignGroups dfa groups (g, m, k)).1.states.Sorted (· < ·)) ∧
      (assignGroups dfa groups (g, m, k)).1.transitions = g.transitions ∧
      (∀ x, (∀ G ∈ groups, x ∉ G) →
        mapFind x (assignGroups dfa groups (g, m, k)).2.1 = mapFind x m) ∧
      (groups.Pairwise (fun G H => ∀ x ∈ G, x ∉ H) →
        ∀ (j : Nat) (hj : j < groups.length), ∀ x ∈ groups[j],
          mapFind x (assignGroups dfa groups (g, m, k)).2.1 = some (k + j)) := by
  intro groups
  induction groups with
  | nil =>
    intro g m k
    refine ⟨by simp [assignGroups], ?_, fun h => h, rfl, fun _ _ => rfl, ?_⟩
    · intro i
      simp only [assignGroups, List.length_nil, Nat.cast_zero, add_zero]
      constructor
      · exact Or.inl
      · rintro (h | ⟨h1, h2⟩)
        · exact h
        · omega
    · intro _ j hj
      simp at hj
  | cons G rest ih =>
    intro g m k
    rw [assignGroups_cons]
    obtain ⟨h1, h2, h3, h4, h5, h6⟩ := ih
      (withGroupState g k (G.any (fun state => decide (state ∈ dfa.acceptStates)))
        (G.any (fun state => decide (state = dfa.initialState))))
      (G.foldl (fun m state => mapSet state k m) m) (k + 1)
    refine ⟨?_, ?_, ?_, ?_, ?_, ?_⟩
    · rw [h1]
      simp only [List.length_cons, Nat.cast_add, Nat.cast_one]
      omega
    · intro i
      rw [h2 i, withGroupState_states]
      simp only [List.length_cons, Nat.cast_add, Nat.cast_one]
      have e : (k ≤ i ∧ i < k + ((rest.length : Int) + 1)) ↔
          i = k ∨ (k + 1 ≤ i ∧ i < k + 1 + (rest.length : Int)) := by omega
      rw [e]
      tauto
    · intro hs
      exact h3 (withGroupState_sorted _ _ _ _ hs)
    · rw [h4, withGroupState_transitions]
    · intro x hx
      rw [h5 x (fun H hH => hx H (List.mem_cons_of_mem _ hH)), mapFind_foldl_mapSet,
        if_neg (hx G (List.mem_cons_self _ _))]
    · intro hp j hj x hxj
      have hp' := List.pairwise_cons.mp hp
      cases j with
      | zero =>
        simp only [List.getElem_cons_zero] at hxj
        rw [h5 x (fun H hH hxH => hp'.1 H hH x hxj hxH), mapFind_foldl_mapSet, if_pos hxj]
        simp
      | succ j =>
        simp only [List.getElem_cons_succ] at hxj
        simp only [List.length_cons, Nat.add_lt_add_iff_right] at hj
        rw [h6 hp'.2 j hj x hxj]
        simp only [Nat.cast_add, Nat.cast_one]
        congr 1
        omega

theorem addGroupEdges_states (dfa : Graph) (m : List (Int × Int)) (rep from_ : Int) :
    ∀ (symbols : List Char) (g : Graph),
      (addGroupEdges dfa m rep from_ symbols g).states = g.states := by
  intro symbols
  induction symbols with
  | nil => intro g; rfl
  | cons c cs ih =>
    intro g
    unfold addGroupEdges
    cases dfa.getNextStates rep c with
    | nil => exact ih g
    | cons t ts => exact (ih _).trans rfl

theorem addEdges_states (dfa : Graph) (m : List (Int × Int)) :
    ∀ (groups : List (List Int)) (g : Graph), (addEdges dfa m groups g).states = g.states := by
  intro groups
  induction groups with
  | nil => intro g; rfl
  | cons G rest ih =>
    intro g
    unfold addEdges
    exact (ih _).trans (addGroupEdges_states dfa m _ _ _ g)

/-- The states of the minimised graph are `0, ..., k-1` for the `k` groups of
the final partition. -/
theorem minimizeDFA_states_length (dfa : Graph) :
    (minimizeDFA dfa).states.length =
      (refinePartition dfa (computeInitialPartition dfa)).length := by
  unfold minimizeDFA
  simp only
  rw [addEdges_states]
  obtain ⟨_, h2, h3, _⟩ := assignGroups_spec dfa
    (refinePartition dfa (computeInitialPartition dfa)) Graph.empty [] 0
  have h := length_of_sorted_range _
    ((refinePartition dfa (computeInitialPartition dfa)).length : Int)
    (Int.natCast_nonneg _) (h3 List.sorted_nil) (by
      intro i
      rw [h2 i]
      simp [Graph.empty])
  exact_mod_cast h

theorem addGroupEdges_inv (dfa : Graph) (m : List (Int × Int)) (P : List (List Int))
    (hinj : ∀ G ∈ P, ∀ H ∈ P, mapGet m (G.headD 0) = mapGet m (H.headD 0) → G = H)
    (G : List Int) (hG : G ∈ P) :
    ∀ (symbols : List Char) (g : Graph), MinEdgeInv dfa m P g →
      MinEdgeInv dfa m P
        (addGroupEdges dfa m (G.headD 0) (mapGet m (G.headD 0)) symbols g) := by
  intro symbols
  induction symbols with
  | nil => intro g h; exact h
  | cons c cs ih =>
    intro g h
    unfold addGroupEdges
    cases hn : dfa.getNextStates (G.headD 0) c with
    | nil => exact ih g h
    | cons t ts =>
      apply ih
      intro s c'
      rw [Graph.getNextStates_addEdge]
      by_cases hsc : s = mapGet m (G.headD 0) ∧ c' = c
      · rw [if_pos hsc]
        obtain ⟨rfl, rfl⟩ := hsc
        right
        refine ⟨G, hG, rfl, t, ts, hn, ?_⟩
        rcases h (mapGet m (G.headD 0)) c' with h0 | ⟨H, hH, hs, t0, ts0, hn0, hg0⟩
        · rw [h0]; rfl
        · have e : G = H := hinj G hG H hH hs
          subst e
          rw [hn] at hn0
          cases hn0
          rw [hg0]
          exact setInsert_self_singleton _
      · rw [if_neg hsc]
        exact h s c'

theorem addEdges_inv (dfa : Graph) (m : List (Int × Int)) (P : List (List Int))
    (hinj : ∀ G ∈ P, ∀ H ∈ P, mapGet m (G.headD 0) = mapGet m (H.headD 0) → G = H) :
    ∀ (groups : List (List Int)) (g : Graph), (∀ G ∈ groups, G ∈ P) →
      MinEdgeInv dfa m P g → MinEdgeInv dfa m P (addEdges dfa m groups g) := by
  intro groups
  induction groups with
  | nil => intro g _ h; exact h
  | cons G rest ih =>
    intro g hsub h
    unfold addEdges
    exact ih _ (fun H hH => hsub H (List.mem_cons_of_mem _ hH))
      (addGroupEdges_inv dfa m P hinj G (hsub G (List.mem_cons_self _ _)) dfa.alphabet g h)

theorem getNextStates_of_transitions_nil (g : Graph) (h : g.transitions = []) (s : Int)
    (c : Char) : g.getNextStates s c = [] := by
  unfold Graph.getNextStates
  rw [h]
  rfl

/-- The final partition of `minimizeDFA`, for any graph: non-empty disjoint groups. -/
theorem partInv_final (dfa : Graph) :
    PartInv (dfa.states ++ dfa.acceptStates)
      (refinePartition dfa (computeInitialPartition dfa)) :=
  partInv_refinePartition dfa _ _
    (partInv_initial dfa _ (fun _ ha => List.mem_append_right _ ha)
      (fun _ ha => List.mem_append_left _ ha))

/-- The members of the `j`-th group of a partition are mapped to `j` by
`oldToNewState`, so distinct groups have distinct source states. -/
theorem fromState_injective (dfa : Graph) (U : List Int) (P : List (List Int))
    (hP : PartInv U P) :
    ∀ G ∈ P, ∀ H ∈ P,
      mapGet (assignGroups dfa P (Graph.empty, [], 0)).2.1 (G.headD 0) =
        mapGet (assignGroups dfa P (Graph.empty, [], 0)).2.1 (H.headD 0) → G = H := by
  obtain ⟨_, _, _, _, _, h6⟩ := assignGroups_spec dfa P Graph.empty [] 0
  have hhead : ∀ G ∈ P, G.headD 0 ∈ G := by
    intro G hG
    cases G with
    | nil => exact absurd rfl (hP.1 _ hG).1
    | cons a as => simp
  intro G hG H hH e
  obtain ⟨j, hj, rfl⟩ := List.mem_iff_getElem.mp hG
  obtain ⟨j', hj', rfl⟩ := List.mem_iff_getElem.mp hH
  have e1 := h6 hP.2 j hj _ (hhead _ hG)
  have e2 := h6 hP.2 j' hj' _ (hhead _ hH)
  unfold mapGet at e
  rw [e1, e2] at e
  simp only [Option.getD_some, zero_add, Nat.cast_inj] at e
  subst e
  rfl

/-- In the graph returned by `minimizeDFA` every target set has at most one element. -/
theorem minimizeDFA_next_length (dfa : Graph) (s : Int) (c : Char) :
    ((minimizeDFA dfa).getNextStates s c).length ≤ 1 := by
  have hP := partInv_final dfa
  have hinj := fromState_injective dfa _ _ hP
  obtain ⟨_, _, _, h4, _, _⟩ := assignGroups_spec dfa
    (refinePartition dfa (computeInitialPartition dfa)) Graph.empty [] 0
  have h0 : MinEdgeInv dfa
      (assignGroups dfa (refinePartition dfa (computeInitialPartition dfa))
        (Graph.empty, [], 0)).2.1
      (refinePartition dfa (computeInitialPartition dfa))
      (assignGroups dfa (refinePartition dfa (computeInitialPartition dfa))
        (Graph.empty, [], 0)).1 :=
    fun s c => Or.inl (getNextStates_of_transitions_nil _ (by rw [h4]; rfl) s c)
  have h := addEdges_inv dfa _ _ hinj _ _ (fun G hG => hG) h0
  have e : minimizeDFA dfa = addEdges dfa
      (assignGroups dfa (refinePartition dfa (computeInitialPartition dfa))
        (Graph.empty, [], 0)).2.1
      (refinePartition dfa (computeInitialPartition dfa))
      (assignGroups dfa (refinePartition dfa (computeInitialPartition dfa))
        (Graph.empty, [], 0)).1 := rfl
  rw [e]
  rcases h s c with h1 | ⟨_, _, _, _, _, _, h1⟩
  · rw [h1]; simp
  · rw [h1]; simp

/-- In the graph returned by `buildDFA` every target set has at most one element. -/
theorem buildDFA_next_length (n : Graph) (s : Int) (c : Char) :
    ((buildDFA n).getNextStates s c).length ≤ 1 := by
  obtain ⟨_, hinv⟩ := subsetFinal_spec n
  unfold buildDFA
  rcases hinv.1.edges s c with h1 | ⟨_, _, _, _, _, _, h1⟩
  · rw [h1]; simp
  · rw [h1]; simp

/-! ## The token loop of `buildNFA` -/

theorem infixToPostfix_escape (c : Char) : infixToPostfix ['\\', c] = [c] := by
  simp [infixToPostfix, scanLoop]

/-- An escaped character that is not an operator character gives the basic
fragment for that character. -/
theorem buildNFA_escape (c : Char) (h : isOperator c = false) :
    buildNFA ['\\', c] =
      .returned { states := [0, 1], edges := [⟨0, 1, c⟩], alphabet := [c], initialState := 0,
                  acceptStates := [1], transitions := [(0, [(c, [1])])] } := by
  unfold buildNFA
  rw [infixToPostfix_escape]
  simp [buildFromPostfix, tokenLoop, applyToken, h]
  rfl

theorem applyToken_not_raised (c : Char) (st : List Graph) (k : Int) (what : String) :
    applyToken c st k ≠ .raised what := by
  unfold applyToken
  split_ifs <;> first | (intro h; cases h) | (split <;> intro h <;> cases h)

theorem tokenLoop_not_raised : ∀ (ts : List Char) (st : List Graph) (k : Int) (what : String),
    tokenLoop ts st k ≠ .raised what := by
  intro ts
  induction ts with
  | nil => intro st k what h; cases h
  | cons c ts ih =>
    intro st k what
    unfold tokenLoop
    cases h : applyToken c st k with
    | returned r => exact ih _ _ _
    | raised w => exact absurd h (applyToken_not_raised _ _ _ _)
    | undefinedBehaviour => intro h'; cases h'

/-- No path through `buildNFA` raises an error. -/
theorem buildNFA_not_raised (p : List Char) (what : String) : buildNFA p ≠ .raised what := by
  unfold buildNFA buildFromPostfix
  cases h : tokenLoop (infixToPostfix p) [] 0 with
  | returned r =>
    obtain ⟨stack, k⟩ := r
    cases stack with
    | nil => dsimp only; intro h'; cases h'
    | cons g gs => dsimp only; intro h'; cases h'
  | raised w => exact absurd h (tokenLoop_not_raised _ _ _ _)
  | undefinedBehaviour => intro h'; cases h'

/-! ## Accepting states through `mergeNFA` and `createConcatNFA` -/

theorem acceptStates_foldl_addAcceptState {β : Type} (f : β → Int) (x : Int) :
    ∀ (l : List β) (g : Graph),
      x ∈ (l.foldl (fun t a => t.addAcceptState (f a)) g).acceptStates ↔
        x ∈ g.acceptStates ∨ ∃ a ∈ l, f a = x := by
  intro l
  induction l with
  | nil => intro g; simp
  | cons b l ih =>
    intro g
    simp only [List.foldl_cons]
    rw [ih]
    simp only [Graph.addAcceptState, mem_setInsert, List.mem_cons]
    constructor
    · rintro ((h | h) | ⟨a, ha, h⟩)
      · exact Or.inr ⟨b, Or.inl rfl, h.symm⟩
      · exact Or.inl h
      · exact Or.inr ⟨a, Or.inr ha, h⟩
    · rintro (h | ⟨a, rfl | ha, h⟩)
      · exact Or.inl (Or.inr h)
      · exact Or.inl (Or.inl h.symm)
      · exact Or.inr ⟨a, ha, h⟩

theorem acceptStates_foldl_addEdge {β : Type} (fu fv : β → Int) (fw : β → Char) :
    ∀ (l : List β) (g : Graph),
      (l.foldl (fun t e => t.addEdge (fu e) (fv e) (fw e)) g).acceptStates = g.acceptStates := by
  intro l
  induction l with
  | nil => intro g; rfl
  | cons b l ih =>
    intro g
    simp only [List.foldl_cons]
    rw [ih]
    rfl

theorem acceptStates_mergeStates :
    ∀ (l : List Int) (acc : Graph × List (Int × Int) × Int),
      (l.foldl
        (fun (acc : Graph × List (Int × Int) × Int) oldState =>
          (acc.1.addState acc.2.2, mapSet oldState acc.2.2 acc.2.1, acc.2.2 + 1)) acc).1.acceptStates
        = acc.1.acceptStates := by
  intro l
  induction l with
  | nil => intro acc; rfl
  | cons b l ih =>
    intro acc
    simp only [List.foldl_cons]
    rw [ih]
    rfl

/-- After `mergeNFA` the accepting states of the target are the ones it had
and the renumbered accepting states of the source. -/
theorem mergeNFA_acceptStates (target source : Graph) (k : Int) (x : Int) :
    x ∈ (mergeNFA target source k).1.acceptStates ↔
      x ∈ target.acceptStates ∨
        ∃ a ∈ source.acceptStates, mapGet (mergeNFA target source k).2.1 a = x := by
  unfold mergeNFA
  simp only
  rw [acceptStates_foldl_addAcceptState, acceptStates_foldl_addEdge, acceptStates_mergeStates]

/-- The accepting states of `createConcatNFA`: the renumbered accepting states
of both operands. -/
theorem createConcatNFA_acceptStates (nfa1 nfa2 : Graph) (k : Int) (x : Int) :
    x ∈ (createConcatNFA nfa1 nfa2 k).1.acceptStates ↔
      (∃ a ∈ nfa1.acceptStates, mapGet (mergeNFA Graph.empty nfa1 k).2.1 a = x) ∨
        ∃ a ∈ nfa2.acceptStates,
          mapGet (mergeNFA (mergeNFA Graph.empty nfa1 k).1 nfa2
            (mergeNFA Graph.empty nfa1 k).2.2).2.1 a = x := by
  unfold createConcatNFA
  simp only
  rw [acceptStates_foldl_addAcceptState, acceptStates_foldl_addEdge]
  show (x ∈ (mergeNFA (mergeNFA Graph.empty nfa1 k).1 nfa2
      (mergeNFA Graph.empty nfa1 k).2.2).1.acceptStates ∨ _) ↔ _
  rw [mergeNFA_acceptStates, mergeNFA_acceptStates]
  constructor
  · rintro (((h | h) | h) | h)
    · exact absurd h (List.not_mem_nil x)
    · exact Or.inl h
    · exact Or.inr h
    · exact Or.inr h
  · rintro (h | h)
    · exact Or.inl (Or.inl (Or.inr h))
    · exact Or.inr h

/-! ## The scan of `infixToPostfix` without escapes -/

theorem scanLoop_cons (c : Char) (hc : c ≠ '\\') (rest out ops : List Char) (last : Bool) :
    scanLoop (c :: rest) out ops last =
      scanLoop rest (scanChar c out ops last).1 (scanChar c out ops last).2.1
        (scanChar c out ops last).2.2 := by
  conv_lhs => unfold scanLoop
  rw [if_neg hc]

theorem scanLoop_append (q : List Char) :
    ∀ (p : List Char), '\\' ∉ p → ∀ (st : List Char × List Char × Bool),
      scanLoop (p ++ q) st.1 st.2.1 st.2.2 =
        scanLoop q (scanFold p st).1 (scanFold p st).2.1 (scanFold p st).2.2 := by
  intro p
  induction p with
  | nil => intro _ st; rfl
  | cons c p ih =>
    intro hp st
    have hc : c ≠ '\\' := fun e => hp (by rw [e]; exact List.mem_cons_self _ _)
    have hp' : '\\' ∉ p := fun e => hp (List.mem_cons_of_mem _ e)
    show scanLoop (c :: (p ++ q)) st.1 st.2.1 st.2.2 = _
    rw [scanLoop_cons c hc]
    exact ih hp' (scanChar c st.1 st.2.1 st.2.2)

theorem popWhilePrec_snd_subset (prec : Int) :
    ∀ (ops out : List Char), ∀ x ∈ (popWhilePrec prec out ops).2, x ∈ ops := by
  intro ops
  induction ops with
  | nil => intro out x hx; simp [popWhilePrec] at hx
  | cons op ops ih =>
    intro out x hx
    unfold popWhilePrec at hx
    split_ifs at hx
    · exact List.mem_cons_of_mem _ (ih _ x hx)
    · exact hx

theorem popUntilParen_no_paren :
    ∀ (ops out : List Char), '(' ∉ ops → popUntilParen out ops = (out ++ ops, []) := by
  intro ops
  induction ops with
  | nil => intro out _; simp [popUntilParen]
  | cons op ops ih =>
    intro out h
    have h1 : op ≠ '(' := fun e => h (by rw [e]; exact List.mem_cons_self _ _)
    have h2 : '(' ∉ ops := fun e => h (List.mem_cons_of_mem _ e)
    unfold popUntilParen
    rw [if_pos h1, ih _ h2]
    simp

/-- A character other than `(` leaves the operator stack without `(`. -/
theorem scanChar_no_paren (c : Char) (hc : c ≠ '(') (out ops : List Char) (last : Bool)
    (h : '(' ∉ ops) : '(' ∉ (scanChar c out ops last).2.1 := by
  unfold scanChar
  split_ifs
  · intro e
    rcases List.mem_cons.mp e with e | e
    · exact absurd e (by decide)
    · exact h (popWhilePrec_snd_subset _ _ _ _ e)
  · exact h
  · rw [popUntilParen_no_paren _ _ h]
    exact List.not_mem_nil _
  · intro e
    rcases List.mem_cons.mp e with e | e
    · exact hc e.symm
    · exact h (popWhilePrec_snd_subset _ _ _ _ e)

theorem scanFold_no_paren :
    ∀ (p : List Char), '(' ∉ p → ∀ (st : List Char × List Char × Bool),
      '(' ∉ st.2.1 → '(' ∉ (scanFold p st).2.1 := by
  intro p
  induction p with
  | nil => intro _ st h; exact h
  | cons c p ih =>
    intro hp st h
    have hc : c ≠ '(' := fun e => hp (by rw [e]; exact List.mem_cons_self _ _)
    have hp' : '(' ∉ p := fun e => hp (List.mem_cons_of_mem _ e)
    exact ih hp' _ (scanChar_no_paren c hc _ _ _ h)

theorem scanChar_close (out ops : List Char) (last : Bool) (h : '(' ∉ ops) :
    scanChar ')' out ops last = (out ++ ops, [], true) := by
  unfold scanChar
  have e1 : (!isOperator ')' && decide (')' ≠ '(') && decide (')' ≠ ')')) = false := by decide
  have e2 : ¬ (')' = '(') := by decide
  rw [e1]
  simp only [Bool.false_eq_true, if_false, e2, if_true]
  rw [popUntilParen_no_paren _ _ h]
  rfl

/-! ## The passes of `refinePartition` -/

theorem refineGroup_length (dfa : Graph) (P : List (List Int)) (G : List Int) :
    ((refineGroup dfa P G).2 = true → (refineGroup dfa P G).1.length = 2) ∧
      ((refineGroup dfa P G).2 = false → (refineGroup dfa P G).1.length = 1) := by
  unfold refineGroup
  by_cases h1 : G.length ≤ 1
  · rw [if_pos h1]
    simp
  · rw [if_neg h1]
    cases h2 : findSplit dfa G P with
    | none => simp
    | some r => simp

theorem flatMap_refineGroup_length (dfa : Graph) (P : List (List Int)) :
    ∀ (Q : List (List Int)),
      Q.length ≤ (Q.flatMap (fun g => (refineGroup dfa P g).1)).length ∧
      (Q.any (fun g => (refineGroup dfa P g).2) = true →
        Q.length < (Q.flatMap (fun g => (refineGroup dfa P g).1)).length) := by
  intro Q
  induction Q with
  | nil => simp
  | cons G Q ih =>
    obtain ⟨a1, a2⟩ := refineGroup_length dfa P G
    obtain ⟨b1, b2⟩ := ih
    simp only [List.flatMap_cons, List.length_append, List.length_cons, List.any_cons,
      Bool.or_eq_true]
    cases hG : (refineGroup dfa P G).2 with
    | true =>
      have := a1 hG
      exact ⟨by omega, fun _ => by omega⟩
    | false =>
      have := a2 hG
      refine ⟨by omega, ?_⟩
      rintro (h | h)
      · cases h
      · have := b2 h
        omega

/-- A pass never lowers the number of groups, and a pass that sets `changed`
raises it. -/
theorem refinePass_length (dfa : Graph) (P : List (List Int)) :
    P.length ≤ (refinePass dfa P).1.length ∧
      ((refinePass dfa P).2 = true → P.length < (refinePass dfa P).1.length) := by
  rw [refinePass_eq]
  exact flatMap_refineGroup_length dfa P P

theorem refinePasses_shift (dfa : Graph) :
    ∀ (k : Nat) (P : List (List Int)),
      refinePasses dfa k (refinePass dfa P).1 = refinePasses dfa (k + 1) P := by
  intro k
  induction k with
  | zero => intro P; rfl
  | succ k ih =>
    intro P
    show (refinePass dfa (refinePasses dfa k (refinePass dfa P).1)).1 = _
    rw [ih]
    rfl

/-- The result of the loop of `refinePartition` is the partition after some
number of passes. -/
theorem refineLoop_eq_passes (dfa : Graph) :
    ∀ (fuel : Nat) (P : List (List Int)), ∃ k, refineLoop dfa fuel P = refinePasses dfa k P := by
  intro fuel
  induction fuel with
  | zero => intro P; exact ⟨0, rfl⟩
  | succ fuel ih =>
    intro P
    rw [refineLoop_succ]
    by_cases hch : (refinePass dfa P).2 = true
    · rw [if_pos hch]
      obtain ⟨k, hk⟩ := ih (refinePass dfa P).1
      exact ⟨k + 1, by rw [hk, refinePasses_shift]⟩
    · rw [if_neg hch]
      exact ⟨1, rfl⟩

/-- More fuel does not change the result of a refinement loop that has enough. -/
theorem refineLoop_stable (dfa : Graph) :
    ∀ (fuel : Nat) (P : List (List Int)), splitPotential P < fuel →
      ∀ extra, refineLoop dfa (fuel + extra) P = refineLoop dfa fuel P := by
  intro fuel
  induction fuel with
  | zero => intro P h; omega
  | succ fuel ih =>
    intro P h extra
    rw [Nat.add_right_comm, refineLoop_succ, refineLoop_succ]
    by_cases hch : (refinePass dfa P).2 = true
    · rw [if_pos hch, if_pos hch]
      have := refinePass_changed dfa P hch
      exact ih _ (by omega) extra
    · rw [if_neg hch, if_neg hch]

theorem partInv_refinePasses (dfa : Graph) (U : List Int) (P : List (List Int))
    (h : PartInv U P) : ∀ k, PartInv U (refinePasses dfa k P) := by
  intro k
  induction k with
  | zero => exact h
  | succ k ih => exact partInv_refinePass dfa U _ ih

/-- In a graph produced through the public interface the accepting states are
members of the state set. -/
theorem Graph.Built.accept_subset {g : Graph} (h : g.Built) :
    ∀ a ∈ g.acceptStates, a ∈ g.states := by
  induction h with
  | empty => intro a ha; exact absurd ha (List.not_mem_nil a)
  | addState state _ ih =>
    intro a ha
    exact (mem_setInsert _ _ _).mpr (Or.inr (ih a ha))
  | addEdge u v w _ ih => exact ih
  | setInitialState state _ ih =>
    intro a ha
    exact (mem_setInsert _ _ _).mpr (Or.inr (ih a ha))
  | addAcceptState state _ ih =>
    intro a ha
    rcases (mem_setInsert _ _ _).mp ha with rfl | ha
    · exact (mem_setInsert _ _ _).mpr (Or.inl rfl)
    · exact (mem_setInsert _ _ _).mpr (Or.inr (ih a ha))

/-- What replaces a group in a pass is made of members of the group and holds
every member of the group. -/
theorem refineGroup_cover (dfa : Graph) (P : List (List Int)) (G : List Int) :
    (∀ H ∈ (refineGroup dfa P G).1, ∀ x ∈ H, x ∈ G) ∧
      (∀ x ∈ G, ∃ H ∈ (refineGroup dfa P G).1, x ∈ H) := by
  unfold refineGroup
  by_cases h1 : G.length ≤ 1
  · rw [if_pos h1]
    simp
  · rw [if_neg h1]
    cases h2 : findSplit dfa G P with
    | none => simp
    | some r =>
      obtain ⟨splitter, symbol⟩ := r
      refine ⟨?_, ?_⟩
      · intro H hH x hx
        simp only [List.mem_cons, List.mem_singleton, List.not_mem_nil, or_false] at hH
        rcases hH with rfl | rfl
        · exact ((mem_splitGroup_fst _ _ _ _ _).mp hx).1
        · exact ((mem_splitGroup_snd _ _ _ _ _).mp hx).1
      · intro x hx
        cases hg : goesToSplitter dfa splitter symbol x with
        | true =>
          exact ⟨_, List.mem_cons_self _ _, (mem_splitGroup_fst _ _ _ _ _).mpr ⟨hx, hg⟩⟩
        | false =>
          exact ⟨_, List.mem_cons_of_mem _ (List.mem_singleton_self _),
            (mem_splitGroup_snd _ _ _ _ _).mpr ⟨hx, hg⟩⟩

/-- Every group after a pass lies inside a group before the pass. -/
theorem refinePass_refines (dfa : Graph) (P : List (List Int)) :
    ∀ H ∈ (refinePass dfa P).1, ∃ G ∈ P, ∀ x ∈ H, x ∈ G := by
  rw [refinePass_eq]
  intro H hH
  simp only [List.mem_flatMap] at hH
  obtain ⟨G, hG, hHG⟩ := hH
  exact ⟨G, hG, (refineGroup_cover dfa P G).1 H hHG⟩

/-- A pass keeps the union of the groups. -/
theorem refinePass_cover (dfa : Graph) (P : List (List Int)) (x : Int) :
    (∃ H ∈ (refinePass dfa P).1, x ∈ H) ↔ ∃ G ∈ P, x ∈ G := by
  constructor
  · rintro ⟨H, hH, hx⟩
    obtain ⟨G, hG, hsub⟩ := refinePass_refines dfa P H hH
    exact ⟨G, hG, hsub x hx⟩
  · rintro ⟨G, hG, hx⟩
    obtain ⟨H, hH, hxH⟩ := (refineGroup_cover dfa P G).2 x hx
    rw [refinePass_eq]
    exact ⟨H, List.mem_flatMap.mpr ⟨G, hG, hH⟩, hxH⟩

theorem cover_two (A N : List Int) (x : Int) :
    (∃ G ∈ (if N ≠ [] then (if A ≠ [] then [] ++ [A] else []) ++ [N]
      else (if A ≠ [] then [] ++ [A] else [])), x ∈ G) ↔ x ∈ A ∨ x ∈ N := by
  by_cases h1 : A = [] <;> by_cases h2 : N = []
  · simp [h1, h2]
  · simp [h1, h2]
  · simp [h1, h2]
  · simp [h1, h2]

/-- The groups of the initial partition cover exactly the state set, when the
accepting states are states. -/
theorem initial_cover (dfa : Graph) (hacc : ∀ a ∈ dfa.acceptStates, a ∈ dfa.states) (x : Int) :
    (∃ G ∈ computeInitialPartition dfa, x ∈ G) ↔ x ∈ dfa.states := by
  have hmem := mem_nonAccept dfa.acceptStates dfa.states [] x
  have h := cover_two dfa.acceptStates
    (dfa.states.foldl (fun a state => if state ∈ dfa.acceptStates then a else setInsert state a) [])
    x
  have e : (∃ G ∈ computeInitialPartition dfa, x ∈ G) ↔
      x ∈ dfa.acceptStates ∨ x ∈ dfa.states.foldl
        (fun a state => if state ∈ dfa.acceptStates then a else setInsert state a) [] := h
  rw [e, hmem]
  constructor
  · rintro (h | h | ⟨h, _⟩)
    · exact hacc x h
    · exact absurd h (List.not_mem_nil x)
    · exact h
  · intro h
    by_cases hx : x ∈ dfa.acceptStates
    · exact Or.inl hx
    · exact Or.inr (Or.inr ⟨h, hx⟩)

theorem refinePasses_cover (dfa : Graph) (P : List (List Int)) (x : Int) :
    ∀ k, (∃ G ∈ refinePasses dfa k P, x ∈ G) ↔ ∃ G ∈ P, x ∈ G := by
  intro k
  induction k with
  | zero => exact Iff.rfl
  | succ k ih => exact (refinePass_cover dfa _ x).trans ih

/-! ## Termination and idempotence of `epsilonClosure` -/

/-- More fuel does not change the result of a closure loop that has ended. -/
theorem closureLoop_stable (n : Graph) :
    ∀ (fuel : Nat) (st : List Int × List Int), (closureLoop n fuel st).2 = [] →
      ∀ k, closureLoop n (fuel + k) st = closureLoop n fuel st := by
  intro fuel
  induction fuel with
  | zero =>
    intro st h k
    obtain ⟨closure, stack⟩ := st
    have hs : stack = [] := h
    subst hs
    cases k with
    | zero => rfl
    | succ k =>
      rw [Nat.zero_add]
      rfl
  | succ fuel ih =>
    intro st h k
    obtain ⟨closure, stack⟩ := st
    rw [Nat.add_right_comm]
    cases stack with
    | nil => rfl
    | cons current stack => exact ih _ h k

/-- Two ascending lists with the same members are equal. -/
theorem sorted_ext (l₁ l₂ : List Int) (h₁ : l₁.Sorted (· < ·)) (h₂ : l₂.Sorted (· < ·))
    (h : ∀ x, x ∈ l₁ ↔ x ∈ l₂) : l₁ = l₂ :=
  List.eq_of_perm_of_sorted ((List.perm_ext_iff_of_nodup h₁.nodup h₂.nodup).mpr h) h₁ h₂

theorem epsReach_trans {n : Graph} {a b c : Int} (h₁ : EpsReach n a b) (h₂ : EpsReach n b c) :
    EpsReach n a c :=
  Relation.ReflTransGen.trans h₁ h₂

/-- Closing a closed set changes nothing. -/
theorem epsilonClosureSet_idem (n : Graph) (S : List Int) :
    epsilonClosureSet n (epsilonClosureSet n S) = epsilonClosureSet n S := by
  apply sorted_ext _ _ (epsilonClosureSet_sorted n _) (epsilonClosureSet_sorted n _)
  intro x
  rw [mem_epsilonClosureSet]
  constructor
  · rintro ⟨s, hs, hr⟩
    rw [mem_epsilonClosureSet] at hs ⊢
    obtain ⟨s0, hs0, hr0⟩ := hs
    exact ⟨s0, hs0, epsReach_trans hr0 hr⟩
  · intro hx
    exact ⟨x, hx, Relation.ReflTransGen.refl⟩

/-! ## The identity map of `buildDFA` -/

/-- Every state of the DFA is the identifier of a set that was seen. -/
theorem subsetCore_surjective (n : Graph) (st : SubsetState) (hc : SubsetCore n st) :
    ∀ i ∈ st.dfa.states, ∃ S, mapFind S st.builder.stateSetToId = some i := by
  have hid : ∀ S ∈ st.processedStates,
      mapFind S st.builder.stateSetToId =
        some ((mapFind S st.builder.stateSetToId).getD 0) := by
    intro S hS
    obtain ⟨i, hi⟩ := (hc.keys S).mp hS
    rw [hi]
    rfl
  have hnd : (st.processedStates.map
      (fun S => (mapFind S st.builder.stateSetToId).getD 0)).Nodup := by
    refine List.Nodup.map_on ?_ hc.nodup
    intro S hS T hT e
    have h1 := hid S hS
    have h2 := hid T hT
    rw [e] at h1
    exact hc.inj S T _ h1 h2
  have hsub : (st.processedStates.map
      (fun S => (mapFind S st.builder.stateSetToId).getD 0)).toFinset ⊆
      Finset.Ico 0 st.builder.stateCounter := by
    intro i hi
    rw [List.mem_toFinset, List.mem_map] at hi
    obtain ⟨S, hS, rfl⟩ := hi
    rw [Finset.mem_Ico]
    exact hc.bound S _ (hid S hS)
  have hcard : (Finset.Ico 0 st.builder.stateCounter).card ≤
      (st.processedStates.map
        (fun S => (mapFind S st.builder.stateSetToId).getD 0)).toFinset.card := by
    rw [List.toFinset_card_of_nodup hnd, List.length_map, Int.card_Ico, hc.count]
    simp
  have heq := Finset.eq_of_subset_of_card_le hsub hcard
  intro i hi
  have hi' : i ∈ Finset.Ico 0 st.builder.stateCounter :=
    Finset.mem_Ico.mpr ((hc.states i).mp hi)
  rw [← heq, List.mem_toFinset, List.mem_map] at hi'
  obtain ⟨S, hS, rfl⟩ := hi'
  exact ⟨S, hid S hS⟩

/-! ## The builders reset their state -/

theorem buildNFAOn_graph (b : NFABuilder) (p : List Char) :
    outcomeGraph (buildNFAOn b p) = buildNFA p := by
  unfold buildNFAOn buildNFAFrom buildNFA buildFromPostfix
  cases tokenLoop (infixToPostfix p) [] 0 with
  | returned r =>
    obtain ⟨stack, k⟩ := r
    cases stack <;> rfl
  | raised what => rfl
  | undefinedBehaviour => rfl

theorem buildDFAOn_graph (b : DFABuilder) (n : Graph) : (buildDFAOn b n).1 = buildDFA n := rfl

/-- Without the reset the numbering of `buildDFA` follows the builder's counter. -/
theorem buildDFAFrom_depends_on_builder :
    (buildDFAFrom { stateSetToId := [], stateCounter := 5 } exampleNFA).1.states = [5, 6, 7] ∧
      (buildDFAFrom { stateSetToId := [], stateCounter := 0 } exampleNFA).1.states = [0, 1, 2] := by
  refine ⟨by decide, by decide⟩

/-! ## Renumbering by `mergeNFA` -/

/-- In a graph produced through the public interface the state set is ascending. -/
theorem Graph.Built.states_sorted {g : Graph} (h : g.Built) : g.states.Sorted (· < ·) := by
  induction h with
  | empty => exact List.sorted_nil
  | addState state _ ih => exact setInsert_sorted _ _ ih
  | addEdge u v w _ ih => exact ih
  | setInitialState state _ ih => exact setInsert_sorted _ _ ih
  | addAcceptState state _ ih => exact setInsert_sorted _ _ ih

/-- What every step of a loop over a list keeps, the loop keeps. -/
theorem foldl_graph_invariant {β : Type} (f : Graph → β → Graph) (P : Graph → Prop) :
    ∀ (l : List β) (g : Graph), (∀ g', ∀ b ∈ l, P g' → P (f g' b)) → P g → P (l.foldl f g) := by
  intro l
  induction l with
  | nil => intro g _ h; exact h
  | cons b l ih =>
    intro g hstep h
    exact ih _ (fun g' b' hb' => hstep g' b' (List.mem_cons_of_mem _ hb'))
      (hstep g b (List.mem_cons_self _ _) h)

theorem seg_addEdge {lo hi ini : Int} {g : Graph} (u v : Int) (w : Char)
    (h : Seg lo hi g ∧ g.initialState = ini) :
    Seg lo hi (g.addEdge u v w) ∧ (g.addEdge u v w).initialState = ini :=
  ⟨⟨h.1.1.addEdge u v w, h.1.2⟩, h.2⟩

theorem seg_addAcceptState {lo hi ini : Int} {g : Graph} (x : Int) (hx : lo ≤ x ∧ x < hi)
    (h : Seg lo hi g ∧ g.initialState = ini) :
    Seg lo hi (g.addAcceptState x) ∧ (g.addAcceptState x).initialState = ini := by
  refine ⟨⟨h.1.1.addAcceptState x, ?_⟩, h.2⟩
  intro i
  show i ∈ setInsert x g.states ↔ _
  rw [mem_setInsert, h.1.2 i]
  constructor
  · rintro (rfl | h')
    · exact hx
    · exact h'
  · exact Or.inr

theorem seg_setInitialState {lo hi : Int} {g : Graph} (x : Int) (hx : lo ≤ x ∧ x < hi)
    (h : Seg lo hi g) :
    Seg lo hi (g.setInitialState x) ∧ (g.setInitialState x).initialState = x := by
  refine ⟨⟨h.1.setInitialState x, ?_⟩, rfl⟩
  intro i
  show i ∈ setInsert x g.states ↔ _
  rw [mem_setInsert, h.2 i]
  constructor
  · rintro (rfl | h')
    · exact hx
    · exact h'
  · exact Or.inr

theorem mergeStates_cons (a : Int) (L : List Int) (g : Graph) (m : List (Int × Int)) (k : Int) :
    mergeStates (a :: L) (g, m, k) = mergeStates L (g.addState k, mapSet a k m, k + 1) := rfl

/-- The first loop of `mergeNFA`: the new states are `k, ..., k + |L| - 1`, every
old state is mapped into that range, and nothing else of the target changes. -/
theorem mergeStates_spec :
    ∀ (L : List Int) (g : Graph) (m : List (Int × Int)) (k : Int),
      (mergeStates L (g, m, k)).2.2 = k + L.length ∧
      (∀ i, i ∈ (mergeStates L (g, m, k)).1.states ↔
        i ∈ g.states ∨ (k ≤ i ∧ i < k + L.length)) ∧
      (g.Built → (mergeStates L (g, m, k)).1.Built) ∧
      (mergeStates L (g, m, k)).1.initialState = g.initialState ∧
      (mergeStates L (g, m, k)).1.edges = g.edges ∧
      (∀ x ∈ L, ∃ i, k ≤ i ∧ i < k + L.length ∧
        mapFind x (mergeStates L (g, m, k)).2.1 = some i) ∧
      (∀ x, x ∉ L → mapFind x (mergeStates L (g, m, k)).2.1 = mapFind x m) := by
  intro L
  induction L with
  | nil =>
    intro g m k
    refine ⟨by simp [mergeStates], ?_, fun h => h, rfl, rfl, ?_, fun _ _ => rfl⟩
    · intro i
      simp only [mergeStates, List.foldl_nil, List.length_nil, Nat.cast_zero, add_zero]
      constructor
      · exact Or.inl
      · rintro (h | ⟨h1, h2⟩)
        · exact h
        · omega
    · intro x hx
      exact absurd hx (List.not_mem_nil x)
  | cons a L ih =>
    intro g m k
    rw [mergeStates_cons]
    obtain ⟨h1, h2, h3, h4, h5, h6, h7⟩ := ih (g.addState k) (mapSet a k m) (k + 1)
    refine ⟨?_, ?_, fun hb => h3 (hb.addState k), h4, h5, ?_, ?_⟩
    · rw [h1]
      simp only [List.length_cons, Nat.cast_add, Nat.cast_one]
      omega
    · intro i
      rw [h2 i]
      show (i ∈ setInsert k g.states ∨ _) ↔ _
      rw [mem_setInsert]
      simp only [List.length_cons, Nat.cast_add, Nat.cast_one]
      have e : (k ≤ i ∧ i < k + ((L.length : Int) + 1)) ↔
          i = k ∨ (k + 1 ≤ i ∧ i < k + 1 + (L.length : Int)) := by omega
      rw [e]
      tauto
    · intro x hx
      by_cases hxL : x ∈ L
      · obtain ⟨i, hi1, hi2, hi3⟩ := h6 x hxL
        refine ⟨i, by omega, ?_, hi3⟩
        simp only [List.length_cons, Nat.cast_add, Nat.cast_one]
        omega
      · have hxa : x = a := by
          rcases List.mem_cons.mp hx with h | h
          · exact h
          · exact absurd h hxL
        refine ⟨k, le_refl k, ?_, ?_⟩
        · simp only [List.length_cons, Nat.cast_add, Nat.cast_one]
          omega
        · rw [h7 x hxL, mapFind_mapSet, if_pos hxa]
    · intro x hx
      have hxa : x ≠ a := fun e => hx (by rw [e]; exact List.mem_cons_self _ _)
      have hxL : x ∉ L := fun e => hx (List.mem_cons_of_mem _ e)
      rw [h7 x hxL, mapFind_mapSet, if_neg hxa]

/-- The first of the old states, when it does not occur again, is mapped to `k`. -/
theorem mergeStates_head (a : Int) (L : List Int) (ha : a ∉ L) (g : Graph)
    (m : List (Int × Int)) (k : Int) :
    mapFind a (mergeStates (a :: L) (g, m, k)).2.1 = some k := by
  rw [mergeStates_cons, (mergeStates_spec L _ _ _).2.2.2.2.2.2 a ha, mapFind_mapSet, if_pos rfl]

theorem mergeNFA_eq (target source : Graph) (k : Int) :
    mergeNFA target source k =
      (source.acceptStates.foldl
          (fun t a => t.addAcceptState (mapGet (mergeStates source.states (target, [], k)).2.1 a))
          (source.edges.foldl
            (fun t e => t.addEdge (mapGet (mergeStates source.states (target, [], k)).2.1 e.u)
              (mapGet (mergeStates source.states (target, [], k)).2.1 e.v) e.w)
            (mergeStates source.states (target, [], k)).1),
        (mergeStates source.states (target, [], k)).2.1,
        (mergeStates source.states (target, [], k)).2.2) := rfl

/-- `mergeNFA` into a target whose states are `lo, ..., k - 1`, with the counter
at `k`: the states become `lo, ..., k + |source states| - 1` and the initial
state of the target stays. -/
theorem mergeNFA_spec (target source : Graph) (k lo ini : Int) (hlo : lo ≤ k)
    (hT : Seg lo k target ∧ target.initialState = ini)
    (hacc : ∀ a ∈ source.acceptStates, a ∈ source.states) :
    (Seg lo (k + source.states.length) (mergeNFA target source k).1 ∧
        (mergeNFA target source k).1.initialState = ini) ∧
      (mergeNFA target source k).2.2 = k + source.states.length ∧
      (mergeNFA target source k).2.1 = (mergeStates source.states (target, [], k)).2.1 := by
  obtain ⟨h1, h2, h3, h4, _, h6, _⟩ := mergeStates_spec source.states target [] k
  have hbase : Seg lo (k + source.states.length) (mergeStates source.states (target, [], k)).1 ∧
      (mergeStates source.states (target, [], k)).1.initialState = ini := by
    refine ⟨⟨h3 hT.1.1, ?_⟩, h4.trans hT.2⟩
    intro i
    rw [h2 i, hT.1.2 i]
    have := Int.natCast_nonneg source.states.length
    omega
  rw [mergeNFA_eq]
  refine ⟨?_, h1, rfl⟩
  apply foldl_graph_invariant _
    (fun g => Seg lo (k + source.states.length) g ∧ g.initialState = ini)
  · intro g' a ha hg'
    obtain ⟨i, hi1, hi2, hi3⟩ := h6 a (hacc a ha)
    have e : mapGet (mergeStates source.states (target, [], k)).2.1 a = i := by
      unfold mapGet
      rw [hi3]
      rfl
    rw [e]
    exact seg_addAcceptState i ⟨by omega, hi2⟩ hg'
  · apply foldl_graph_invariant _
      (fun g => Seg lo (k + source.states.length) g ∧ g.initialState = ini)
    · intro g' e _ hg'
      exact seg_addEdge _ _ _ hg'
    · exact hbase

/-! ## The fragment constructors -/

theorem startEnd_shape (k : Int) :
    Seg k (k + 2)
        ((((Graph.empty.addState k).addState (k + 1)).setInitialState k).addAcceptState (k + 1)) ∧
      ((((Graph.empty.addState k).addState (k + 1)).setInitialState k).addAcceptState
        (k + 1)).initialState = k := by
  refine ⟨⟨((((Graph.Built.empty).addState k).addState (k + 1)).setInitialState k).addAcceptState
    (k + 1), ?_⟩, rfl⟩
  intro i
  simp only [Graph.addAcceptState, Graph.setInitialState, Graph.addState, Graph.empty,
    mem_setInsert, List.not_mem_nil, or_false]
  omega

theorem minInit_of_seg {k hi : Int} {g : Graph} (hk : k < hi)
    (h : Seg k hi g ∧ g.initialState = k) : MinInit g := by
  refine ⟨?_, ?_⟩
  · rw [h.2, h.1.2]
    exact ⟨le_refl k, hk⟩
  · intro x hx
    rw [h.2]
    exact ((h.1.2 x).mp hx).1

/-- `createBasicNFA`: the states are the two identifiers taken from the
counter, the first of them is the initial state. -/
theorem createBasicNFA_seg (c : Char) (k : Int) :
    (Seg k (createBasicNFA c k).2 (createBasicNFA c k).1 ∧
      (createBasicNFA c k).1.initialState = k) ∧ k < (createBasicNFA c k).2 := by
  have h := seg_addEdge k (k + 1) c (startEnd_shape k)
  refine ⟨h, ?_⟩
  show k < k + 2
  omega

/-- `createBasicNFA`: a graph built through the interface whose initial state
is its smallest state. -/
theorem createBasicNFA_shape (c : Char) (k : Int) :
    (createBasicNFA c k).1.Built ∧ MinInit (createBasicNFA c k).1 :=
  ⟨(createBasicNFA_seg c k).1.1.1, minInit_of_seg (createBasicNFA_seg c k).2
    (createBasicNFA_seg c k).1⟩

/-- The result of `mergeNFA` with its upper bound named. -/
theorem mergeNFA_shape (target source : Graph) (k lo ini : Int) (hlo : lo ≤ k)
    (hT : Seg lo k target ∧ target.initialState = ini)
    (hacc : ∀ a ∈ source.acceptStates, a ∈ source.states) :
    ∃ hi, hi = k + source.states.length ∧
      (Seg lo hi (mergeNFA target source k).1 ∧ (mergeNFA target source k).1.initialState = ini) ∧
      (mergeNFA target source k).2.2 = hi := by
  obtain ⟨h1, h2, _⟩ := mergeNFA_spec target source k lo ini hlo hT hacc
  exact ⟨_, rfl, h1, h2⟩

/-- `createUnionNFA`: the states are the identifiers from the counter before
the call up to the counter after it, the first of them is the initial state. -/
theorem createUnionNFA_seg (nfa1 nfa2 : Graph) (k : Int) (h1 : nfa1.Built) (h2 : nfa2.Built) :
    (Seg k (createUnionNFA nfa1 nfa2 k).2 (createUnionNFA nfa1 nfa2 k).1 ∧
      (createUnionNFA nfa1 nfa2 k).1.initialState = k) ∧ k < (createUnionNFA nfa1 nfa2 k).2 := by
  obtain ⟨hi1, e1, hm1, hc1⟩ := mergeNFA_shape _ nfa1 (k + 2) k k (by omega) (startEnd_shape k)
    h1.accept_subset
  have := Int.natCast_nonneg nfa1.states.length
  have := Int.natCast_nonneg nfa2.states.length
  have hm1' := hm1
  rw [← hc1] at hm1'
  obtain ⟨hi2, e2, hm2, hc2⟩ := mergeNFA_shape _ nfa2 _ k k (by rw [hc1]; omega) hm1'
    h2.accept_subset
  have hcount : (createUnionNFA nfa1 nfa2 k).2 = hi2 := hc2
  rw [hcount]
  have hfin : Seg k hi2 (createUnionNFA nfa1 nfa2 k).1 ∧
      (createUnionNFA nfa1 nfa2 k).1.initialState = k := by
    unfold createUnionNFA
    dsimp only
    apply foldl_graph_invariant _ (fun g => Seg k hi2 g ∧ g.initialState = k) _ _
      (fun g' a _ hg' => seg_addEdge _ _ _ hg')
    apply foldl_graph_invariant _ (fun g => Seg k hi2 g ∧ g.initialState = k) _ _
      (fun g' a _ hg' => seg_addEdge _ _ _ hg')
    exact seg_addEdge _ _ _ (seg_addEdge _ _ _ hm2)
  refine ⟨hfin, ?_⟩
  rw [hc1] at e2
  omega

/-- `createUnionNFA`. -/
theorem createUnionNFA_shape (nfa1 nfa2 : Graph) (k : Int) (h1 : nfa1.Built) (h2 : nfa2.Built) :
    (createUnionNFA nfa1 nfa2 k).1.Built ∧ MinInit (createUnionNFA nfa1 nfa2 k).1 :=
  ⟨(createUnionNFA_seg nfa1 nfa2 k h1 h2).1.1.1,
    minInit_of_seg (createUnionNFA_seg nfa1 nfa2 k h1 h2).2 (createUnionNFA_seg nfa1 nfa2 k h1 h2).1⟩

/-- `createStarNFA`: the states are the identifiers from the counter before the
call up to the counter after it, the first of them is the initial state. -/
theorem createStarNFA_seg (nfa : Graph) (k : Int) (h1 : nfa.Built) :
    (Seg k (createStarNFA nfa k).2 (createStarNFA nfa k).1 ∧
      (createStarNFA nfa k).1.initialState = k) ∧ k < (createStarNFA nfa k).2 := by
  obtain ⟨hi1, e1, hm1, hc1⟩ := mergeNFA_shape _ nfa (k + 2) k k (by omega) (startEnd_shape k)
    h1.accept_subset
  have := Int.natCast_nonneg nfa.states.length
  have hcount : (createStarNFA nfa k).2 = hi1 := hc1
  rw [hcount]
  have hfin : Seg k hi1 (createStarNFA nfa k).1 ∧ (createStarNFA nfa k).1.initialState = k := by
    unfold createStarNFA
    dsimp only
    apply foldl_graph_invariant _ (fun g => Seg k hi1 g ∧ g.initialState = k) _ _
      (fun g' a _ hg' => seg_addEdge _ _ _ (seg_addEdge _ _ _ hg'))
    exact seg_addEdge _ _ _ (seg_addEdge _ _ _ hm1)
  exact ⟨hfin, by omega⟩

/-- `createStarNFA`. -/
theorem createStarNFA_shape (nfa : Graph) (k : Int) (h1 : nfa.Built) :
    (createStarNFA nfa k).1.Built ∧ MinInit (createStarNFA nfa k).1 :=
  ⟨(createStarNFA_seg nfa k h1).1.1.1,
    minInit_of_seg (createStarNFA_seg nfa k h1).2 (createStarNFA_seg nfa k h1).1⟩

/-- `createPlusNFA`: the states are the identifiers from the counter before the
call up to the counter after it, the first of them is the initial state. -/
theorem createPlusNFA_seg (nfa : Graph) (k : Int) (h1 : nfa.Built) :
    (Seg k (createPlusNFA nfa k).2 (createPlusNFA nfa k).1 ∧
      (createPlusNFA nfa k).1.initialState = k) ∧ k < (createPlusNFA nfa k).2 := by
  obtain ⟨hi1, e1, hm1, hc1⟩ := mergeNFA_shape _ nfa (k + 2) k k (by omega) (startEnd_shape k)
    h1.accept_subset
  have := Int.natCast_nonneg nfa.states.length
  have hcount : (createPlusNFA nfa k).2 = hi1 := hc1
  rw [hcount]
  have hfin : Seg k hi1 (createPlusNFA nfa k).1 ∧ (createPlusNFA nfa k).1.initialState = k := by
    unfold createPlusNFA
    dsimp only
    apply foldl_graph_invariant _ (fun g => Seg k hi1 g ∧ g.initialState = k) _ _
      (fun g' a _ hg' => seg_addEdge _ _ _ (seg_addEdge _ _ _ hg'))
    exact seg_addEdge _ _ _ hm1
  exact ⟨hfin, by omega⟩

/-- `createPlusNFA`. -/
theorem createPlusNFA_shape (nfa : Graph) (k : Int) (h1 : nfa.Built) :
    (createPlusNFA nfa k).1.Built ∧ MinInit (createPlusNFA nfa k).1 :=
  ⟨(createPlusNFA_seg nfa k h1).1.1.1,
    minInit_of_seg (createPlusNFA_seg nfa k h1).2 (createPlusNFA_seg nfa k h1).1⟩

/-- `createOptionalNFA`: the states are the identifiers from the counter before
the call up to the counter after it, the first of them is the initial state. -/
theorem createOptionalNFA_seg (nfa : Graph) (k : Int) (h1 : nfa.Built) :
    (Seg k (createOptionalNFA nfa k).2 (createOptionalNFA nfa k).1 ∧
      (createOptionalNFA nfa k).1.initialState = k) ∧ k < (createOptionalNFA nfa k).2 := by
  obtain ⟨hi1, e1, hm1, hc1⟩ := mergeNFA_shape _ nfa (k + 2) k k (by omega) (startEnd_shape k)
    h1.accept_subset
  have := Int.natCast_nonneg nfa.states.length
  have hcount : (createOptionalNFA nfa k).2 = hi1 := hc1
  rw [hcount]
  have hfin : Seg k hi1 (createOptionalNFA nfa k).1 ∧
      (createOptionalNFA nfa k).1.initialState = k := by
    unfold createOptionalNFA
    dsimp only
    apply foldl_graph_invariant _ (fun g => Seg k hi1 g ∧ g.initialState = k) _ _
      (fun g' a _ hg' => seg_addEdge _ _ _ hg')
    exact seg_addEdge _ _ _ (seg_addEdge _ _ _ hm1)
  exact ⟨hfin, by omega⟩

/-- `createOptionalNFA`. -/
theorem createOptionalNFA_shape (nfa : Graph) (k : Int) (h1 : nfa.Built) :
    (createOptionalNFA nfa k).1.Built ∧ MinInit (createOptionalNFA nfa k).1 :=
  ⟨(createOptionalNFA_seg nfa k h1).1.1.1,
    minInit_of_seg (createOptionalNFA_seg nfa k h1).2 (createOptionalNFA_seg nfa k h1).1⟩

/-- In an ascending list a member that no member is below is the head. -/
theorem sorted_head_of_min (l : List Int) (a : Int) (hs : l.Sorted (· < ·)) (ha : a ∈ l)
    (hmin : ∀ x ∈ l, a ≤ x) : ∃ rest, l = a :: rest ∧ a ∉ rest := by
  cases l with
  | nil => exact absurd ha (List.not_mem_nil a)
  | cons b rest =>
    have hb := List.sorted_cons.mp hs
    have e : a = b := by
      rcases List.mem_cons.mp ha with h | h
      · exact h
      · have h1 := hb.1 a h
        have h2 := hmin b (List.mem_cons_self _ _)
        omega
    subst e
    exact ⟨rest, rfl, fun h => lt_irrefl _ (hb.1 a h)⟩

/-- The state map of `mergeNFA` sends the initial state of a source whose
initial state is its smallest state to the counter. -/
theorem mergeNFA_initial (target source : Graph) (k : Int) (hb : source.Built)
    (hm : MinInit source) :
    mapGet (mergeNFA target source k).2.1 source.initialState = k ∧
      0 < source.states.length := by
  obtain ⟨rest, e, hnot⟩ := sorted_head_of_min _ _ hb.states_sorted hm.1 hm.2
  refine ⟨?_, by rw [e]; simp⟩
  show mapGet (mergeStates source.states (target, [], k)).2.1 source.initialState = k
  unfold mapGet
  rw [e, mergeStates_head _ _ hnot]
  rfl

/-- `createConcatNFA`, for a left operand whose initial state is its smallest
state: the states are the identifiers from the counter before the call up to
the counter after it, the first of them is the initial state. -/
theorem createConcatNFA_seg (nfa1 nfa2 : Graph) (k : Int) (h1 : nfa1.Built)
    (hmin : MinInit nfa1) (h2 : nfa2.Built) :
    (Seg k (createConcatNFA nfa1 nfa2 k).2 (createConcatNFA nfa1 nfa2 k).1 ∧
      (createConcatNFA nfa1 nfa2 k).1.initialState = k) ∧
      k < (createConcatNFA nfa1 nfa2 k).2 := by
  have hempty : Seg k k Graph.empty ∧ Graph.empty.initialState = -1 := by
    refine ⟨⟨Graph.Built.empty, ?_⟩, rfl⟩
    intro i
    simp only [Graph.empty, List.not_mem_nil, false_iff]
    omega
  obtain ⟨hi1, e1, hm1, hc1⟩ := mergeNFA_shape Graph.empty nfa1 k k (-1) (le_refl k) hempty
    h1.accept_subset
  obtain ⟨hinit, hpos⟩ := mergeNFA_initial Graph.empty nfa1 k h1 hmin
  have := Int.natCast_nonneg nfa2.states.length
  have hpos' : (0 : Int) < nfa1.states.length := by exact_mod_cast hpos
  have hm1' := hm1
  rw [← hc1] at hm1'
  obtain ⟨hi2, e2, hm2, hc2⟩ := mergeNFA_shape _ nfa2 _ k (-1) (by rw [hc1]; omega) hm1'
    h2.accept_subset
  have hcount : (createConcatNFA nfa1 nfa2 k).2 = hi2 := hc2
  rw [hcount]
  rw [hc1] at e2
  obtain ⟨_, _, _, _, _, h6, _⟩ := mergeStates_spec nfa2.states
    (mergeNFA Graph.empty nfa1 k).1 [] (mergeNFA Graph.empty nfa1 k).2.2
  have hfin : Seg k hi2 (createConcatNFA nfa1 nfa2 k).1 ∧
      (createConcatNFA nfa1 nfa2 k).1.initialState = k := by
    unfold createConcatNFA
    dsimp only
    apply foldl_graph_invariant _ (fun g => Seg k hi2 g ∧ g.initialState = k)
    · intro g' a ha hg'
      obtain ⟨i, hi1', hi2', hi3⟩ := h6 a (h2.accept_subset a ha)
      have e : mapGet (mergeNFA (mergeNFA Graph.empty nfa1 k).1 nfa2
          (mergeNFA Graph.empty nfa1 k).2.2).2.1 a = i := by
        show mapGet (mergeStates nfa2.states _).2.1 a = i
        unfold mapGet
        rw [hi3]
        rfl
      rw [e]
      rw [hc1] at hi1' hi2'
      exact seg_addAcceptState i ⟨by omega, by omega⟩ hg'
    · apply foldl_graph_invariant _ (fun g => Seg k hi2 g ∧ g.initialState = k) _ _
        (fun g' a _ hg' => seg_addEdge _ _ _ hg')
      rw [hinit]
      exact seg_setInitialState k ⟨le_refl k, by omega⟩ hm2.1
  exact ⟨hfin, by omega⟩

/-- `createConcatNFA`, for a left operand whose initial state is its smallest
state. -/
theorem createConcatNFA_shape (nfa1 nfa2 : Graph) (k : Int) (h1 : nfa1.Built)
    (hmin : MinInit nfa1) (h2 : nfa2.Built) :
    (createConcatNFA nfa1 nfa2 k).1.Built ∧ MinInit (createConcatNFA nfa1 nfa2 k).1 :=
  ⟨(createConcatNFA_seg nfa1 nfa2 k h1 hmin h2).1.1.1,
    minInit_of_seg (createConcatNFA_seg nfa1 nfa2 k h1 hmin h2).2
      (createConcatNFA_seg nfa1 nfa2 k h1 hmin h2).1⟩

/-! ## The stack of fragments and the final renumbering -/

theorem stackInv_cons {F : Graph} {rest : List Graph} (hF : F.Built ∧ MinInit F)
    (h : StackInv rest) : StackInv (F :: rest) := by
  intro G hG
  rcases List.mem_cons.mp hG with e | hG
  · rw [e]
    exact hF
  · exact h G hG

theorem stackInv_tail {F : Graph} {rest : List Graph} (h : StackInv (F :: rest)) :
    StackInv rest :=
  fun G hG => h G (List.mem_cons_of_mem _ hG)

/-- One token keeps the property of the stack. -/
theorem applyToken_inv (c : Char) (st : List Graph) (k : Int) (r : List Graph × Int)
    (h : applyToken c st k = .returned r) (hs : StackInv st) : StackInv r.1 := by
  unfold applyToken at h
  split_ifs at h
  · cases h
    exact stackInv_cons (createBasicNFA_shape c k) hs
  · rcases st with _ | ⟨nfa2, _ | ⟨nfa1, rest⟩⟩
    · cases h
    · cases h
    · cases h
      exact stackInv_cons
        (createUnionNFA_shape nfa1 nfa2 k
          (hs nfa1 (List.mem_cons_of_mem _ (List.mem_cons_self _ _))).1
          (hs nfa2 (List.mem_cons_self _ _)).1)
        (stackInv_tail (stackInv_tail hs))
  · rcases st with _ | ⟨nfa2, _ | ⟨nfa1, rest⟩⟩
    · cases h
    · cases h
    · cases h
      exact stackInv_cons
        (createConcatNFA_shape nfa1 nfa2 k
          (hs nfa1 (List.mem_cons_of_mem _ (List.mem_cons_self _ _))).1
          (hs nfa1 (List.mem_cons_of_mem _ (List.mem_cons_self _ _))).2
          (hs nfa2 (List.mem_cons_self _ _)).1)
        (stackInv_tail (stackInv_tail hs))
  · rcases st with _ | ⟨nfa, rest⟩
    · cases h
    · cases h
      exact stackInv_cons (createStarNFA_shape nfa k (hs nfa (List.mem_cons_self _ _)).1)
        (stackInv_tail hs)
  · rcases st with _ | ⟨nfa, rest⟩
    · cases h
    · cases h
      exact stackInv_cons (createPlusNFA_shape nfa k (hs nfa (List.mem_cons_self _ _)).1)
        (stackInv_tail hs)
  · rcases st with _ | ⟨nfa, rest⟩
    · cases h
    · cases h
      exact stackInv_cons (createOptionalNFA_shape nfa k (hs nfa (List.mem_cons_self _ _)).1)
        (stackInv_tail hs)

/-- The token loop keeps the property of the stack. -/
theorem tokenLoop_inv : ∀ (ts : List Char) (st : List Graph) (k : Int) (r : List Graph × Int),
    tokenLoop ts st k = .returned r → StackInv st → StackInv r.1 := by
  intro ts
  induction ts with
  | nil =>
    intro st k r h hs
    cases h
    exact hs
  | cons c ts ih =>
    intro st k r h hs
    unfold tokenLoop at h
    cases h' : applyToken c st k with
    | returned r' =>
      rw [h'] at h
      exact ih _ _ _ h (applyToken_inv c st k r' h' hs)
    | raised w => rw [h'] at h; cases h
    | undefinedBehaviour => rw [h'] at h; cases h

/-- A run of `buildNFA` that returns renumbers the top of the stack, a fragment
whose initial state is its smallest state. -/
theorem buildNFA_returned (p : List Char) (g : Graph) (h : buildNFA p = .returned g) :
    ∃ F rest k, tokenLoop (infixToPostfix p) [] 0 = .returned (F :: rest, k) ∧
      g = remapStates F ∧ F.Built ∧ MinInit F := by
  unfold buildNFA buildFromPostfix at h
  cases h' : tokenLoop (infixToPostfix p) [] 0 with
  | returned r =>
    rw [h'] at h
    obtain ⟨stack, k⟩ := r
    cases stack with
    | nil => cases h
    | cons F rest =>
      dsimp only at h
      cases h
      have hs := tokenLoop_inv _ _ _ _ h' (fun G hG => absurd hG (List.not_mem_nil G))
      exact ⟨F, rest, k, rfl, rfl, hs F (List.mem_cons_self _ _)⟩
  | raised w => rw [h'] at h; cases h
  | undefinedBehaviour => rw [h'] at h; cases h

theorem mapGet_mapSet_self (k v : Int) (m : List (Int × Int)) :
    mapGet (mapSet k v m) k = v := by
  unfold mapGet
  rw [mapFind_mapSet, if_pos rfl]
  rfl

/-- The renumbering of `buildNFA` written with the first loop of `mergeNFA`. -/
theorem remapStates_eq (F : Graph) :
    remapStates F =
      F.acceptStates.foldl
        (fun g a => g.addAcceptState (mapGet (mergeStates F.states (Graph.empty, [], 0)).2.1 a))
        ((F.edges.foldl
          (fun g e => g.addEdge (mapGet (mergeStates F.states (Graph.empty, [], 0)).2.1 e.u)
            (mapGet (mergeStates F.states (Graph.empty, [], 0)).2.1 e.v) e.w)
          (mergeStates F.states (Graph.empty, [], 0)).1).setInitialState
            (mapGet (mergeStates F.states (Graph.empty, [], 0)).2.1 F.initialState)) := by
  have e : (fun (acc : Graph × List (Int × Int) × Int) (oldState : Int) =>
      (acc.1.addState (mapGet (mapSet oldState acc.2.2 acc.2.1) oldState),
        mapSet oldState acc.2.2 acc.2.1, acc.2.2 + 1)) =
      (fun (acc : Graph × List (Int × Int) × Int) (oldState : Int) =>
        (acc.1.addState acc.2.2, mapSet oldState acc.2.2 acc.2.1, acc.2.2 + 1)) := by
    funext acc oldState
    rw [mapGet_mapSet_self]
  unfold remapStates mergeStates
  dsimp only
  rw [e]

/-- Every read of the state map of the renumbering is one of the new
identifiers: an old state reads its new identifier, any other key reads `0`. -/
theorem remap_mapGet_range (L : List Int) (hL : 0 < L.length) (x : Int) :
    0 ≤ mapGet (mergeStates L (Graph.empty, [], 0)).2.1 x ∧
      mapGet (mergeStates L (Graph.empty, [], 0)).2.1 x < L.length := by
  obtain ⟨_, _, _, _, _, h6, h7⟩ := mergeStates_spec L Graph.empty [] 0
  have hpos : (0 : Int) < L.length := by exact_mod_cast hL
  by_cases hx : x ∈ L
  · obtain ⟨i, h1, h2, h3⟩ := h6 x hx
    unfold mapGet
    rw [h3]
    simp only [Option.getD_some]
    omega
  · unfold mapGet
    rw [h7 x hx]
    simp only [mapFind, Option.getD_none]
    omega

/-- The final renumbering: the states of the result are `0, ..., n - 1` for the
`n` states of the fragment, the initial state is `0`, and every edge endpoint
is one of the new identifiers. -/
theorem remapStates_spec (F : Graph) (hb : F.Built) (hm : MinInit F) :
    (Seg 0 F.states.length (remapStates F) ∧ (remapStates F).initialState = 0) ∧
      ∀ e ∈ (remapStates F).edges,
        (0 ≤ e.u ∧ e.u < F.states.length) ∧ (0 ≤ e.v ∧ e.v < F.states.length) := by
  obtain ⟨hinit, hpos⟩ := mergeNFA_initial Graph.empty F 0 hb hm
  have hinit' : mapGet (mergeStates F.states (Graph.empty, [], 0)).2.1 F.initialState = 0 := hinit
  have hpos' : (0 : Int) < F.states.length := by exact_mod_cast hpos
  obtain ⟨_, h2, h3, h4, h5, _, _⟩ := mergeStates_spec F.states Graph.empty [] 0
  have hbase : (Seg 0 F.states.length (mergeStates F.states (Graph.empty, [], 0)).1 ∧
      (mergeStates F.states (Graph.empty, [], 0)).1.initialState = -1) ∧
      ∀ e ∈ (mergeStates F.states (Graph.empty, [], 0)).1.edges,
        (0 ≤ e.u ∧ e.u < F.states.length) ∧ (0 ≤ e.v ∧ e.v < F.states.length) := by
    refine ⟨⟨⟨h3 Graph.Built.empty, ?_⟩, h4⟩, ?_⟩
    · intro i
      rw [h2 i]
      simp only [Graph.empty, List.not_mem_nil, false_or, zero_add]
    · intro e he
      rw [h5] at he
      exact absurd he (List.not_mem_nil e)
  have hedges := foldl_graph_invariant
    (fun g (e : Edge) => g.addEdge (mapGet (mergeStates F.states (Graph.empty, [], 0)).2.1 e.u)
      (mapGet (mergeStates F.states (Graph.empty, [], 0)).2.1 e.v) e.w)
    (fun g => (Seg 0 F.states.length g ∧ g.initialState = -1) ∧
      ∀ e ∈ g.edges, (0 ≤ e.u ∧ e.u < F.states.length) ∧ (0 ≤ e.v ∧ e.v < F.states.length))
    F.edges _
    (fun g' e _ hg' => ⟨seg_addEdge _ _ _ hg'.1, by
      intro e' he'
      rcases List.mem_append.mp he' with h | h
      · exact hg'.2 e' h
      · rw [List.mem_singleton.mp h]
        exact ⟨remap_mapGet_range _ hpos _, remap_mapGet_range _ hpos _⟩⟩)
    hbase
  rw [remapStates_eq]
  apply foldl_graph_invariant _
    (fun g => (Seg 0 F.states.length g ∧ g.initialState = 0) ∧
      ∀ e ∈ g.edges, (0 ≤ e.u ∧ e.u < F.states.length) ∧ (0 ≤ e.v ∧ e.v < F.states.length))
  · intro g' a _ hg'
    exact ⟨seg_addAcceptState _ (remap_mapGet_range _ hpos _) hg'.1, hg'.2⟩
  · rw [hinit']
    exact ⟨seg_setInitialState 0 ⟨le_refl 0, hpos'⟩ hedges.1.1, hedges.2⟩

/-- The identifiers `0, ..., n - 1` in ascending order. -/
theorem range_cast_sorted (n : Nat) :
    ((List.range n).map (fun i : Nat => (i : Int))).Sorted (· < ·) := by
  unfold List.Sorted
  rw [List.pairwise_map]
  exact (List.pairwise_lt_range n).imp (fun h => by exact_mod_cast h)

theorem mem_range_cast (n : Nat) (x : Int) :
    x ∈ (List.range n).map (fun i : Nat => (i : Int)) ↔ 0 ≤ x ∧ x < n := by
  simp only [List.mem_map, List.mem_range]
  constructor
  · rintro ⟨i, hi, rfl⟩
    exact ⟨Int.natCast_nonneg i, by exact_mod_cast hi⟩
  · rintro ⟨h0, h1⟩
    refine ⟨x.toNat, ?_, Int.toNat_of_nonneg h0⟩
    omega

/-- The returned NFA of a run of `buildNFA` that succeeds. -/
theorem buildNFA_shape (p : List Char) (g : Graph) (h : buildNFA p = .returned g) :
    ∃ F rest k, tokenLoop (infixToPostfix p) [] 0 = .returned (F :: rest, k) ∧
      g.states = (List.range F.states.length).map (fun i : Nat => (i : Int)) ∧
      g.WellFormed ∧ g.initialState = 0 ∧ MinInit g := by
  obtain ⟨F, rest, k, h1, h2, h3, h4⟩ := buildNFA_returned p g h
  obtain ⟨⟨hseg, hini⟩, hedges⟩ := remapStates_spec F h3 h4
  rw [← h2] at hseg hini hedges
  have hpos := (mergeNFA_initial Graph.empty F 0 h3 h4).2
  have hpos' : (0 : Int) < F.states.length := by exact_mod_cast hpos
  have hmin : MinInit g := minInit_of_seg hpos' ⟨hseg, hini⟩
  refine ⟨F, rest, k, h1, ?_, ⟨?_, hmin.1, hseg.1.accept_subset⟩, hini, hmin⟩
  · apply sorted_ext _ _ hseg.1.states_sorted (range_cast_sorted _)
    intro x
    rw [hseg.2 x, mem_range_cast]
  · intro e he
    rw [hseg.2, hseg.2]
    exact hedges e he

/-! ## The counter of `buildNFA` -/

/-- A graph whose states are `lo, ..., hi - 1` has `hi - lo` states. -/
theorem seg_length {lo hi : Int} {g : Graph} (h : Seg lo hi g) (hle : lo ≤ hi) :
    (g.states.length : Int) = hi - lo := by
  have e : g.states.toFinset = Finset.Ico lo hi := by
    ext i
    rw [List.mem_toFinset, Finset.mem_Ico]
    exact h.2 i
  have h1 : g.states.toFinset.card = g.states.length :=
    List.toFinset_card_of_nodup h.1.states_sorted.nodup
  rw [e, Int.card_Ico] at h1
  rw [← h1]
  omega

theorem stackSeg_mono {k k' : Int} {stack : List Graph} (hk : k ≤ k') (h : StackSeg k stack) :
    StackSeg k' stack := by
  intro F hF
  obtain ⟨lo, hi, h1, h2, h3, h4⟩ := h F hF
  exact ⟨lo, hi, h1, h2, by omega, h4⟩

theorem stackSeg_cons {k k' : Int} {F : Graph} {rest : List Graph} (h0 : 0 ≤ k)
    (hF : (Seg k k' F ∧ F.initialState = k) ∧ k < k') (h : StackSeg k rest) :
    StackSeg k' (F :: rest) := by
  intro G hG
  rcases List.mem_cons.mp hG with e | hG
  · rw [e]
    exact ⟨k, k', h0, hF.2, le_refl k', hF.1.1, hF.1.2⟩
  · exact stackSeg_mono (le_of_lt hF.2) h G hG

theorem stackSeg_tail {k : Int} {F : Graph} {rest : List Graph} (h : StackSeg k (F :: rest)) :
    StackSeg k rest :=
  fun G hG => h G (List.mem_cons_of_mem _ hG)

theorem stackSeg_head {k : Int} {F : Graph} {rest : List Graph} (h : StackSeg k (F :: rest)) :
    F.Built ∧ MinInit F := by
  obtain ⟨lo, hi, _, h2, _, h4, h5⟩ := h F (List.mem_cons_self _ _)
  exact ⟨h4.1, minInit_of_seg h2 ⟨h4, h5⟩⟩

/-- One token: the counter does not go down and the fragments on the stack are
segments of the identifiers handed out. -/
theorem applyToken_seg (c : Char) (st : List Graph) (k : Int) (r : List Graph × Int)
    (h : applyToken c st k = .returned r) (h0 : 0 ≤ k) (hs : StackSeg k st) :
    k ≤ r.2 ∧ StackSeg r.2 r.1 := by
  unfold applyToken at h
  split_ifs at h
  · cases h
    exact ⟨le_of_lt (createBasicNFA_seg c k).2, stackSeg_cons h0 (createBasicNFA_seg c k) hs⟩
  · rcases st with _ | ⟨nfa2, _ | ⟨nfa1, rest⟩⟩
    · cases h
    · cases h
    · cases h
      have hseg := createUnionNFA_seg nfa1 nfa2 k (stackSeg_head (stackSeg_tail hs)).1
        (stackSeg_head hs).1
      exact ⟨le_of_lt hseg.2, stackSeg_cons h0 hseg (stackSeg_tail (stackSeg_tail hs))⟩
  · rcases st with _ | ⟨nfa2, _ | ⟨nfa1, rest⟩⟩
    · cases h
    · cases h
    · cases h
      have hseg := createConcatNFA_seg nfa1 nfa2 k (stackSeg_head (stackSeg_tail hs)).1
        (stackSeg_head (stackSeg_tail hs)).2 (stackSeg_head hs).1
      exact ⟨le_of_lt hseg.2, stackSeg_cons h0 hseg (stackSeg_tail (stackSeg_tail hs))⟩
  · rcases st with _ | ⟨nfa, rest⟩
    · cases h
    · cases h
      have hseg := createStarNFA_seg nfa k (stackSeg_head hs).1
      exact ⟨le_of_lt hseg.2, stackSeg_cons h0 hseg (stackSeg_tail hs)⟩
  · rcases st with _ | ⟨nfa, rest⟩
    · cases h
    · cases h
      have hseg := createPlusNFA_seg nfa k (stackSeg_head hs).1
      exact ⟨le_of_lt hseg.2, stackSeg_cons h0 hseg (stackSeg_tail hs)⟩
  · rcases st with _ | ⟨nfa, rest⟩
    · cases h
    · cases h
      have hseg := createOptionalNFA_seg nfa k (stackSeg_head hs).1
      exact ⟨le_of_lt hseg.2, stackSeg_cons h0 hseg (stackSeg_tail hs)⟩

/-- The token loop: the counter does not go down and the fragments on the
stack are segments of the identifiers handed out. -/
theorem tokenLoop_seg : ∀ (ts : List Char) (st : List Graph) (k : Int) (r : List Graph × Int),
    tokenLoop ts st k = .returned r → 0 ≤ k → StackSeg k st → k ≤ r.2 ∧ StackSeg r.2 r.1 := by
  intro ts
  induction ts with
  | nil =>
    intro st k r h h0 hs
    cases h
    exact ⟨le_refl k, hs⟩
  | cons c ts ih =>
    intro st k r h h0 hs
    unfold tokenLoop at h
    cases h' : applyToken c st k with
    | returned r' =>
      rw [h'] at h
      obtain ⟨hle, hs'⟩ := applyToken_seg c st k r' h' h0 hs
      obtain ⟨hle', hs''⟩ := ih _ _ _ h (le_trans h0 hle) hs'
      exact ⟨le_trans hle hle', hs''⟩
    | raised w => rw [h'] at h; cases h
    | undefinedBehaviour => rw [h'] at h; cases h

/-- A run of `buildNFA` on a builder that returns: the graph is the one of
`buildNFA`, its initial state `0` is its smallest state, and it has at most as
many states as the counter left behind counts. -/
theorem buildNFAOn_shape (b : NFABuilder) (p : List Char) (r : Graph × NFABuilder)
    (h : buildNFAOn b p = .returned r) :
    buildNFA p = .returned r.1 ∧ r.1.initialState = 0 ∧ MinInit r.1 ∧
      ∀ x ∈ r.1.states, 0 ≤ x ∧ x < r.2.stateCounter := by
  have hg : buildNFA p = .returned r.1 := by
    rw [← buildNFAOn_graph b p, h]
    rfl
  obtain ⟨F, rest, k, h1, h2, _, h4, h5⟩ := buildNFA_shape p r.1 hg
  have hk : r.2.stateCounter = k := by
    unfold buildNFAOn buildNFAFrom at h
    dsimp only at h
    rw [h1] at h
    dsimp only at h
    cases h
    rfl
  obtain ⟨_, hs⟩ := tokenLoop_seg _ _ _ _ h1 (le_refl 0)
    (fun G hG => absurd hG (List.not_mem_nil G))
  obtain ⟨lo, hi, hlo, hlt, hhi, hseg, _⟩ := hs F (List.mem_cons_self _ _)
  have hlen := seg_length hseg (le_of_lt hlt)
  refine ⟨hg, h4, h5, ?_⟩
  intro x hx
  rw [h2, mem_range_cast] at hx
  rw [hk]
  omega

/-- A fragment whose states are the identifiers from the counter before a call
up to the counter after it, for a counter that stayed in the range of `int`:
its initial state is its smallest state and its states are `int` values. -/
theorem fragment_of_seg {k k' : Int} {g : Graph}
    (h : (Seg k k' g ∧ g.initialState = k) ∧ k < k') (hr : CounterInRange k k') :
    g.Built ∧ MinInit g ∧ ∀ x ∈ g.states, INT_MIN ≤ x ∧ x ≤ INT_MAX := by
  refine ⟨h.1.1.1, minInit_of_seg h.2 h.1, ?_⟩
  intro x hx
  have hx' := (h.1.1.2 x).mp hx
  obtain ⟨hr1, hr2⟩ := hr
  exact ⟨le_trans hr1 hx'.1, le_trans (le_of_lt hx'.2) hr2⟩

/-! ## The claims -/

/-- C1: for every NFA graph `n` that satisfies the class invariant of `Graph`
(in particular every well-formed one) and every word `w` without `$`, the DFA
returned by `buildDFA n` accepts `w`, following the unique transition per
character from its initial state, if and only if `n` accepts `w` as an
epsilon-NFA whose `$`-transitions read nothing. -/
theorem C1_buildDFA_language (n : Graph) (hn : n.Invariant) (w : List Char)
    (hw : EPSILON_CHAR ∉ w) : dfaAccepts (buildDFA n) w = true ↔ nfaAccepts n w :=
  buildDFA_language n hn w hw

/-- Witness of C1 on the example NFA and the word `bba`. -/
theorem C1_buildDFA_language_witness :
    exampleNFA.Invariant ∧ EPSILON_CHAR ∉ "bba".toList ∧
      (dfaAccepts (buildDFA exampleNFA) "bba".toList = true ↔
        nfaAccepts exampleNFA "bba".toList) :=
  ⟨by decide, by decide, C1_buildDFA_language exampleNFA (by decide) _ (by decide)⟩

/-- C2 (code defect): `minimizeDFA` changes the language. For the pattern `ab`
the DFA of `buildDFA` rejects `abb` and its minimisation accepts it; the chain
`0 -a-> 1 -b-> 2` accepts `ab` and its minimisation rejects it. Both inputs are
well-formed partial DFAs with at most one target per state and symbol. -/
theorem C2_minimizeDFA_changes_language :
    buildNFA "ab".toList = .returned nfaAB ∧ (buildDFA nfaAB).WellFormed ∧
      (∀ p ∈ (buildDFA nfaAB).transitions, ∀ q ∈ p.2, q.2.length ≤ 1) ∧
      dfaAccepts (buildDFA nfaAB) "abb".toList = false ∧
      dfaAccepts (minimizeDFA (buildDFA nfaAB)) "abb".toList = true ∧
      chainDFA.WellFormed ∧ (∀ p ∈ chainDFA.transitions, ∀ q ∈ p.2, q.2.length ≤ 1) ∧
      dfaAccepts chainDFA "ab".toList = true ∧
      dfaAccepts (minimizeDFA chainDFA) "ab".toList = false := by
  refine ⟨by decide, by decide, by decide, by decide, by decide, by decide, by decide,
    by decide, by decide⟩

/-- C3 (code defect): the postfix sequence `ab.` denotes the concatenation of
`a` and `b`, whose language does not contain the word `a`, but the NFA built
from `ab.` accepts `a`: `mergeNFA` copies the accepting states of the left
operand and `createConcatNFA` leaves them accepting. -/
theorem C3_concat_accepts_left_operand :
    specPostfixRegex "ab.".toList = some (Regex.concat (Regex.literal 'a') (Regex.literal 'b')) ∧
      "a".toList ∉ (Regex.concat (Regex.literal 'a') (Regex.literal 'b')).language ∧
      buildFromPostfix "ab.".toList = .returned nfaAB ∧ nfaAccepts nfaAB "a".toList := by
  refine ⟨by decide, ?_, by decide, ?_⟩
  · intro h
    simp only [Regex.language] at h
    rw [Language.mem_mul] at h
    obtain ⟨x, hx, y, hy, hxy⟩ := h
    rw [Set.mem_singleton_iff] at hx hy
    subst hx hy
    simp at hxy
  · exact ⟨1, by decide, Reaches.step (by decide) (by decide) (Reaches.done 1)⟩

/-- C4 (code defect): `infixToPostfix` pushes a postfix unary operator on the
operator stack and clears `lastWasOperand`, so no concatenation is inserted
after it: `a*b` gives `ab*` instead of `a*b.`, and `(a|b)*abb` gives
`ab|a*b.b.`; neither result is a well-formed postfix sequence. -/
theorem C4_infixToPostfix_unary_operator :
    infixToPostfix "a*b".toList = "ab*".toList ∧
      infixToPostfix "a*b".toList ≠ "a*b.".toList ∧
      specPostfixRegex (infixToPostfix "a*b".toList) = none ∧
      infixToPostfix "(a|b)*abb".toList = "ab|a*b.b.".toList ∧
      specPostfixRegex (infixToPostfix "(a|b)*abb".toList) = none := by
  refine ⟨by decide, by decide, by decide, by decide, by decide⟩

/-- C5: in the graph returned by `buildDFA` and in the graph returned by
`minimizeDFA`, for any input graph, every state and every symbol, the set
`getNextStates(s, c)` has at most one element. -/
theorem C5_at_most_one_target (g : Graph) (s : Int) (c : Char) :
    ((buildDFA g).getNextStates s c).length ≤ 1 ∧
      ((minimizeDFA g).getNextStates s c).length ≤ 1 :=
  ⟨buildDFA_next_length g s c, minimizeDFA_next_length g s c⟩

/-- C6: for every NFA graph whose edge endpoints and initial state are in its
state set, the queue loop of `buildDFA` ends on an empty queue within its fuel
and more fuel does not change the result; the DFA has at most `2 ^ n` states
for the `n` states of the NFA; the sets expanded by the loop are pairwise
distinct, as many as the DFA has states, and are exactly the sets that were
enqueued, each once. -/
theorem C6_buildDFA_terminates (n : Graph) (hn : n.Invariant)
    (hedges : ∀ e ∈ n.edges, e.u ∈ n.states ∧ e.v ∈ n.states)
    (hinit : n.initialState ∈ n.states) :
    (subsetFinal n).unprocessedStates = [] ∧
      (∀ fuel, subsetFuel n ≤ fuel → subsetLoop n fuel (subsetInit n) = subsetFinal n) ∧
      (buildDFA n).states.length ≤ 2 ^ n.states.length ∧
      (expandedSets n (subsetFuel n) (subsetInit n)).Nodup ∧
      (expandedSets n (subsetFuel n) (subsetInit n)).length = (buildDFA n).states.length ∧
      expandedSets n (subsetFuel n) (subsetInit n) = (subsetFinal n).processedStates.reverse := by
  obtain ⟨hq, hinv⟩ := subsetFinal_spec n
  have hsub : ∀ x ∈ stateUniverse n, x ∈ n.states := by
    intro x hx
    rcases List.mem_cons.mp hx with rfl | hx
    · exact hinit
    · unfold transitionTargets at hx
      simp only [List.mem_flatMap] at hx
      obtain ⟨p, hp, q, hq', ht⟩ := hx
      exact (hedges _ (hn.1 p hp q hq' x ht)).2
  have hexp : expandedSets n (subsetFuel n) (subsetInit n) =
      (subsetFinal n).processedStates.reverse := by
    have h := expandedSets_spec n (subsetFuel n) (subsetInit n) [] (subsetInv_init n)
      (by
        rw [subsetInit_eq]
        have : 1 ≤ subsetFuel n := Nat.one_le_two_pow
        simp only [List.length_singleton]
        omega)
      (by rw [subsetInit_eq]; rfl)
    simpa [subsetFinal] using h.symm
  have hlen := subsetCore_states_length n _ hinv.1
  refine ⟨hq, ?_, ?_, ?_, ?_, hexp⟩
  · intro fuel hfuel
    obtain ⟨k, rfl⟩ := Nat.exists_eq_add_of_le hfuel
    exact subsetLoop_stable n (subsetFuel n) (subsetInit n) hq k
  · unfold buildDFA
    rw [hlen]
    exact card_sorted_subsets n.states _ hinv.1.nodup
      (fun S hS => ⟨(hinv.1.canon S hS).1, fun x hx => hsub x ((hinv.1.canon S hS).2.2 x hx)⟩)
  · rw [hexp]
    exact List.nodup_reverse.mpr hinv.1.nodup
  · rw [hexp, List.length_reverse]
    unfold buildDFA
    exact hlen.symm

/-- Witness of C6 on the example NFA. -/
theorem C6_buildDFA_terminates_witness :
    exampleNFA.Invariant ∧ (∀ e ∈ exampleNFA.edges, e.u ∈ exampleNFA.states ∧
      e.v ∈ exampleNFA.states) ∧ exampleNFA.initialState ∈ exampleNFA.states ∧
      (buildDFA exampleNFA).states.length ≤ 2 ^ exampleNFA.states.length :=
  ⟨by decide, by decide, by decide,
    (C6_buildDFA_terminates exampleNFA (by decide) (by decide) (by decide)).2.2.1⟩

/-- C7 (code defect): minimising twice is not minimising once. The partial DFA
`gapDFA` is well-formed and has at most one target per state and symbol; its
minimisation has 3 states and the minimisation of that has 2 states, so the two
graphs are not isomorphic. -/
theorem C7_minimizeDFA_not_idempotent :
    gapDFA.WellFormed ∧ (∀ p ∈ gapDFA.transitions, ∀ q ∈ p.2, q.2.length ≤ 1) ∧
      (minimizeDFA gapDFA).WellFormed ∧
      (minimizeDFA gapDFA).states.length = 3 ∧
      (minimizeDFA (minimizeDFA gapDFA)).states.length = 2 := by
  refine ⟨by decide, by decide, by decide, by decide, by decide⟩

/-- C8: for every DFA graph whose accepting states are members of its state
set, the number of states of `minimizeDFA d` is the number of groups of the
partition left by `refinePartition`, which no further pass changes, and is at
most the number of states of `d`. -/
theorem C8_minimizeDFA_state_count (d : Graph) (hacc : ∀ a ∈ d.acceptStates, a ∈ d.states) :
    (minimizeDFA d).states.length = (refinePartition d (computeInitialPartition d)).length ∧
      refinePass d (refinePartition d (computeInitialPartition d)) =
        (refinePartition d (computeInitialPartition d), false) ∧
      (minimizeDFA d).states.length ≤ d.states.length := by
  refine ⟨minimizeDFA_states_length d, refinePartition_fixed d _, ?_⟩
  rw [minimizeDFA_states_length]
  exact partInv_length_le d.states _
    (partInv_refinePartition d _ _ (partInv_initial d d.states hacc (fun a ha => ha)))

/-- Witness of C8 on the three-state chain. -/
theorem C8_minimizeDFA_state_count_witness :
    (∀ a ∈ chainDFA.acceptStates, a ∈ chainDFA.states) ∧
      (minimizeDFA chainDFA).states.length ≤ chainDFA.states.length :=
  ⟨by decide, (C8_minimizeDFA_state_count chainDFA (by decide)).2.2⟩

/-- C9 (code defect): on the patterns `*`, `|` and `a|` the token loop of
`buildNFA` calls `top()` on an empty stack, which is undefined behaviour; no
pattern makes `buildNFA` raise an error. -/
theorem C9_underflow_is_undefined_behaviour :
    buildNFA "*".toList = .undefinedBehaviour ∧ buildNFA "|".toList = .undefinedBehaviour ∧
      buildNFA "a|".toList = .undefinedBehaviour ∧
      ∀ (p : List Char) (what : String), buildNFA p ≠ .raised what := by
  refine ⟨by decide, by decide, by decide, buildNFA_not_raised⟩

/-- C10 (code defect): an escaped operator character reaches the token loop
of `buildNFA` as a bare operator: a backslash followed by one of `| . * + ?`
runs into `top()` on an empty stack instead of giving the basic NFA; only for
the other characters is the basic NFA returned. -/
theorem C10_escaped_operator :
    buildNFA ['\\', '*'] = .undefinedBehaviour ∧ buildNFA ['\\', '|'] = .undefinedBehaviour ∧
      buildNFA ['\\', '.'] = .undefinedBehaviour ∧ buildNFA ['\\', '+'] = .undefinedBehaviour ∧
      buildNFA ['\\', '?'] = .undefinedBehaviour ∧
      ∀ c : Char, isOperator c = false →
        buildNFA ['\\', c] =
          .returned { states := [0, 1], edges := [⟨0, 1, c⟩], alphabet := [c],
                      initialState := 0, acceptStates := [1],
                      transitions := [(0, [(c, [1])])] } := by
  refine ⟨by decide, by decide, by decide, by decide, by decide, buildNFA_escape⟩

/-- C11 (code defect): `addEdge` registers the symbol and the target but does
not touch the state set: after `addEdge(0, 1, 'a')` on the empty graph
`getAllStates()` is still empty, and in general the state set is the one
before the call, while `w` is in the alphabet and `v` in `getNextStates(u, w)`. -/
theorem C11_addEdge_leaves_states :
    (Graph.empty.addEdge 0 1 'a').states = [] ∧
      ∀ (g : Graph) (u v : Int) (w : Char),
        w ∈ (g.addEdge u v w).alphabet ∧ v ∈ (g.addEdge u v w).getNextStates u w ∧
          (g.addEdge u v w).states = g.states := by
  refine ⟨by decide, ?_⟩
  intro g u v w
  refine ⟨(mem_setInsert _ _ _).mpr (Or.inl rfl), ?_, rfl⟩
  rw [Graph.getNextStates_addEdge, if_pos ⟨rfl, rfl⟩]
  exact (mem_setInsert _ _ _).mpr (Or.inl rfl)

/-- C12 (code defect): for the pattern `ab` the minimised DFA has 2 states, not
a chain of 3: state 1 is initial and goes on `a` to state 0, which is accepting
and loops on `b`. -/
theorem C12_ab_minimised :
    buildNFA "ab".toList = .returned nfaAB ∧
      minimizeDFA (buildDFA nfaAB) =
        { states := [0, 1], edges := [⟨0, 0, 'b'⟩, ⟨1, 0, 'a'⟩], alphabet := ['a', 'b'],
          initialState := 1, acceptStates := [0],
          transitions := [(0, [('b', [0])]), (1, [('a', [0])])] } ∧
      (minimizeDFA (buildDFA nfaAB)).states.length = 2 := by
  refine ⟨by decide, by decide, by decide⟩

/-- C13 (code defect): for the pattern `(a|b)*abb` the minimised DFA has 1
state, not 5: the postfix form is `ab|a*b.b.`, the NFA is the fragment on top
of the stack, and every state of the DFA is accepting. -/
theorem C13_classic_minimised :
    infixToPostfix "(a|b)*abb".toList = "ab|a*b.b.".toList ∧
      buildNFA "(a|b)*abb".toList = .returned nfaClassic ∧
      (buildDFA nfaClassic).states.length = 4 ∧
      (buildDFA nfaClassic).acceptStates = [0, 1, 2, 3] ∧
      (minimizeDFA (buildDFA nfaClassic)).states.length = 1 := by
  refine ⟨by decide, by decide, by decide, by decide, by decide⟩

/-- C14: for the pattern `a*` the minimised DFA has exactly one state `0`,
which is the initial state and accepting, and its only transition is the loop
`0 -a-> 0`. -/
theorem C14_star_minimised :
    buildNFA "a*".toList = .returned nfaStar ∧
      minimizeDFA (buildDFA nfaStar) =
        { states := [0], edges := [⟨0, 0, 'a'⟩], alphabet := ['a'], initialState := 0,
          acceptStates := [0], transitions := [(0, [('a', [0])])] } := by
  refine ⟨by decide, by decide⟩

/-- C16: in every graph obtained from the empty graph by calls of `addState`,
`addEdge`, `setInitialState` and `addAcceptState`, `v` is in
`getNextStates(s, c)` exactly when the edge `(s, v, c)` is in `getEdges()`,
`c` is in `getAlphabet()` exactly when some edge is labelled `c`, and
`getNextStates(s, c)` is the empty set when no edge leaves `s` on `c`. -/
theorem C16_transitions_are_edges (g : Graph) (hg : g.Built) (s v : Int) (c : Char) :
    (v ∈ g.getNextStates s c ↔ (⟨s, v, c⟩ : Edge) ∈ g.edges) ∧
      (c ∈ g.alphabet ↔ ∃ e ∈ g.edges, e.w = c) ∧
      ((∀ e ∈ g.edges, e.u ≠ s ∨ e.w ≠ c) → g.getNextStates s c = []) := by
  have hinv := hg.invariant
  refine ⟨⟨Graph.edge_of_mem_getNextStates g hinv s v c, fun h => (hinv.2.1 _ h).2⟩,
    ⟨hinv.2.2 c, ?_⟩, ?_⟩
  · rintro ⟨e, he, rfl⟩
    exact (hinv.2.1 e he).1
  · intro h
    apply List.eq_nil_iff_forall_not_mem.mpr
    intro t ht
    rcases h _ (Graph.edge_of_mem_getNextStates g hinv s t c ht) with h1 | h1
    · exact h1 rfl
    · exact h1 rfl

/-- Witness of C16 on the example NFA, whose construction is a sequence of
mutator calls. -/
theorem C16_transitions_are_edges_witness :
    exampleNFA.Built ∧ (2 ∈ exampleNFA.getNextStates 1 'a' ↔
      (⟨1, 2, 'a'⟩ : Edge) ∈ exampleNFA.edges) ∧ exampleNFA.getNextStates 2 'a' = [] :=
  have hb : exampleNFA.Built :=
    .addEdge _ _ _ (.addEdge _ _ _ (.addEdge _ _ _ (.addAcceptState _ (.setInitialState _
      (.addState _ (.addState _ (.addState _ .empty)))))))
  ⟨hb, (C16_transitions_are_edges exampleNFA hb 1 2 'a').1,
    (C16_transitions_are_edges exampleNFA hb 2 0 'a').2.2 (by decide)⟩

/-- C18 (code defect): the accepting states of `createConcatNFA(nfa1, nfa2)`
are the renumbered accepting states of both operands, so every renumbered
accepting state of `nfa1` is accepting in the result. For the basic fragments
of `a` and `b` the result has the accepting states 5 and 7, where 5 is the
renumbered accepting state of `nfa1` and 7 the only image of an accepting
state of `nfa2`. -/
theorem C18_concat_keeps_left_accepting :
    (∀ (nfa1 nfa2 : Graph) (k : Int), ∀ a ∈ nfa1.acceptStates,
      mapGet (mergeNFA Graph.empty nfa1 k).2.1 a ∈ (createConcatNFA nfa1 nfa2 k).1.acceptStates) ∧
    (createConcatNFA (createBasicNFA 'a' 0).1 (createBasicNFA 'b' 2).1 4).1.acceptStates = [5, 7] ∧
    (createBasicNFA 'a' 0).1.acceptStates = [1] ∧
    mapGet (mergeNFA Graph.empty (createBasicNFA 'a' 0).1 4).2.1 1 = 5 ∧
    (createBasicNFA 'b' 2).1.acceptStates = [3] ∧
    mapGet (mergeNFA (mergeNFA Graph.empty (createBasicNFA 'a' 0).1 4).1 (createBasicNFA 'b' 2).1
      (mergeNFA Graph.empty (createBasicNFA 'a' 0).1 4).2.2).2.1 3 = 7 := by
  refine ⟨?_, by decide, by decide, by decide, by decide, by decide⟩
  intro nfa1 nfa2 k a ha
  exact (createConcatNFA_acceptStates nfa1 nfa2 k _).mpr (Or.inl ⟨a, ha, rfl⟩)

/-- C19 (code defect): the partition that `refinePartition` leaves for the
partial DFA `gapDFA` is `{0}, {2}, {1,3,4}`; on the symbol `a` state 4 of the
group `{1,3,4}` has its target inside `{1,3,4}` while state 1 of the same
group has no transition, so the group is not stable under the splitter rule. -/
theorem C19_final_partition_not_stable :
    refinePartition gapDFA (computeInitialPartition gapDFA) = [[0], [2], [1, 3, 4]] ∧
      'a' ∈ gapDFA.alphabet ∧
      gapDFA.getNextStates 4 'a' = [4] ∧ gapDFA.getNextStates 1 'a' = [] ∧
      goesToSplitter gapDFA [1, 3, 4] 'a' 4 = true ∧
      goesToSplitter gapDFA [1, 3, 4] 'a' 1 = false ∧
      canSplit gapDFA [1, 3, 4] [1, 3, 4] 'a' = false := by
  refine ⟨by decide, by decide, by decide, by decide, by decide, by decide, by decide⟩

/-- C17: for every pattern `p` that contains no `(` and no backslash,
`infixToPostfix` of `p` followed by `)` is `infixToPostfix p`: the unmatched
closing parenthesis moves every pending operator to the output, which the
final flush does otherwise. -/
theorem C17_unmatched_close_paren (p : List Char) (h1 : '(' ∉ p) (h2 : '\\' ∉ p) :
    infixToPostfix (p ++ [')']) = infixToPostfix p := by
  have hno := scanFold_no_paren p h1 ([], [], false) (List.not_mem_nil _)
  have ea := scanLoop_append [')'] p h2 ([], [], false)
  have eb := scanLoop_append [] p h2 ([], [], false)
  rw [List.append_nil] at eb
  unfold infixToPostfix
  simp only at ea eb ⊢
  rw [ea, eb]
  have ec : scanLoop [')'] (scanFold p ([], [], false)).1 (scanFold p ([], [], false)).2.1
      (scanFold p ([], [], false)).2.2 =
      ((scanFold p ([], [], false)).1 ++ (scanFold p ([], [], false)).2.1, []) := by
    rw [scanLoop_cons ')' (by decide), scanChar_close _ _ _ hno]
    rfl
  rw [ec]
  simp [scanLoop]

/-- Witness of C17 on the pattern `a|b`. -/
theorem C17_unmatched_close_paren_witness :
    '(' ∉ "a|b".toList ∧ '\\' ∉ "a|b".toList ∧
      infixToPostfix ("a|b".toList ++ [')']) = infixToPostfix "a|b".toList :=
  ⟨by decide, by decide, C17_unmatched_close_paren "a|b".toList (by decide) (by decide)⟩

/-- C15: for every graph produced through the public interface, a pass of the
loop of `refinePartition` that sets `changed` has more groups after it than
before, the number of groups after any number of passes is at most the number
of states, and the loop ends: its result is the partition after some number of
passes, a further pass does not change it, more fuel gives the same result,
and its groups are not empty, so that `minimizeDFA` takes the head of each. -/
theorem C15_refinePartition_terminates (d : Graph) (hd : d.Built) :
    (∀ P, (refinePass d P).2 = true → P.length < (refinePass d P).1.length) ∧
      (∀ k, (refinePasses d k (computeInitialPartition d)).length ≤ d.states.length) ∧
      (∃ k, refinePartition d (computeInitialPartition d) =
        refinePasses d k (computeInitialPartition d)) ∧
      refinePass d (refinePartition d (computeInitialPartition d)) =
        (refinePartition d (computeInitialPartition d), false) ∧
      (∀ fuel, ((computeInitialPartition d).map List.length).sum + 1 ≤ fuel →
        refineLoop d fuel (computeInitialPartition d) =
          refinePartition d (computeInitialPartition d)) ∧
      (∀ G ∈ refinePartition d (computeInitialPartition d), G ≠ []) := by
  have h0 := partInv_initial d d.states hd.accept_subset (fun a ha => ha)
  refine ⟨fun P => (refinePass_length d P).2, ?_, refineLoop_eq_passes d _ _,
    refinePartition_fixed d _, ?_, ?_⟩
  · intro k
    exact partInv_length_le d.states _ (partInv_refinePasses d _ _ h0 k)
  · intro fuel hfuel
    obtain ⟨extra, rfl⟩ := Nat.exists_eq_add_of_le hfuel
    have := splitPotential_le (computeInitialPartition d)
    exact refineLoop_stable d _ _ (by omega) extra
  · intro G hG
    exact ((partInv_refinePartition d _ _ h0).1 G hG).1

/-- Witness of C15 on the three-state chain, whose construction is a sequence
of mutator calls. -/
theorem C15_refinePartition_terminates_witness :
    chainDFA.Built ∧
      (refinePasses chainDFA 3 (computeInitialPartition chainDFA)).length
        ≤ chainDFA.states.length :=
  have hb : chainDFA.Built :=
    .addEdge _ _ _ (.addEdge _ _ _ (.addAcceptState _ (.setInitialState _
      (.addState _ (.addState _ (.addState _ .empty))))))
  ⟨hb, (C15_refinePartition_terminates chainDFA hb).2.1 3⟩

/-- C20: for every graph whose accepting states are in its state set, the
initial partition (`k = 0`) and the partition after `k` passes of
`refinePartition` consist of non-empty, pairwise disjoint groups, a state is
in the state set exactly when it is in some group, and every group after the
next pass is a subset of some group before that pass. -/
theorem C20_partition_invariant (d : Graph) (hacc : ∀ a ∈ d.acceptStates, a ∈ d.states)
    (k : Nat) :
    (∀ G ∈ refinePasses d k (computeInitialPartition d), G ≠ []) ∧
      (refinePasses d k (computeInitialPartition d)).Pairwise (fun G H => ∀ x ∈ G, x ∉ H) ∧
      (∀ x, x ∈ d.states ↔ ∃ G ∈ refinePasses d k (computeInitialPartition d), x ∈ G) ∧
      (∀ H ∈ refinePasses d (k + 1) (computeInitialPartition d),
        ∃ G ∈ refinePasses d k (computeInitialPartition d), ∀ x ∈ H, x ∈ G) := by
  have h0 := partInv_initial d d.states hacc (fun a ha => ha)
  have hk := partInv_refinePasses d _ _ h0 k
  refine ⟨fun G hG => (hk.1 G hG).1, hk.2, ?_, ?_⟩
  · intro x
    rw [refinePasses_cover, initial_cover d hacc]
  · exact refinePass_refines d _

/-- Witness of C20 on the partial DFA `gapDFA` after one pass. -/
theorem C20_partition_invariant_witness :
    (∀ a ∈ gapDFA.acceptStates, a ∈ gapDFA.states) ∧
      refinePasses gapDFA 1 (computeInitialPartition gapDFA) = [[0], [2], [1, 3, 4]] ∧
      (refinePasses gapDFA 1 (computeInitialPartition gapDFA)).Pairwise
        (fun G H => ∀ x ∈ G, x ∉ H) :=
  ⟨by decide, by decide, (C20_partition_invariant gapDFA (by decide) 1).2.1⟩

/-- C21: for every graph `n` and every list of states `S`, the loop of
`epsilonClosure` ends on an empty stack within its fuel and more fuel gives the
same closure; `epsilonClosure(n, S)` holds exactly the states reachable from
some member of `S` along `$`-labelled transitions; `S` is inside the result;
and the closure of the closure is the closure. -/
theorem C21_epsilonClosure_correct (n : Graph) (S : List Int) :
    (∀ s, (closureLoop n ((transitionTargets n).length + 1) ([s], [s])).2 = [] ∧
      ∀ fuel, (transitionTargets n).length + 1 ≤ fuel →
        (closureLoop n fuel ([s], [s])).1 = epsilonClosure n s) ∧
      (∀ s t, t ∈ epsilonClosure n s ↔ EpsReach n s t) ∧
      (∀ t, t ∈ epsilonClosureSet n S ↔ ∃ s ∈ S, EpsReach n s t) ∧
      (∀ s ∈ S, s ∈ epsilonClosureSet n S) ∧
      epsilonClosureSet n (epsilonClosureSet n S) = epsilonClosureSet n S := by
  refine ⟨?_, mem_epsilonClosure n, mem_epsilonClosureSet n S, ?_, epsilonClosureSet_idem n S⟩
  · intro s
    have h := (epsilonClosure_inv n s).1
    refine ⟨h, ?_⟩
    intro fuel hfuel
    obtain ⟨k, rfl⟩ := Nat.exists_eq_add_of_le hfuel
    rw [closureLoop_stable n _ _ h k]
    rfl
  · intro s hs
    exact (mem_epsilonClosureSet n S s).mpr ⟨s, hs, Relation.ReflTransGen.refl⟩

/-- C22: after `buildDFA(n)` the identity map `stateSetToId` has an entry
exactly for the sets that were seen, each of them non-empty; every identifier
is a state of the DFA, two sets with the same identifier are equal, and every
state of the DFA is the identifier of a set; the identifier of a set is an
accepting state exactly when the set holds an accepting state of `n`. -/
theorem C22_identity_map_bijective (n : Graph) :
    (∀ S, S ∈ (subsetFinal n).processedStates ↔
      ∃ i, mapFind S (subsetFinal n).builder.stateSetToId = some i) ∧
      (∀ S ∈ (subsetFinal n).processedStates, S ≠ []) ∧
      (∀ S i, mapFind S (subsetFinal n).builder.stateSetToId = some i →
        i ∈ (buildDFA n).states) ∧
      (∀ S T i, mapFind S (subsetFinal n).builder.stateSetToId = some i →
        mapFind T (subsetFinal n).builder.stateSetToId = some i → S = T) ∧
      (∀ i ∈ (buildDFA n).states,
        ∃ S, mapFind S (subsetFinal n).builder.stateSetToId = some i) ∧
      (∀ S i, mapFind S (subsetFinal n).builder.stateSetToId = some i →
        (i ∈ (buildDFA n).acceptStates ↔ ∃ q, q ∈ n.acceptStates ∧ q ∈ S)) := by
  obtain ⟨_, hinv⟩ := subsetFinal_spec n
  have hc := hinv.1
  refine ⟨hc.keys, fun S hS => (hc.canon S hS).2.1, ?_, hc.inj,
    subsetCore_surjective n _ hc, ?_⟩
  · intro S i hi
    exact (hc.states i).mpr (hc.bound S i hi)
  · intro S i hi
    exact (hc.accept S i hi).trans (containsAccept_iff n S)

/-- C23: for every pattern on which `buildNFA` returns an NFA, the token loop
ended with a fragment `F` on top of the stack, the states of the returned NFA
are `0, 1, ..., n - 1` in ascending order for the number `n` of states of `F`,
and both endpoints of every edge, the initial state and every accepting state
of the returned NFA are members of its state set. -/
theorem C23_buildNFA_states_dense (p : List Char) (g : Graph)
    (h : buildNFA p = .returned g) :
    ∃ F rest k, tokenLoop (infixToPostfix p) [] 0 = .returned (F :: rest, k) ∧
      g.states = (List.range F.states.length).map (fun i : Nat => (i : Int)) ∧
      (∀ e ∈ g.edges, e.u ∈ g.states ∧ e.v ∈ g.states) ∧ g.initialState ∈ g.states ∧
      (∀ a ∈ g.acceptStates, a ∈ g.states) := by
  obtain ⟨F, rest, k, h1, h2, h3, _, _⟩ := buildNFA_shape p g h
  exact ⟨F, rest, k, h1, h2, h3⟩

/-- Witness of C23 on the pattern `ab`. -/
theorem C23_buildNFA_states_dense_witness :
    buildNFA "ab".toList = .returned nfaAB ∧
      ∃ F rest k, tokenLoop (infixToPostfix "ab".toList) [] 0 = .returned (F :: rest, k) ∧
        nfaAB.states = (List.range F.states.length).map (fun i : Nat => (i : Int)) ∧
        (∀ e ∈ nfaAB.edges, e.u ∈ nfaAB.states ∧ e.v ∈ nfaAB.states) ∧
        nfaAB.initialState ∈ nfaAB.states ∧ (∀ a ∈ nfaAB.acceptStates, a ∈ nfaAB.states) :=
  ⟨by decide, C23_buildNFA_states_dense "ab".toList nfaAB (by decide)⟩

/-- C24: `buildNFA` and `buildDFA` reset the builder on entry, so for every
pattern and any two `NFABuilder` states the outcome is the same and its graph
is the one of `buildNFA`, for every NFA and any two `DFABuilder` states
(any counter, any identity map) the graph and the builder left behind are the
same, and a second run on the builder left by a first run gives the same
result again. -/
theorem C24_builder_state_is_reset :
    (∀ (b₁ b₂ : NFABuilder) (p : List Char), buildNFAOn b₁ p = buildNFAOn b₂ p) ∧
      (∀ (b : NFABuilder) (p : List Char), outcomeGraph (buildNFAOn b p) = buildNFA p) ∧
      (∀ (b : NFABuilder) (p : List Char) (r : Graph × NFABuilder),
        buildNFAOn b p = .returned r → buildNFAOn r.2 p = .returned r) ∧
      (∀ (b₁ b₂ : DFABuilder) (n : Graph), buildDFAOn b₁ n = buildDFAOn b₂ n) ∧
      (∀ (b : DFABuilder) (n : Graph), (buildDFAOn b n).1 = buildDFA n) ∧
      (∀ (b : DFABuilder) (n : Graph), buildDFAOn (buildDFAOn b n).2 n = buildDFAOn b n) := by
  refine ⟨fun _ _ _ => rfl, buildNFAOn_graph, fun b p r h => h, fun _ _ _ => rfl,
    buildDFAOn_graph, fun _ _ => rfl⟩

/-- C25: for all fragments `nfa1` and `nfa2` produced through the public
interface of `Graph` whose initial state is the smallest member of their state
set, and every value `k` of the counter, each call of `createBasicNFA`,
`createUnionNFA`, `createConcatNFA`, `createStarNFA`, `createPlusNFA` and
`createOptionalNFA` that keeps the counter in the range of `int` (it starts at
an `int` value and does not pass `INT_MAX`) gives a fragment of the same kind:
produced through the public interface, with its initial state in its state set
and no state below it, all of its states `int` values. Consequently a run of
`buildNFA` that returns and leaves the counter at most at `INT_MAX` returns an
NFA with the initial state `0`, which is its smallest state. -/
theorem C25_initial_state_is_smallest (nfa1 nfa2 : Graph) (k : Int)
    (h1 : nfa1.Built ∧ MinInit nfa1) (h2 : nfa2.Built ∧ MinInit nfa2) :
    (∀ c, CounterInRange k (createBasicNFA c k).2 →
      (createBasicNFA c k).1.Built ∧ MinInit (createBasicNFA c k).1 ∧
        ∀ x ∈ (createBasicNFA c k).1.states, INT_MIN ≤ x ∧ x ≤ INT_MAX) ∧
      (CounterInRange k (createUnionNFA nfa1 nfa2 k).2 →
        (createUnionNFA nfa1 nfa2 k).1.Built ∧ MinInit (createUnionNFA nfa1 nfa2 k).1 ∧
          ∀ x ∈ (createUnionNFA nfa1 nfa2 k).1.states, INT_MIN ≤ x ∧ x ≤ INT_MAX) ∧
      (CounterInRange k (createConcatNFA nfa1 nfa2 k).2 →
        (createConcatNFA nfa1 nfa2 k).1.Built ∧ MinInit (createConcatNFA nfa1 nfa2 k).1 ∧
          ∀ x ∈ (createConcatNFA nfa1 nfa2 k).1.states, INT_MIN ≤ x ∧ x ≤ INT_MAX) ∧
      (CounterInRange k (createStarNFA nfa1 k).2 →
        (createStarNFA nfa1 k).1.Built ∧ MinInit (createStarNFA nfa1 k).1 ∧
          ∀ x ∈ (createStarNFA nfa1 k).1.states, INT_MIN ≤ x ∧ x ≤ INT_MAX) ∧
      (CounterInRange k (createPlusNFA nfa1 k).2 →
        (createPlusNFA nfa1 k).1.Built ∧ MinInit (createPlusNFA nfa1 k).1 ∧
          ∀ x ∈ (createPlusNFA nfa1 k).1.states, INT_MIN ≤ x ∧ x ≤ INT_MAX) ∧
      (CounterInRange k (createOptionalNFA nfa1 k).2 →
        (createOptionalNFA nfa1 k).1.Built ∧ MinInit (createOptionalNFA nfa1 k).1 ∧
          ∀ x ∈ (createOptionalNFA nfa1 k).1.states, INT_MIN ≤ x ∧ x ≤ INT_MAX) ∧
      ∀ (b : NFABuilder) (p : List Char) (r : Graph × NFABuilder),
        buildNFAOn b p = .returned r → CounterInRange 0 r.2.stateCounter →
          buildNFA p = .returned r.1 ∧ r.1.initialState = 0 ∧ MinInit r.1 ∧
            ∀ x ∈ r.1.states, INT_MIN ≤ x ∧ x ≤ INT_MAX := by
  refine ⟨fun c => fragment_of_seg (createBasicNFA_seg c k),
    fragment_of_seg (createUnionNFA_seg nfa1 nfa2 k h1.1 h2.1),
    fragment_of_seg (createConcatNFA_seg nfa1 nfa2 k h1.1 h1.2 h2.1),
    fragment_of_seg (createStarNFA_seg nfa1 k h1.1),
    fragment_of_seg (createPlusNFA_seg nfa1 k h1.1),
    fragment_of_seg (createOptionalNFA_seg nfa1 k h1.1), ?_⟩
  intro b p r h hr
  obtain ⟨h3, h4, h5, h6⟩ := buildNFAOn_shape b p r h
  refine ⟨h3, h4, h5, ?_⟩
  intro x hx
  obtain ⟨hr1, hr2⟩ := hr
  have hx' := h6 x hx
  exact ⟨le_trans hr1 hx'.1, le_trans (le_of_lt hx'.2) hr2⟩

/-- Witness of C25 on the basic fragments of `a` and `b`, combined at the
counter 4, and on the pattern `ab`, which leaves the counter at 8. -/
theorem C25_initial_state_is_smallest_witness :
    MinInit (createBasicNFA 'a' 0).1 ∧ MinInit (createBasicNFA 'b' 2).1 ∧
      (createConcatNFA (createBasicNFA 'a' 0).1 (createBasicNFA 'b' 2).1 4).2 = 8 ∧
      (createConcatNFA (createBasicNFA 'a' 0).1 (createBasicNFA 'b' 2).1 4).1.initialState = 4 ∧
      MinInit (createConcatNFA (createBasicNFA 'a' 0).1 (createBasicNFA 'b' 2).1 4).1 ∧
      MinInit (createUnionNFA (createBasicNFA 'a' 0).1 (createBasicNFA 'b' 2).1 4).1 ∧
      buildNFAOn { stateCounter := 7 } "ab".toList = .returned (nfaAB, { stateCounter := 8 }) ∧
      nfaAB.initialState = 0 :=
  have ha : (createBasicNFA 'a' 0).1.Built :=
    .addEdge _ _ _ (.addAcceptState _ (.setInitialState _ (.addState _ (.addState _ .empty))))
  have hb : (createBasicNFA 'b' 2).1.Built :=
    .addEdge _ _ _ (.addAcceptState _ (.setInitialState _ (.addState _ (.addState _ .empty))))
  have h := C25_initial_state_is_smallest (createBasicNFA 'a' 0).1 (createBasicNFA 'b' 2).1 4
    ⟨ha, by decide⟩ ⟨hb, by decide⟩
  ⟨by decide, by decide, by decide, by decide, (h.2.2.1 (by decide)).2.1, (h.2.1 (by decide)).2.1,
    by decide,
    (h.2.2.2.2.2.2 { stateCounter := 7 } "ab".toList (nfaAB, { stateCounter := 8 }) (by decide)
      (by decide)).2.1⟩

end RegexpToDFA
